import Mathlib

/-! # create-memo: the archival routine, the filename classifier and the memo creator

A shallow embedding of `src/cmd/cm/main.go` (the `cm` command) and `src/main.go`
(the root variant).  Go strings are lists of characters.  The Go standard
library calls the program makes (`regexp`, `strconv`, `fmt`, `time`,
`path/filepath`, `os`) are embedded from their documented behaviour; the
functions of the repository keep their Go names and are embedded line by line.
-/

namespace CreateMemo

/-- A Go `string`. -/
abbrev Str := List Char

/-! ## regexp: the classes `\d` and `\w`, and `timestampRegex` -/

/-- The class `\d`: an ASCII decimal digit. -/
def isDigit (c : Char) : Bool := decide ('0' ≤ c) && decide (c ≤ '9')

/-- The class `\w`: an ASCII letter, an ASCII digit or the underscore. -/
def isWord (c : Char) : Bool :=
  isDigit c || (decide ('a' ≤ c) && decide (c ≤ 'z')) ||
    (decide ('A' ≤ c) && decide (c ≤ 'Z')) || c == '_'

/-- The sub-pattern `\d{n}` at the head of `s`: the `n` digits consumed and the rest,
or `none` when fewer than `n` digits stand there. -/
def matchDigits : Nat → Str → Option (Str × Str)
  | 0, s => some ([], s)
  | _ + 1, [] => none
  | n + 1, c :: cs =>
    if isDigit c then
      match matchDigits n cs with
      | some (ds, rest) => some (c :: ds, rest)
      | none => none
    else none

/-- The sub-pattern `(\w+)$`: the whole of `s`, which has to be a non-empty run of word
characters reaching the end of the text. -/
def matchWordsToEnd (s : Str) : Option Str :=
  if s ≠ [] ∧ s.all isWord then some s else none

/-- The call `timestampRegex.FindStringSubmatch(name)` for
`^(\d{4})(\d{2})(\d{2})\d{6}\.(\w+)$`: `none` is Go's `nil`; a match is the slice of the
whole match followed by the four groups. -/
def FindStringSubmatch (name : Str) : Option (List Str) :=
  match matchDigits 4 name with
  | none => none
  | some (g1, r1) =>
    match matchDigits 2 r1 with
    | none => none
    | some (g2, r2) =>
      match matchDigits 2 r2 with
      | none => none
      | some (g3, r3) =>
        match matchDigits 6 r3 with
        | none => none
        | some (_, r4) =>
          match r4 with
          | '.' :: r5 =>
            match matchWordsToEnd r5 with
            | some g4 => some [name, g1, g2, g3, g4]
            | none => none
          | _ => none

/-- The slice index `matches[i]`. -/
def idx (ms : List Str) (i : Nat) : Str := ms.getD i []

/-! ## strconv.Atoi -/

/-- The value of a decimal digit character. -/
def digitVal (c : Char) : Nat := c.toNat - '0'.toNat

/-- The value of the digit string `s` read after the accumulator `acc`, or `none` at a
character that is no digit. -/
def parseDigits : Nat → Str → Option Nat
  | acc, [] => some acc
  | acc, c :: cs => if isDigit c then parseDigits (acc * 10 + digitVal c) cs else none

/-- The unsigned part of `strconv.Atoi`: a non-empty digit string. -/
def parseUnsigned (s : Str) : Option Nat :=
  if s = [] then none else parseDigits 0 s

/-- The function `strconv.Atoi` on a 64-bit platform: an optional sign, then one or more
decimal digits; `none` is a syntax error or a value outside the range of `int`. -/
def Atoi (s : Str) : Option Int :=
  match s with
  | '-' :: rest =>
    match parseUnsigned rest with
    | some n => if n ≤ 9223372036854775808 then some (-(n : Int)) else none
    | none => none
  | '+' :: rest =>
    match parseUnsigned rest with
    | some n => if n ≤ 9223372036854775807 then some (n : Int) else none
    | none => none
  | _ =>
    match parseUnsigned s with
    | some n => if n ≤ 9223372036854775807 then some (n : Int) else none
    | none => none

/-! ## Decimal output: fmt's `%0Nd` and the time package's `appendInt` -/

/-- The character of a decimal digit. -/
def digitChar (d : Nat) : Char := Char.ofNat ('0'.toNat + d % 10)

/-- The decimal digits of `n`, most significant first; `fuel` bounds the recursion. -/
def decimalAux : Nat → Nat → Str
  | 0, _ => []
  | fuel + 1, n =>
    if n < 10 then [digitChar n] else decimalAux fuel (n / 10) ++ [digitChar n]

/-- The decimal numeral of `n`. -/
def decimal (n : Nat) : Str := decimalAux (n + 1) n

/-- Left padding with zeros up to `width` characters. -/
def padZeros (width : Nat) (s : Str) : Str := List.replicate (width - s.length) '0' ++ s

/-- The verb `%0<width>d` of `fmt.Sprintf`: the sign counts in the width. -/
def fmtZeroD (width : Nat) (x : Int) : Str :=
  if x < 0 then '-' :: padZeros (width - 1) (decimal x.natAbs)
  else padZeros width (decimal x.natAbs)

/-- The call `fmt.Sprintf("%04d/%02d", year, month)`. -/
def sprintfYearMonth (year month : Int) : Str :=
  fmtZeroD 4 year ++ '/' :: fmtZeroD 2 month

/-- The time package's `appendInt(b, x, width)`: the sign does not count in the width. -/
def appendInt (x : Int) (width : Nat) : Str :=
  if x < 0 then '-' :: padZeros width (decimal x.natAbs)
  else padZeros width (decimal x.natAbs)

/-! ## time -/

/-- The instant a Go `time.Time` denotes: seconds since the Unix epoch and nanoseconds
within the second.  Values built by `time.Date` are instants. -/
structure Time where
  sec : Int
  nsec : Int
  deriving DecidableEq, Repr

/-- The method `t.Before(u)`. -/
def Time.Before (t u : Time) : Bool :=
  decide (t.sec < u.sec) || (decide (t.sec = u.sec) && decide (t.nsec < u.nsec))

/-- What the method `l.lookup(sec)` of a `*time.Location` returns for the instant `sec`:
the offset in effect, in seconds east of UTC, and the instants `start` and `stop` between
which that offset is in effect. -/
structure ZoneSpan where
  offset : Int
  start : Int
  stop : Int

/-- A `*time.Location`, given by its method `lookup`. -/
structure Location where
  lookup : Int → ZoneSpan

/-- The location `time.UTC`: offset 0 from `alpha` to `omega`. -/
def UTC : Location := ⟨fun _ => ⟨0, -9223372036854775808, 9223372036854775807⟩⟩

/-- The location `time.FixedZone(name, offset)`: one offset from `alpha` to `omega`. -/
def FixedZone (offset : Int) : Location :=
  ⟨fun _ => ⟨offset, -9223372036854775808, 9223372036854775807⟩⟩

/-- The value `time.Now()` returns, given by what `t.Date()`, `t.Clock()` and
`t.Nanosecond()` read, the offset in effect at that instant, in seconds east of UTC, and
`t.Location()`. -/
structure LocalTime where
  year : Int
  month : Int
  day : Int
  hour : Int
  min : Int
  sec : Int
  nsec : Int
  offset : Int
  loc : Location

/-- The helper `norm(hi, lo, base)` of the time package. -/
def norm (hi lo base : Int) : Int × Int :=
  let (hi, lo) :=
    if lo < 0 then
      let n := (-lo - 1) / base + 1
      (hi - n, lo + n * base)
    else (hi, lo)
  if lo ≥ base then
    let n := lo / base
    (hi + n, lo - n * base)
  else (hi, lo)

/-- Leap years of the proleptic Gregorian calendar. -/
def isLeap (year : Int) : Bool :=
  decide (year % 4 = 0) && (decide (year % 100 ≠ 0) || decide (year % 400 = 0))

/-- The table `daysBefore`: days of a non-leap year before month `m + 1`. -/
def daysBefore (m : Int) : Int :=
  if m ≤ 0 then 0 else if m = 1 then 31 else if m = 2 then 59 else if m = 3 then 90
  else if m = 4 then 120 else if m = 5 then 151 else if m = 6 then 181
  else if m = 7 then 212 else if m = 8 then 243 else if m = 9 then 273
  else if m = 10 then 304 else if m = 11 then 334 else 365

/-- Days from 1970-01-01 to 1 January of `year`. -/
def daysSinceEpoch (year : Int) : Int :=
  let y := year - 1
  365 * y + y / 4 - y / 100 + y / 400 - 719162

/-- The function `time.Date(year, month, day, hour, min, sec, nsec, loc)`: the fields may
lie outside their usual ranges and are normalised; the offset is looked up in `loc` at
the date read as UTC, and looked up again at the adjusted instant when that instant lies
outside the span found first. -/
def Date (year month day hour min sec nsec : Int) (loc : Location) : Time :=
  let (year, m) := norm year (month - 1) 12
  let month := m + 1
  let (sec, nsec) := norm sec nsec 1000000000
  let (min, sec) := norm min sec 60
  let (hour, min) := norm hour min 60
  let (day, hour) := norm day hour 24
  let d := daysSinceEpoch year + daysBefore (month - 1) +
    (if isLeap year ∧ month ≥ 3 then 1 else 0) + (day - 1)
  let unix := d * 86400 + hour * 3600 + min * 60 + sec
  let z := loc.lookup unix
  if z.offset ≠ 0 then
    let utc := unix - z.offset
    if utc < z.start ∨ utc ≥ z.stop then ⟨unix - (loc.lookup utc).offset, nsec⟩
    else ⟨unix - z.offset, nsec⟩
  else ⟨unix, nsec⟩

/-- The method `t.AddDate(years, months, days)`. -/
def LocalTime.AddDate (t : LocalTime) (years months days : Int) : Time :=
  Date (t.year + years) (t.month + months) (t.day + days) t.hour t.min t.sec t.nsec t.loc

/-- The instant of a clock reading: its date and time at its own offset. -/
def LocalTime.toTime (t : LocalTime) : Time :=
  Date t.year t.month t.day t.hour t.min t.sec t.nsec (FixedZone t.offset)

/-- The method `t.Format("20060102150405")`. -/
def LocalTime.Format (t : LocalTime) : Str :=
  appendInt t.year 4 ++ appendInt t.month 2 ++ appendInt t.day 2 ++
    appendInt t.hour 2 ++ appendInt t.min 2 ++ appendInt t.sec 2

/-- The length of month `month` of `year`. -/
def daysIn (year month : Int) : Int :=
  if month = 2 then (if isLeap year then 29 else 28)
  else if month = 4 ∨ month = 6 ∨ month = 9 ∨ month = 11 then 30 else 31

/-- The readings a clock can show: a date of the calendar, a time of day, and a zone less
than a day away from UTC. -/
def LocalTime.Valid (t : LocalTime) : Prop :=
  1 ≤ t.month ∧ t.month ≤ 12 ∧ 1 ≤ t.day ∧ t.day ≤ daysIn t.year t.month ∧
  0 ≤ t.hour ∧ t.hour < 24 ∧ 0 ≤ t.min ∧ t.min < 60 ∧ 0 ≤ t.sec ∧ t.sec < 60 ∧
  0 ≤ t.nsec ∧ t.nsec < 1000000000 ∧ -86400 < t.offset ∧ t.offset < 86400

instance (t : LocalTime) : Decidable t.Valid := by
  unfold LocalTime.Valid; exact inferInstance

/-! ## path/filepath: Clean and Join (Unix) -/

/-- The elements of a path between its separators. -/
def splitSlash : Str → List Str
  | [] => [[]]
  | c :: cs =>
    if c = '/' then [] :: splitSlash cs
    else
      match splitSlash cs with
      | [] => [[c]]
      | h :: t => (c :: h) :: t

/-- One element processed by `filepath.Clean`; `stk` holds the elements kept so far, the
last one first.  Empty and `.` elements are dropped, `..` removes the element before it
when there is one to remove, and stays (unrooted) or is dropped (rooted) otherwise. -/
def cleanStep (rooted : Bool) (stk : List Str) (c : Str) : List Str :=
  if c = [] ∨ c = ['.'] then stk
  else if c = ['.', '.'] then
    match stk with
    | [] => if rooted then [] else [c]
    | top :: rest => if top = ['.', '.'] then c :: stk else rest
  else c :: stk

/-- The elements of a path joined by separators. -/
def joinSlash : List Str → Str
  | [] => []
  | [a] => a
  | a :: b :: rest => a ++ '/' :: joinSlash (b :: rest)

/-- A path in the form the operating system resolves it to (no symbolic links): whether
it starts at the root, and its elements. -/
structure RPath where
  rooted : Bool
  comps : List Str
  deriving DecidableEq, Repr

/-- Whether the path string starts at the root. -/
def isRooted (path : Str) : Bool :=
  match path with
  | '/' :: _ => true
  | _ => false

/-- The elements `filepath.Clean` keeps of a non-empty path. -/
def cleanComps (path : Str) : List Str :=
  ((splitSlash path).foldl (cleanStep (isRooted path)) []).reverse

/-- The text of a cleaned path. -/
def RPath.text (p : RPath) : Str :=
  if p.rooted then '/' :: joinSlash p.comps
  else if p.comps = [] then ['.'] else joinSlash p.comps

/-- The function `filepath.Clean`. -/
def Clean (path : Str) : Str :=
  if path = [] then ['.'] else RPath.text ⟨isRooted path, cleanComps path⟩

/-- The function `strings.Join(elems, "/")`. -/
def stringsJoin : List Str → Str
  | [] => []
  | [a] => a
  | a :: b :: rest => a ++ '/' :: stringsJoin (b :: rest)

/-- The function `filepath.Join`: empty leading elements are ignored, the rest is joined by
separators and cleaned. -/
def filepathJoin : List Str → Str
  | [] => []
  | e :: es => if e = [] then filepathJoin es else Clean (stringsJoin (e :: es))

/-! ## os: a file system with failures -/

/-- What a path resolves to: the empty path resolves to nothing.  A path is resolved by
its text, as `filepath.Clean` reads it: `x/..` stands for the directory above `x` whether
or not `x` exists, and there are no symbolic links. -/
def resolve (path : Str) : Option RPath :=
  if path = [] then none else some ⟨isRooted path, cleanComps path⟩

/-- A node of the file system: a regular file with its size, or a directory. -/
inductive Node where
  | file (size : Nat)
  | dir
  deriving DecidableEq, Repr

/-- The file system: the nodes by resolved path, the first binding of a path counting. -/
abbrev FS := List (RPath × Node)

/-- The node at a path; the root and the working directory always exist. -/
def FS.get (fs : FS) (p : RPath) : Option Node :=
  if p.comps = [] then some Node.dir
  else
    match fs with
    | [] => none
    | (q, n) :: rest => if q = p then some n else FS.get rest p

/-- The file system without the node at `p`. -/
def FS.erase (fs : FS) (p : RPath) : FS := fs.filter (fun b => decide (b.1 ≠ p))

/-- The file system with node `n` at `p`. -/
def FS.set (fs : FS) (p : RPath) (n : Node) : FS := (p, n) :: FS.erase fs p

/-- The parent of a path. -/
def RPath.parent (p : RPath) : RPath := ⟨p.rooted, p.comps.dropLast⟩

/-- Whether some node lies directly below `p`. -/
def FS.hasChild (fs : FS) (p : RPath) : Bool :=
  fs.any (fun b => decide (b.1.comps ≠ []) && decide (b.1.parent = p))

/-- A call the program made to the operating system, with its arguments and whether it
succeeded. -/
inductive Call where
  | readDir (path : Str) (ok : Bool)
  | stat (path : Str) (ok : Bool)
  | remove (path : Str) (ok : Bool)
  | mkdirAll (path : Str) (ok : Bool)
  | rename (oldpath newpath : Str) (ok : Bool)
  | create (path : Str) (ok : Bool)
  deriving DecidableEq, Repr

/-- Whether the call succeeded. -/
def Call.ok : Call → Bool
  | .readDir _ b => b
  | .stat _ b => b
  | .remove _ b => b
  | .mkdirAll _ b => b
  | .rename _ _ b => b
  | .create _ b => b

/-- The world the program runs in: the file system, and the calls made so far, the oldest
first. -/
structure World where
  fs : FS
  calls : List Call
  deriving DecidableEq, Repr

/-- The paths a call names. -/
def Call.paths : Call → List Str
  | .readDir p _ => [p]
  | .stat p _ => [p]
  | .remove p _ => [p]
  | .mkdirAll p _ => [p]
  | .rename p q _ => [p, q]
  | .create p _ => [p]

/-- What the file system of the world holds at a path. -/
def World.nodeAt (w : World) (path : Str) : Option Node :=
  match resolve path with
  | none => none
  | some p => w.fs.get p

/-- The failures the environment injects (permissions, input/output errors, a file
another process removed): a call on a path marked here fails whatever the file system
holds.  `home` is what `os.UserHomeDir` and `user.Current` report, `none` an error. -/
structure Env where
  home : Option Str
  readDirFails : Str → Bool
  statFails : Str → Bool
  removeFails : Str → Bool
  mkdirAllFails : Str → Bool
  renameFails : Str → Str → Bool
  createFails : Str → Bool

/-- The environment that injects no failure. -/
def Env.reliable (home : Option Str) : Env :=
  ⟨home, fun _ => false, fun _ => false, fun _ => false, fun _ => false,
    fun _ _ => false, fun _ => false⟩

/-- The call `os.Stat(path)`: the node at the path, or `none` for an error. -/
def osStat (env : Env) (w : World) (path : Str) : Option Node × World :=
  let r : Option Node :=
    if env.statFails path then none
    else
      match resolve path with
      | none => none
      | some p => w.fs.get p
  (r, { w with calls := w.calls ++ [Call.stat path r.isSome] })

/-- The call `os.Remove(path)`: removes a file or an empty directory; the result tells
whether it succeeded. -/
def osRemove (env : Env) (w : World) (path : Str) : Bool × World :=
  let r : Option FS :=
    if env.removeFails path then none
    else
      match resolve path with
      | none => none
      | some p =>
        if p.comps = [] then none
        else
          match w.fs.get p with
          | none => none
          | some (Node.file _) => some (w.fs.erase p)
          | some Node.dir => if w.fs.hasChild p then none else some (w.fs.erase p)
  match r with
  | some fs => (true, ⟨fs, w.calls ++ [Call.remove path true]⟩)
  | none => (false, { w with calls := w.calls ++ [Call.remove path false] })

/-- The directories `os.MkdirAll` walks through, from the top: below `pre`, each element of
the second list in turn has to be a directory or to be absent, and is created when
absent; `none` when a regular file stands in the way. -/
def mkdirWalk (rooted : Bool) (fs : FS) : List Str → List Str → Option FS
  | _, [] => some fs
  | pre, c :: cs =>
    match fs.get ⟨rooted, pre ++ [c]⟩ with
    | some (Node.file _) => none
    | some Node.dir => mkdirWalk rooted fs (pre ++ [c]) cs
    | none => mkdirWalk rooted (fs.set ⟨rooted, pre ++ [c]⟩ Node.dir) (pre ++ [c]) cs

/-- The call `os.MkdirAll(path, perm)`: creates the directory and the missing parents; a
failure leaves the file system as it was. -/
def osMkdirAll (env : Env) (w : World) (path : Str) : Bool × World :=
  let r : Option FS :=
    if env.mkdirAllFails path then none
    else
      match resolve path with
      | none => none
      | some p => mkdirWalk p.rooted w.fs [] p.comps
  match r with
  | some fs => (true, ⟨fs, w.calls ++ [Call.mkdirAll path true]⟩)
  | none => (false, { w with calls := w.calls ++ [Call.mkdirAll path false] })

/-- The call `os.Rename(oldpath, newpath)` on a regular file: the parent of the new path
has to be a directory and the new path no directory; a file at the new path is
replaced.  Renaming a directory is not part of this model and fails. -/
def osRename (env : Env) (w : World) (oldpath newpath : Str) : Bool × World :=
  let r : Option FS :=
    if env.renameFails oldpath newpath then none
    else
      match resolve oldpath, resolve newpath with
      | some p, some q =>
        match w.fs.get p with
        | some (Node.file size) =>
          if q.comps = [] then none
          else if w.fs.get q.parent ≠ some Node.dir then none
          else if w.fs.get q = some Node.dir then none
          else if p = q then some w.fs
          else some ((w.fs.erase p).set q (Node.file size))
        | _ => none
      | _, _ => none
  match r with
  | some fs => (true, ⟨fs, w.calls ++ [Call.rename oldpath newpath true]⟩)
  | none => (false, { w with calls := w.calls ++ [Call.rename oldpath newpath false] })

/-- The call `os.Create(path)`: an empty regular file at the path, an existing file being
truncated; the parent has to be a directory and the path no directory. -/
def osCreate (env : Env) (w : World) (path : Str) : Bool × World :=
  let r : Option FS :=
    if env.createFails path then none
    else
      match resolve path with
      | none => none
      | some p =>
        if p.comps = [] then none
        else if w.fs.get p.parent ≠ some Node.dir then none
        else if w.fs.get p = some Node.dir then none
        else some (w.fs.set p (Node.file 0))
  match r with
  | some fs => (true, ⟨fs, w.calls ++ [Call.create path true]⟩)
  | none => (false, { w with calls := w.calls ++ [Call.create path false] })

/-- An entry of a directory listing: `file.Name()` and `file.IsDir()`. -/
structure DirEntry where
  name : Str
  isDir : Bool
  deriving DecidableEq, Repr

/-- The order of Go strings: byte-wise, which on these texts is character by character. -/
def strLt : Str → Str → Bool
  | _, [] => false
  | [], _ :: _ => true
  | a :: as, b :: bs => decide (a < b) || (decide (a = b) && strLt as bs)

/-- One entry put at its place in a listing sorted by name; a name already listed stays as
it is. -/
def insertEntry (e : DirEntry) : List DirEntry → List DirEntry
  | [] => [e]
  | x :: xs =>
    if e.name = x.name then x :: xs
    else if strLt e.name x.name then e :: x :: xs
    else x :: insertEntry e xs

/-- The entries directly below directory `d`, sorted by name. -/
def listDir (fs : FS) (d : RPath) : FS → List DirEntry
  | [] => []
  | (q, _) :: rest =>
    if q.rooted = d.rooted ∧ q.comps ≠ [] ∧ q.comps.dropLast = d.comps then
      insertEntry ⟨q.comps.getLastD [], decide (fs.get q = some Node.dir)⟩ (listDir fs d rest)
    else listDir fs d rest

/-- The call `os.ReadDir(path)`: the entries of the directory sorted by file name, or `none`
for an error. -/
def osReadDir (env : Env) (w : World) (path : Str) : Option (List DirEntry) × World :=
  let r : Option (List DirEntry) :=
    if env.readDirFails path then none
    else
      match resolve path with
      | none => none
      | some d => if w.fs.get d = some Node.dir then some (listDir w.fs d w.fs) else none
  (r, { w with calls := w.calls ++ [Call.readDir path r.isSome] })

/-- The method `info.Size()`: the length of a regular file; for a directory the value
depends on the system. -/
def Node.size : Node → Nat
  | .file size => size
  | .dir => 4096

/-- The length of a Go string in bytes (UTF-8). -/
def byteLen (s : Str) : Nat := (s.map Char.utf8Size).sum

/-! ## The program -/

/-- The errors the functions of the program return. -/
inductive Err where
  | homeDir
  | createDir
  | convertYear
  | convertMonth
  | convertDay
  | createFile
  deriving DecidableEq, Repr

/-- How a function that returns `(string, error)` ends: with a value, with an error, or
in a run-time panic. -/
inductive Result where
  | ok (value : Str)
  | err (e : Err)
  | panic
  deriving DecidableEq, Repr

/-- How `archiveOldFiles` ends: it returns (`nil` or an error), or `log.Fatalf` ends the
process. -/
inductive Outcome where
  | returned (err : Option Err)
  | fatal
  deriving DecidableEq, Repr

/-- How `main` ends. -/
inductive Exit where
  | done
  | fatal
  | panic
  deriving DecidableEq, Repr

/-- The function `isEmptyFile` (both variants): a failed `os.Stat` is logged and
answered `false`. -/
def isEmptyFile (env : Env) (w : World) (path : Str) : Bool × World :=
  match osStat env w path with
  | (none, w) => (false, w)
  | (some info, w) => (decide (info.size = 0), w)

/-- The function `createNewMemo` (both variants), `now` being what `time.Now()`
returns. -/
def createNewMemo (env : Env) (now : LocalTime) (memoDir ext : Str) (w : World) :
    Option Err × World :=
  let timestamp := now.Format
  let filePath := filepathJoin [memoDir, timestamp ++ '.' :: ext]
  match osCreate env w filePath with
  | (false, w) => (some Err.createFile, w)
  | (true, w) => (none, w)

namespace Cm

/-- The function `expandPath` of src/cmd/cm/main.go: the slice `path[:2]` panics on a
path shorter than two bytes. -/
def expandPath (env : Env) (path : Str) : Result :=
  if byteLen path < 2 then Result.panic
  else if path.take 2 = ['~', '/'] then
    match env.home with
    | none => Result.err Err.homeDir
    | some home => Result.ok (filepathJoin [home, path.drop 2])
  else Result.ok path

/-- The function `checkDirExitsOrCreate` of src/cmd/cm/main.go. -/
def checkDirExitsOrCreate (env : Env) (path : Str) (w : World) : Option Err × World :=
  match osMkdirAll env w path with
  | (false, w) => (some Err.createDir, w)
  | (true, w) => (none, w)

/-- The body of the loop of `archiveOldFiles` in src/cmd/cm/main.go (lines 71-124) for
one directory entry: the error it returns with, if any, and the world after it. -/
def archiveEntry (env : Env) (threshold : Time) (memoDir : Str) (file : DirEntry)
    (w : World) : Option Err × World :=
  if file.isDir then (none, w)
  else
    let name := file.name
    match FindStringSubmatch name with
    | none => (none, w)
    | some ms =>
      match Atoi (idx ms 1) with
      | none => (some Err.convertYear, w)
      | some year =>
        match Atoi (idx ms 2) with
        | none => (some Err.convertMonth, w)
        | some month =>
          match Atoi (idx ms 3) with
          | none => (some Err.convertDay, w)
          | some day =>
            let fileTime := Date year month day 0 0 0 0 UTC
            let oldPath := filepathJoin [memoDir, name]
            match isEmptyFile env w oldPath with
            | (true, w) =>
              match osRemove env w oldPath with
              | (_, w) => (none, w)
            | (false, w) =>
              if fileTime.Before threshold then
                let destDir := filepathJoin [memoDir, sprintfYearMonth year month]
                let destPath := filepathJoin [destDir, name]
                match osMkdirAll env w destDir with
                | (false, w) => (none, w)
                | (true, w) =>
                  match osRename env w oldPath destPath with
                  | (_, w) => (none, w)
              else (none, w)

/-- The loop `for _, file := range files` of `archiveOldFiles`: it stops at the first
entry whose body returns an error. -/
def archiveLoop (env : Env) (threshold : Time) (memoDir : Str) :
    List DirEntry → World → Option Err × World
  | [], w => (none, w)
  | file :: files, w =>
    match archiveEntry env threshold memoDir file w with
    | (some e, w) => (some e, w)
    | (none, w) => archiveLoop env threshold memoDir files w

/-- The function `archiveOldFiles` of src/cmd/cm/main.go, `now` being what `time.Now()`
returns; `ext` is not used. -/
def archiveOldFiles (env : Env) (now : LocalTime) (memoDir _ext : Str) (w : World) :
    Outcome × World :=
  let threshold := now.AddDate 0 (-1) 0
  match osReadDir env w memoDir with
  | (none, w) => (Outcome.fatal, w)
  | (some files, w) =>
    match archiveLoop env threshold memoDir files w with
    | (err, w) => (Outcome.returned err, w)

/-- The function `main` of src/cmd/cm/main.go: `path` and `ext` are the values of the
flags, `now` and `later` what the two calls of `time.Now()` return. -/
def main (env : Env) (now later : LocalTime) (path ext : Str) (w : World) : Exit × World :=
  match expandPath env path with
  | Result.panic => (Exit.panic, w)
  | Result.err _ => (Exit.fatal, w)
  | Result.ok expandedPath =>
    match checkDirExitsOrCreate env expandedPath w with
    | (some _, w) => (Exit.fatal, w)
    | (none, w) =>
      match archiveOldFiles env now expandedPath ext w with
      | (Outcome.fatal, w) => (Exit.fatal, w)
      | (Outcome.returned (some _), w) => (Exit.fatal, w)
      | (Outcome.returned none, w) =>
        match createNewMemo env later expandedPath ext w with
        | (some _, w) => (Exit.fatal, w)
        | (none, w) => (Exit.done, w)

end Cm

namespace Root

/-- The function `getMemoDir` of src/main.go: `none` when `log.Fatalf` ends the
process. -/
def getMemoDir (env : Env) (path : Str) (w : World) : Option Str × World :=
  match env.home with
  | none => (none, w)
  | some homeDir =>
    let memoDir := filepathJoin [homeDir, path]
    match osMkdirAll env w memoDir with
    | (false, w) => (none, w)
    | (true, w) => (some memoDir, w)

/-- The body of the loop of `archiveOldFiles` in src/main.go (lines 61-115) for one
directory entry. -/
def archiveEntry (env : Env) (threshold : Time) (memoDir ext : Str) (file : DirEntry)
    (w : World) : Option Err × World :=
  if file.isDir then (none, w)
  else
    let name := file.name
    match FindStringSubmatch name with
    | none => (none, w)
    | some ms =>
      if idx ms 4 ≠ ext then (none, w)
      else
        match Atoi (idx ms 1) with
        | none => (some Err.convertYear, w)
        | some year =>
          match Atoi (idx ms 2) with
          | none => (some Err.convertMonth, w)
          | some month =>
            match Atoi (idx ms 3) with
            | none => (some Err.convertDay, w)
            | some day =>
              let fileTime := Date year month day 0 0 0 0 UTC
              let oldPath := filepathJoin [memoDir, name]
              match isEmptyFile env w oldPath with
              | (true, w) =>
                match osRemove env w oldPath with
                | (_, w) => (none, w)
              | (false, w) =>
                if fileTime.Before threshold then
                  let destDir := filepathJoin [memoDir, sprintfYearMonth year month]
                  let destPath := filepathJoin [destDir, name]
                  match osMkdirAll env w destDir with
                  | (false, w) => (none, w)
                  | (true, w) =>
                    match osRename env w oldPath destPath with
                    | (_, w) => (none, w)
                else (none, w)

/-- The loop `for _, file := range files` of `archiveOldFiles` in src/main.go. -/
def archiveLoop (env : Env) (threshold : Time) (memoDir ext : Str) :
    List DirEntry → World → Option Err × World
  | [], w => (none, w)
  | file :: files, w =>
    match archiveEntry env threshold memoDir ext file w with
    | (some e, w) => (some e, w)
    | (none, w) => archiveLoop env threshold memoDir ext files w

/-- The function `archiveOldFiles` of src/main.go. -/
def archiveOldFiles (env : Env) (now : LocalTime) (memoDir ext : Str) (w : World) :
    Outcome × World :=
  let threshold := now.AddDate 0 (-1) 0
  match osReadDir env w memoDir with
  | (none, w) => (Outcome.fatal, w)
  | (some files, w) =>
    match archiveLoop env threshold memoDir ext files w with
    | (err, w) => (Outcome.returned err, w)

/-- The function `main` of src/main.go. -/
def main (env : Env) (now later : LocalTime) (path ext : Str) (w : World) : Exit × World :=
  match getMemoDir env path w with
  | (none, w) => (Exit.fatal, w)
  | (some memoDir, w) =>
    match archiveOldFiles env now memoDir ext w with
    | (Outcome.fatal, w) => (Exit.fatal, w)
    | (Outcome.returned (some _), w) => (Exit.fatal, w)
    | (Outcome.returned none, w) =>
      match createNewMemo env later memoDir ext w with
      | (some _, w) => (Exit.fatal, w)
      | (none, w) => (Exit.done, w)

end Root

/-! ## The words of the specification -/

/-- The timestamp pattern in the words of the specification: a 4-digit year, a 2-digit
month, a 2-digit day, 6 further digits, a dot, one or more word characters, nothing else. -/
def TimestampName (name : Str) : Prop :=
  16 ≤ name.length ∧ (∀ c ∈ name.take 14, isDigit c = true) ∧
    (name.drop 14).take 1 = ['.'] ∧ ∀ c ∈ name.drop 15, isWord c = true

instance (name : Str) : Decidable (TimestampName name) := by
  unfold TimestampName; exact inferInstance

/-- The slice `FindStringSubmatch` returns on a match: the name, the three date groups and
the extension. -/
def groupsOf (name : Str) : List Str :=
  [name, name.take 4, (name.drop 4).take 2, (name.drop 6).take 2, name.drop 15]

/-- The number a string of decimal digits denotes. -/
def numeral (s : Str) : Int := ((s.foldl (fun n c => n * 10 + digitVal c) 0 : Nat) : Int)

/-- The year a timestamp name encodes: its first four characters. -/
def fileYear (name : Str) : Int := numeral (name.take 4)

/-- The month a timestamp name encodes: its fifth and sixth characters. -/
def fileMonth (name : Str) : Int := numeral ((name.drop 4).take 2)

/-- The day a timestamp name encodes: its seventh and eighth characters. -/
def fileDay (name : Str) : Int := numeral ((name.drop 6).take 2)

/-- The extension of a timestamp name: everything after the dot. -/
def fileExt (name : Str) : Str := name.drop 15

/-- The date a timestamp name encodes, at 00:00:00 UTC. -/
def fileTime (name : Str) : Time :=
  Date (fileYear name) (fileMonth name) (fileDay name) 0 0 0 0 UTC

/-- The path of the entry `name` of the memo directory. -/
def oldPathOf (memoDir name : Str) : Str := filepathJoin [memoDir, name]

/-- The directory `<memoDir>/<YYYY>/<MM>` of a timestamp name, `YYYY` and `MM` being the
first four and the next two characters of the name. -/
def destDirOf (memoDir name : Str) : Str :=
  filepathJoin [memoDir, name.take 4 ++ '/' :: (name.drop 4).take 2]

/-- The path `<memoDir>/<YYYY>/<MM>/<name>`. -/
def destPathOf (memoDir name : Str) : Str := filepathJoin [destDirOf memoDir name, name]

/-- The move of `archiveEntry`: `os.MkdirAll` on the destination directory, then
`os.Rename`. -/
def moveStep (env : Env) (memoDir name : Str) (w : World) : World :=
  match osMkdirAll env w (destDirOf memoDir name) with
  | (false, w) => w
  | (true, w) => (osRename env w (oldPathOf memoDir name) (destPathOf memoDir name)).2

/-- What the loop body does to the world for an entry with a timestamp name: the part of
`archiveEntry` after the three conversions. -/
def archiveStep (env : Env) (threshold : Time) (memoDir name : Str) (w : World) : World :=
  match isEmptyFile env w (oldPathOf memoDir name) with
  | (true, w) => (osRemove env w (oldPathOf memoDir name)).2
  | (false, w) => if (fileTime name).Before threshold then moveStep env memoDir name w else w

/-! ## Auxiliary notions of the proofs -/

/-- An element `filepath.Clean` keeps as it is: not empty, without separator, and neither
`.` nor `..`; the names of directory entries are of this kind. -/
def NiceElem (c : Str) : Prop := c ≠ [] ∧ '/' ∉ c ∧ c ≠ ['.'] ∧ c ≠ ['.', '.']

instance (c : Str) : Decidable (NiceElem c) := by
  unfold NiceElem; exact inferInstance

/-- The stacks `filepath.Clean` builds: the elements are not empty, hold no separator and
are not `.`; a `..` stands only on other `..`, and never in a rooted path. -/
def GoodStk (rooted : Bool) : List Str → Prop
  | [] => True
  | x :: rest =>
    (x ≠ [] ∧ '/' ∉ x ∧ x ≠ ['.']) ∧
    (x = ['.', '.'] → rooted = false ∧ ∀ y ∈ rest.head?, y = ['.', '.']) ∧
    GoodStk rooted rest

/-- The paths `mkdirWalk` creates when they are missing. -/
def IsStep (rooted : Bool) (pre cs : List Str) (q : RPath) : Prop :=
  q.rooted = rooted ∧ ∃ k, 1 ≤ k ∧ k ≤ cs.length ∧ q.comps = pre ++ cs.take k

/-- A regular file stands on the way of `mkdirWalk`. -/
def Blocked (rooted : Bool) (fs : FS) (pre cs : List Str) : Prop :=
  ∃ q size, IsStep rooted pre cs q ∧ fs.get q = some (Node.file size)

/-- The resolved path of the entry `name` of the memo directory `p`. -/
def oldR (p : RPath) (name : Str) : RPath := ⟨p.rooted, p.comps ++ [name]⟩

/-- The resolved path of the directory `<YYYY>/<MM>` of `name` below `p`. -/
def dirR (p : RPath) (name : Str) : RPath :=
  ⟨p.rooted, p.comps ++ [name.take 4, (name.drop 4).take 2]⟩

/-- The resolved path `<YYYY>/<MM>/<name>` below `p`. -/
def destR (p : RPath) (name : Str) : RPath :=
  ⟨p.rooted, p.comps ++ [name.take 4, (name.drop 4).take 2, name]⟩

/-- The move seen from the two places of one file: from the failures injected on the two
calls, whether a regular file blocks the directories, and the nodes `a` at the path and
`b` at the destination, the nodes at the two places afterwards and the calls made. -/
def moveView (mkdirF renameF blocked : Bool) (oldPath destDir destPath : Str)
    (a b : Option Node) : Option Node × Option Node × List Call :=
  if mkdirF || blocked then (a, b, [Call.mkdirAll destDir false])
  else if renameF then
    (a, b, [Call.mkdirAll destDir true, Call.rename oldPath destPath false])
  else
    match a with
    | some (Node.file size) =>
      if b = some Node.dir then
        (a, b, [Call.mkdirAll destDir true, Call.rename oldPath destPath false])
      else
        (none, some (Node.file size),
          [Call.mkdirAll destDir true, Call.rename oldPath destPath true])
    | _ => (a, b, [Call.mkdirAll destDir true, Call.rename oldPath destPath false])

/-- The removal seen from the two places of one file. -/
def removeView (removeF : Bool) (oldPath : Str) (a b : Option Node) :
    Option Node × Option Node × List Call :=
  if removeF then (a, b, [Call.remove oldPath false])
  else
    match a with
    | some (Node.file _) => (none, b, [Call.remove oldPath true])
    | _ => (a, b, [Call.remove oldPath false])

/-- What `archiveStep` does, seen from the two places of one file: from the failures
injected on its four calls, whether its date is before the threshold, whether a regular
file blocks its directories, and the nodes `a` at its path and `b` at its destination,
the nodes at the two places afterwards and the calls made. -/
def stepView (statF removeF mkdirF renameF before blocked : Bool)
    (oldPath destDir destPath : Str) (a b : Option Node) :
    Option Node × Option Node × List Call :=
  let st : Option Node := if statF then none else a
  let empty : Bool :=
    match st with
    | some info => decide (info.size = 0)
    | none => false
  let r :=
    if empty then removeView removeF oldPath a b
    else if before then moveView mkdirF renameF blocked oldPath destDir destPath a b
    else (a, b, [])
  (r.1, r.2.1, Call.stat oldPath st.isSome :: r.2.2)

/-- The frame of a step on the file system: a node elsewhere is as before, or is a
directory newly made on the way to the destination directory. -/
def Frame (P : RPath) (name : Str) (fs fs' : FS) : Prop :=
  ∀ q, q ≠ oldR P name → q ≠ destR P name →
    (fs'.get q = fs.get q ∨
      (fs.get q = none ∧ fs'.get q = some Node.dir ∧ IsStep P.rooted [] (dirR P name).comps q))

/-- The view `moveView` takes of the move of entry `name` in world `w`. -/
def entryMoveView (env : Env) (memoDir name : Str) (P : RPath) (w : World) :
    Option Node × Option Node × List Call :=
  moveView (env.mkdirAllFails (destDirOf memoDir name))
    (env.renameFails (oldPathOf memoDir name) (destPathOf memoDir name))
    (mkdirWalk P.rooted w.fs [] (dirR P name).comps).isNone
    (oldPathOf memoDir name) (destDirOf memoDir name) (destPathOf memoDir name)
    (w.fs.get (oldR P name)) (w.fs.get (destR P name))

/-- The view `stepView` takes of the step of entry `name` in world `w`. -/
def entryView (env : Env) (thr : Time) (memoDir name : Str) (P : RPath) (w : World) :
    Option Node × Option Node × List Call :=
  stepView (env.statFails (oldPathOf memoDir name)) (env.removeFails (oldPathOf memoDir name))
    (env.mkdirAllFails (destDirOf memoDir name))
    (env.renameFails (oldPathOf memoDir name) (destPathOf memoDir name))
    ((fileTime name).Before thr)
    (mkdirWalk P.rooted w.fs [] (dirR P name).comps).isNone
    (oldPathOf memoDir name) (destDirOf memoDir name) (destPathOf memoDir name)
    (w.fs.get (oldR P name)) (w.fs.get (destR P name))

/-- Days from 1970-01-01 to the first day of month `m` of year `y`. -/
def monthStart (y m : Int) : Int :=
  daysSinceEpoch y + daysBefore (m - 1) + (if isLeap y ∧ m ≥ 3 then 1 else 0)

/-- The first day of the month before the month of a clock reading. -/
def prevStart (t : LocalTime) : Int :=
  if t.month = 1 then monthStart (t.year - 1) 12 else monthStart t.year (t.month - 1)

/-- The length of the month before the month of a clock reading. -/
def prevMonthLength (t : LocalTime) : Int :=
  if t.month = 1 then 31 else daysIn t.year (t.month - 1)

/-- The offset `time.Date` subtracts in location `loc` from the date that, read as UTC,
is the instant `unix`. -/
def pickOffset (loc : Location) (unix : Int) : Int :=
  if (loc.lookup unix).offset ≠ 0 then
    if unix - (loc.lookup unix).offset < (loc.lookup unix).start ∨
        unix - (loc.lookup unix).offset ≥ (loc.lookup unix).stop then
      (loc.lookup (unix - (loc.lookup unix).offset)).offset
    else (loc.lookup unix).offset
  else 0

/-- A location whose offset from UTC is `c` at every instant. -/
def Location.Fixed (loc : Location) (c : Int) : Prop := ∀ u, (loc.lookup u).offset = c

/-- A location whose offsets from UTC are all of less than a day. -/
def Location.Bounded (loc : Location) : Prop :=
  ∀ u, -86400 < (loc.lookup u).offset ∧ (loc.lookup u).offset < 86400

/-- The calendar day of an instant in UTC, in days since 1970-01-01. -/
def Time.utcDay (t : Time) : Int := t.sec / 86400

/-- The order of instants: `t` is not after `u`. -/
def Time.le (t u : Time) : Prop := u.Before t = false

instance (t u : Time) : Decidable (Time.le t u) := by
  unfold Time.le; exact inferInstance

/-- A listing sorted by name, without repeated names. -/
def SortedNames (l : List DirEntry) : Prop :=
  l.Pairwise (fun x y => strLt x.name y.name = true)

/-- The entries the loop of the `cm` variant acts on: no directories, timestamp names. -/
def cmSel (f : DirEntry) : Bool := !f.isDir && decide (TimestampName f.name)

/-- The entries the loop of the root variant acts on: those of the `cm` variant whose
extension is `ext`. -/
def rootSel (ext : Str) (f : DirEntry) : Bool := cmSel f && decide (fileExt f.name = ext)

/-- The world after the loop over `files` in which the entries selected by `sel` receive
`archiveStep`. -/
def loopW (sel : DirEntry → Bool) (env : Env) (thr : Time) (memoDir : Str) :
    List DirEntry → World → World
  | [], w => w
  | f :: files, w =>
    loopW sel env thr memoDir files (if sel f then archiveStep env thr memoDir f.name w else w)

/-- A call `archiveStep` makes for the entry `name`. -/
def IsCallOf (memoDir name : Str) (c : Call) : Prop :=
  ∃ b, c = Call.stat (oldPathOf memoDir name) b ∨ c = Call.remove (oldPathOf memoDir name) b ∨
    c = Call.mkdirAll (destDirOf memoDir name) b ∨
    c = Call.rename (oldPathOf memoDir name) (destPathOf memoDir name) b

/-- The file system `fs'` differs from `fs` only by steps for entries whose names satisfy
`S`: at the path or at the destination of such an entry, or by a directory newly made on
the way to the destination directory of such an entry. -/
def OnlyBy (P : RPath) (S : Str → Prop) (fs fs' : FS) : Prop :=
  ∀ q, fs'.get q = fs.get q ∨
    (∃ n, S n ∧ TimestampName n ∧ (q = oldR P n ∨ q = destR P n)) ∨
    (fs.get q = none ∧ fs'.get q = some Node.dir ∧
      ∃ n, S n ∧ TimestampName n ∧ IsStep P.rooted [] (dirR P n).comps q)

/-- The world after `archiveOldFiles`, the loop acting on the entries selected by `sel`. -/
def runW (sel : DirEntry → Bool) (env : Env) (now : LocalTime) (memoDir : Str) (w : World) :
    World :=
  match osReadDir env w memoDir with
  | (none, w) => w
  | (some files, w) => loopW sel env (now.AddDate 0 (-1) 0) memoDir files w

/-- The listing `os.ReadDir` returns for the memo directory, empty when it fails. -/
def listing (env : Env) (w : World) (memoDir : Str) : List DirEntry :=
  (osReadDir env w memoDir).1.getD []

/-- The memo directory exists and `os.ReadDir` can read it. -/
def Readable (env : Env) (w : World) (memoDir : Str) : Prop :=
  env.readDirFails memoDir = false ∧ w.nodeAt memoDir = some Node.dir

instance (env : Env) (w : World) (memoDir : Str) : Decidable (Readable env w memoDir) := by
  unfold Readable; exact inferInstance

/-- The calls made between the world `w` and the later world `w'`. -/
def newCalls (w w' : World) : List Call := w'.calls.drop w.calls.length

/-- A call that begins something new: `os.Stat`, the first call of the loop body for an
entry, or `os.Create`, the call of `createNewMemo` after the loop. -/
def Call.opens : Call → Bool
  | .stat _ _ => true
  | .create _ _ => true
  | _ => false

/-- The record of the run from `w` to `w'` for the entry `name`: the run adds calls to
those of `w`, the calls `seg` made for the entry stand together among them, no other
call of the run names the path of the entry or its destination, and the call after `seg`,
if there is one, begins the loop body for another entry or is the `os.Create` after the
loop. -/
def Segment (memoDir name : Str) (w w' : World) (seg : List Call) : Prop :=
  ∃ pre post, w'.calls = w.calls ++ (pre ++ seg ++ post) ∧
    (∀ c ∈ pre ++ post,
      oldPathOf memoDir name ∉ c.paths ∧ destPathOf memoDir name ∉ c.paths) ∧
    ∀ c ∈ post.head?, c.opens = true

/-! ## A memo directory to run the program on -/

/-- The memo directory `/memo` of the examples. -/
def demoDir : Str := "/memo".toList

/-- A file system: `/memo` holds an old note of 5 bytes, an old empty note, a note dated
one month before `demoNow` of 7 bytes, a note of last week of 4 bytes, an old note of 2
bytes with the extension `txt`, an old empty note with the extension `txt`, and a file
of 3 bytes whose name is no timestamp name. -/
def demoFs : FS :=
  [(⟨true, ["memo".toList]⟩, Node.dir),
   (⟨true, ["memo".toList, "20240101120000.md".toList]⟩, Node.file 5),
   (⟨true, ["memo".toList, "20240102120000.md".toList]⟩, Node.file 0),
   (⟨true, ["memo".toList, "20250501120000.md".toList]⟩, Node.file 7),
   (⟨true, ["memo".toList, "20250525120000.md".toList]⟩, Node.file 4),
   (⟨true, ["memo".toList, "20240103120000.txt".toList]⟩, Node.file 2),
   (⟨true, ["memo".toList, "20240104120000.txt".toList]⟩, Node.file 0),
   (⟨true, ["memo".toList, "notanote.txt".toList]⟩, Node.file 3)]

/-- The world of the examples before the run. -/
def demoWorld : World := ⟨demoFs, []⟩

/-- The run time of the examples: 2025-06-01 12:00:00 UTC. -/
def demoNow : LocalTime := ⟨2025, 6, 1, 12, 0, 0, 0, 0, UTC⟩

/-- An environment without failures and without a home directory. -/
def demoEnv : Env := Env.reliable none

/-- An environment in which `os.Stat` fails on the old empty note and nothing else
fails. -/
def demoStatEnv : Env :=
  { Env.reliable none with
    statFails := fun p => decide (p = "/memo/20240102120000.md".toList) }

/-- An environment in which `os.Stat` fails on the old note of 5 bytes and nothing else
fails. -/
def demoStatEnvOld : Env :=
  { Env.reliable none with
    statFails := fun p => decide (p = "/memo/20240101120000.md".toList) }

/-- An environment in which `os.Rename` of the old note of 5 bytes fails and nothing
else fails. -/
def demoRenameEnv : Env :=
  { Env.reliable none with
    renameFails := fun p _ => decide (p = "/memo/20240101120000.md".toList) }

/-- A file system in which every timestamp file of `/memo` has the extension `md`. -/
def demoFsMd : FS :=
  [(⟨true, ["memo".toList]⟩, Node.dir),
   (⟨true, ["memo".toList, "20240101120000.md".toList]⟩, Node.file 5),
   (⟨true, ["memo".toList, "20240102120000.md".toList]⟩, Node.file 0),
   (⟨true, ["memo".toList, "notanote.txt".toList]⟩, Node.file 3)]

/-- The run time 2025-03-31 12:00:00 UTC. -/
def marchEnd : LocalTime := ⟨2025, 3, 31, 12, 0, 0, 0, 0, UTC⟩

/-- The run time 2025-04-01 12:00:00 UTC. -/
def aprilStart : LocalTime := ⟨2025, 4, 1, 12, 0, 0, 0, 0, UTC⟩

/-- The run time 2025-03-15 09:30:00, one hour east of UTC. -/
def marchMid : LocalTime := ⟨2025, 3, 15, 9, 30, 0, 0, 3600, FixedZone 3600⟩

/-- The run time 2025-04-20 18:00:00, one hour east of UTC. -/
def aprilLate : LocalTime := ⟨2025, 4, 20, 18, 0, 0, 0, 3600, FixedZone 3600⟩

/-- A location with a change of offset: two hours east of UTC before the instant
1743120000 (2025-03-28 00:00:00 UTC), three hours east from then on, as in
Asia/Jerusalem in the spring of 2025. -/
def springForward : Location :=
  ⟨fun u => if u < 1743120000 then ⟨7200, -9223372036854775808, 1743120000⟩
    else ⟨10800, 1743120000, 9223372036854775807⟩⟩

/-- The run time 2025-04-28 02:30:00, three hours east of UTC, in `springForward`. -/
def aprilNight : LocalTime := ⟨2025, 4, 28, 2, 30, 0, 0, 10800, springForward⟩

/-- The run time 2025-04-28 03:00:00, three hours east of UTC, in `springForward`. -/
def aprilNightLater : LocalTime := ⟨2025, 4, 28, 3, 0, 0, 0, 10800, springForward⟩

/-- An extension that holds path separators and leads back to the old note of 5 bytes. -/
def demoExtBack : Str := "/../20240101120000.md".toList

/-- The moment 2025-06-01 12:00:01 UTC, one second after `demoNow`. -/
def demoLater : LocalTime := ⟨2025, 6, 1, 12, 0, 1, 0, 0, UTC⟩

/-- The moment 2025-06-01 12:00:02 UTC. -/
def demoNow2 : LocalTime := ⟨2025, 6, 1, 12, 0, 2, 0, 0, UTC⟩

/-- The moment 2025-06-01 12:00:03 UTC. -/
def demoLater2 : LocalTime := ⟨2025, 6, 1, 12, 0, 3, 0, 0, UTC⟩

/-! # Lemmas -/

/-! ## Digits, numerals and zero padding -/

theorem isDigit_iff (c : Char) : isDigit c = true ↔ 48 ≤ c.toNat ∧ c.toNat ≤ 57 := by
  simp only [isDigit, Bool.and_eq_true, decide_eq_true_eq, Char.le_def]
  constructor
  · rintro ⟨h1, h2⟩
    exact ⟨h1, h2⟩
  · rintro ⟨h1, h2⟩
    exact ⟨h1, h2⟩

theorem digitChar_digitVal (c : Char) (h : isDigit c = true) : digitChar (digitVal c) = c := by
  rw [isDigit_iff] at h
  unfold digitChar digitVal
  have : '0'.toNat = 48 := by decide
  rw [this]
  have h2 : 48 + (c.toNat - 48) % 10 = c.toNat := by omega
  rw [h2]
  exact Char.ofNat_toNat c

theorem digitVal_lt (c : Char) (h : isDigit c = true) : digitVal c < 10 := by
  rw [isDigit_iff] at h
  unfold digitVal
  have : '0'.toNat = 48 := by decide
  omega

theorem decimalAux_fuel (n : Nat) : ∀ f g : Nat, n < f → n < g → decimalAux f n = decimalAux g n := by
  induction n using Nat.strong_induction_on with
  | _ n ih =>
    intro f g hf hg
    cases f with
    | zero => omega
    | succ f =>
      cases g with
      | zero => omega
      | succ g =>
        simp only [decimalAux]
        by_cases h : n < 10
        · simp [h]
        · simp only [h, if_false]
          rw [ih (n / 10) (by omega) f g (by omega) (by omega)]

theorem decimal_lt (n : Nat) (h : n < 10) : decimal n = [digitChar n] := by
  simp [decimal, decimalAux, h]

theorem decimal_ge (n : Nat) (h : 10 ≤ n) : decimal n = decimal (n / 10) ++ [digitChar n] := by
  have h' : ¬ n < 10 := by omega
  unfold decimal
  rw [decimalAux_fuel (n / 10) (n / 10 + 1) n (by omega) (by omega)]
  simp only [decimalAux, h', if_false]

theorem decimal_length_pos (n : Nat) : 0 < (decimal n).length := by
  by_cases h : n < 10
  · simp [decimal_lt n h]
  · rw [decimal_ge n (by omega)]; simp

theorem digitChar_zero : digitChar 0 = '0' := by decide

theorem padZeros_succ (k n : Nat) (hk : 1 ≤ k) :
    padZeros (k + 1) (decimal n) = padZeros k (decimal (n / 10)) ++ [digitChar n] := by
  by_cases h : n < 10
  · have h0 : n / 10 = 0 := by omega
    rw [h0, decimal_lt n h, decimal_lt 0 (by omega), digitChar_zero]
    simp only [padZeros, List.length_singleton, Nat.add_sub_cancel]
    have : List.replicate (k - 1) '0' ++ ['0'] = List.replicate k '0' := by
      rw [← List.replicate_succ']
      congr 1
      omega
    rw [this]
  · rw [decimal_ge n (by omega)]
    simp only [padZeros, List.length_append, List.length_singleton, List.append_assoc]
    congr 2
    omega

theorem padZeros_one (n : Nat) (h : n < 10) : padZeros 1 (decimal n) = [digitChar n] := by
  simp [padZeros, decimal_lt n h]

theorem digitChar_mod (n : Nat) : digitChar (n % 10) = digitChar n := by
  simp [digitChar]

/-- The zero-padded numeral of a number below ten thousand. -/
theorem padZeros_four (n : Nat) (h : n < 10000) :
    padZeros 4 (decimal n) =
      [digitChar (n / 1000), digitChar (n / 100), digitChar (n / 10), digitChar n] := by
  rw [padZeros_succ 3 n (by omega), padZeros_succ 2 (n / 10) (by omega),
    padZeros_succ 1 (n / 10 / 10) (by omega), padZeros_one (n / 10 / 10 / 10) (by omega)]
  have h1 : n / 10 / 10 / 10 = n / 1000 := by omega
  have h2 : n / 10 / 10 = n / 100 := by omega
  rw [h1, h2]
  simp

/-- The zero-padded numeral of a number below one hundred. -/
theorem padZeros_two (n : Nat) (h : n < 100) :
    padZeros 2 (decimal n) = [digitChar (n / 10), digitChar n] := by
  rw [padZeros_succ 1 n (by omega), padZeros_one (n / 10) (by omega)]
  simp

theorem matchDigits_eq (n : Nat) : ∀ s : Str, matchDigits n s =
    if n ≤ s.length ∧ ∀ c ∈ s.take n, isDigit c = true then some (s.take n, s.drop n) else none := by
  induction n with
  | zero => intro s; simp [matchDigits]
  | succ n ih =>
    intro s
    cases s with
    | nil => simp [matchDigits]
    | cons c cs =>
      simp only [matchDigits, ih cs]
      by_cases hc : isDigit c = true
      · by_cases h : n ≤ cs.length ∧ ∀ c ∈ cs.take n, isDigit c = true
        · have h2 : n + 1 ≤ (c :: cs).length ∧ ∀ x ∈ (c :: cs).take (n + 1), isDigit x = true := by
            simp only [List.length_cons, Nat.add_le_add_iff_right, List.take_succ_cons,
              List.mem_cons, forall_eq_or_imp, hc, true_and]
            exact h
          rw [if_pos hc, if_pos h, if_pos h2]
          rfl
        · have h2 : ¬ (n + 1 ≤ (c :: cs).length ∧ ∀ x ∈ (c :: cs).take (n + 1), isDigit x = true) := by
            simp only [List.length_cons, Nat.add_le_add_iff_right, List.take_succ_cons,
              List.mem_cons, forall_eq_or_imp, hc, true_and]
            exact h
          rw [if_pos hc, if_neg h, if_neg h2]
      · have h2 : ¬ (n + 1 ≤ (c :: cs).length ∧ ∀ x ∈ (c :: cs).take (n + 1), isDigit x = true) := by
          simp only [List.take_succ_cons, List.mem_cons, forall_eq_or_imp]
          tauto
        rw [if_neg hc, if_neg h2]

/-! ## The pattern and the conversions -/

theorem FindStringSubmatch_of_timestampName (name : Str) (h : TimestampName name) :
    FindStringSubmatch name = some (groupsOf name) := by
  obtain ⟨hlen, hdig, hdot, hword⟩ := h
  match name, hlen, hdig, hdot, hword with
  | c0 :: c1 :: c2 :: c3 :: c4 :: c5 :: c6 :: c7 :: c8 :: c9 :: c10 :: c11 :: c12 :: c13 ::
      c14 :: c15 :: rest, _, hdig, hdot, hword =>
    simp only [List.take_succ_cons, List.take_zero, List.mem_cons, forall_eq_or_imp,
      List.not_mem_nil, false_implies, implies_true, and_true] at hdig
    simp only [List.drop_succ_cons, List.drop_zero, List.take_succ_cons, List.take_zero,
      List.cons.injEq, and_true] at hdot hword
    obtain ⟨h0, h1, h2, h3, h4, h5, h6, h7, h8, h9, h10, h11, h12, h13⟩ := hdig
    subst hdot
    have hw : (c15 :: rest).all isWord = true := by
      rw [List.all_eq_true]; exact hword
    simp [FindStringSubmatch, matchDigits, matchWordsToEnd, groupsOf, h0, h1, h2, h3, h4, h5,
      h6, h7, h8, h9, h10, h11, h12, h13, hw]

theorem matchDigits_some (n : Nat) : ∀ (s ds rest : Str), matchDigits n s = some (ds, rest) →
    s = ds ++ rest ∧ ds.length = n ∧ ∀ c ∈ ds, isDigit c = true := by
  intro s ds rest h
  rw [matchDigits_eq] at h
  split at h
  · rename_i hc
    simp only [Option.some.injEq, Prod.mk.injEq] at h
    obtain ⟨h1, h2⟩ := h
    subst h1 h2
    refine ⟨(List.take_append_drop n s).symm, ?_, hc.2⟩
    simp [hc.1]
  · cases h

theorem timestampName_of_FindStringSubmatch (name : Str) (ms : List Str)
    (h : FindStringSubmatch name = some ms) : TimestampName name := by
  unfold FindStringSubmatch at h
  split at h
  · cases h
  · rename_i g1 r1 e1
    split at h
    · cases h
    · rename_i g2 r2 e2
      split at h
      · cases h
      · rename_i g3 r3 e3
        split at h
        · cases h
        · rename_i g6 r4 e4
          split at h
          · rename_i r5
            split at h
            · rename_i g4 e5
              obtain ⟨n1, l1, d1⟩ := matchDigits_some _ _ _ _ e1
              obtain ⟨n2, l2, d2⟩ := matchDigits_some _ _ _ _ e2
              obtain ⟨n3, l3, d3⟩ := matchDigits_some _ _ _ _ e3
              obtain ⟨n4, l4, d4⟩ := matchDigits_some _ _ _ _ e4
              unfold matchWordsToEnd at e5
              split at e5
              · rename_i hw
                obtain ⟨hne, hall⟩ := hw
                rw [List.all_eq_true] at hall
                subst n4 n3 n2
                have hname : name = (g1 ++ g2 ++ g3 ++ g6) ++ '.' :: r5 := by
                  rw [n1]; simp
                have hl : (g1 ++ g2 ++ g3 ++ g6).length = 14 := by simp [l1, l2, l3, l4]
                refine ⟨?_, ?_, ?_, ?_⟩
                · rw [hname, List.length_append, hl]
                  cases r5 with
                  | nil => exact absurd rfl hne
                  | cons a b => simp only [List.length_cons]; omega
                · rw [hname, List.take_left' hl]
                  intro c hc
                  simp only [List.mem_append] at hc
                  rcases hc with ((hc | hc) | hc) | hc
                  · exact d1 c hc
                  · exact d2 c hc
                  · exact d3 c hc
                  · exact d4 c hc
                · rw [hname, List.drop_left' hl]; rfl
                · have : List.drop 15 name = r5 := by
                    rw [hname]
                    have : 15 = (g1 ++ g2 ++ g3 ++ g6).length + 1 := by rw [hl]
                    rw [this, List.drop_append]
                    rfl
                  rw [this]; exact hall
              · cases e5
            · cases h
          · cases h

theorem FindStringSubmatch_eq (name : Str) :
    FindStringSubmatch name = if TimestampName name then some (groupsOf name) else none := by
  by_cases h : TimestampName name
  · rw [if_pos h]; exact FindStringSubmatch_of_timestampName name h
  · rw [if_neg h]
    cases e : FindStringSubmatch name with
    | none => rfl
    | some ms => exact absurd (timestampName_of_FindStringSubmatch name ms e) h

theorem Atoi_digits (c : Char) (cs : Str) (hc : isDigit c = true) :
    Atoi (c :: cs) = match parseUnsigned (c :: cs) with
      | some n => if n ≤ 9223372036854775807 then some (n : Int) else none
      | none => none := by
  have h1 : c ≠ '-' := by rintro rfl; exact absurd hc (by decide)
  have h2 : c ≠ '+' := by rintro rfl; exact absurd hc (by decide)
  unfold Atoi
  split
  · rename_i rest heq
    simp only [List.cons.injEq] at heq
    exact absurd heq.1 h1
  · rename_i rest heq
    simp only [List.cons.injEq] at heq
    exact absurd heq.1 h2
  · rfl

theorem digitChar_eq (x : Nat) (ch : Char) (h : isDigit ch = true) (e : x % 10 = digitVal ch) :
    digitChar x = ch := by
  rw [← digitChar_mod, e, digitChar_digitVal ch h]

/-- The integer `strconv.Atoi` reads from four digits, and its `%04d` numeral. -/
theorem Atoi_four (a b c d : Char) (ha : isDigit a = true) (hb : isDigit b = true)
    (hc : isDigit c = true) (hd : isDigit d = true) :
    ∃ n : Nat, Atoi [a, b, c, d] = some (n : Int) ∧ n < 10000 ∧
      fmtZeroD 4 (n : Int) = [a, b, c, d] := by
  have la := digitVal_lt a ha
  have lb := digitVal_lt b hb
  have lc := digitVal_lt c hc
  have ld := digitVal_lt d hd
  refine ⟨((digitVal a * 10 + digitVal b) * 10 + digitVal c) * 10 + digitVal d, ?_, ?_, ?_⟩
  · rw [Atoi_digits a _ ha]
    simp only [parseUnsigned, parseDigits, ha, hb, hc, hd, if_true, reduceCtorEq, if_false,
      Nat.zero_mul, Nat.zero_add]
    rw [if_pos (by omega)]
  · omega
  · unfold fmtZeroD
    rw [if_neg (by omega), Int.natAbs_ofNat, padZeros_four _ (by omega)]
    rw [digitChar_eq _ a ha (by omega), digitChar_eq _ b hb (by omega),
      digitChar_eq _ c hc (by omega), digitChar_eq _ d hd (by omega)]

/-- The integer `strconv.Atoi` reads from two digits, and its `%02d` numeral. -/
theorem Atoi_two (a b : Char) (ha : isDigit a = true) (hb : isDigit b = true) :
    ∃ n : Nat, Atoi [a, b] = some (n : Int) ∧ n < 100 ∧ fmtZeroD 2 (n : Int) = [a, b] := by
  have la := digitVal_lt a ha
  have lb := digitVal_lt b hb
  refine ⟨digitVal a * 10 + digitVal b, ?_, ?_, ?_⟩
  · rw [Atoi_digits a _ ha]
    simp only [parseUnsigned, parseDigits, ha, hb, if_true, reduceCtorEq, if_false,
      Nat.zero_mul, Nat.zero_add]
    rw [if_pos (by omega)]
  · omega
  · unfold fmtZeroD
    rw [if_neg (by omega), Int.natAbs_ofNat, padZeros_two _ (by omega)]
    rw [digitChar_eq _ a ha (by omega), digitChar_eq _ b hb (by omega)]

/-! ## Paths -/

theorem splitSlash_ne_nil (s : Str) : splitSlash s ≠ [] := by
  cases s with
  | nil => simp [splitSlash]
  | cons c cs =>
    unfold splitSlash
    split
    · simp
    · split <;> simp

theorem splitSlash_append (a b : Str) :
    splitSlash (a ++ '/' :: b) = splitSlash a ++ splitSlash b := by
  induction a with
  | nil => simp [splitSlash]
  | cons c a ih =>
    by_cases hc : c = '/'
    · simp [splitSlash, hc, ih]
    · simp only [List.cons_append, splitSlash, hc, if_false]
      have ih' : splitSlash (a.append ('/' :: b)) = splitSlash a ++ splitSlash b := ih
      rw [ih']
      cases e : splitSlash a with
      | nil => exact absurd e (splitSlash_ne_nil a)
      | cons h t => simp

theorem splitSlash_noSlash (s : Str) (h : '/' ∉ s) : splitSlash s = [s] := by
  induction s with
  | nil => simp [splitSlash]
  | cons c cs ih =>
    simp only [List.mem_cons, not_or] at h
    have hc : c ≠ '/' := fun e => h.1 e.symm
    simp [splitSlash, hc, ih h.2]

theorem splitSlash_elems (s : Str) : ∀ c ∈ splitSlash s, '/' ∉ c := by
  induction s with
  | nil => simp [splitSlash]
  | cons a s ih =>
    by_cases ha : a = '/'
    · simp only [splitSlash, ha, if_true, List.mem_cons]
      rintro c (rfl | hc)
      · simp
      · exact ih c hc
    · simp only [splitSlash, ha, if_false]
      cases e : splitSlash s with
      | nil => exact absurd e (splitSlash_ne_nil s)
      | cons h t =>
        rw [e] at ih
        simp only [List.mem_cons]
        rintro c (rfl | hc)
        · simp only [List.mem_cons, not_or]
          exact ⟨fun e => ha e.symm, ih h (by simp)⟩
        · exact ih c (by simp [hc])

theorem goodStk_step (rooted : Bool) (stk : List Str) (c : Str) (hs : GoodStk rooted stk)
    (hc : '/' ∉ c) : GoodStk rooted (cleanStep rooted stk c) := by
  unfold cleanStep
  split
  · exact hs
  · rename_i h1
    simp only [not_or] at h1
    split
    · rename_i h2
      subst h2
      cases stk with
      | nil =>
        cases rooted with
        | true => simp [GoodStk]
        | false => simp [GoodStk]
      | cons top rest =>
        simp only
        split
        · rename_i h3
          subst h3
          have hs' := hs
          unfold GoodStk at hs'
          unfold GoodStk
          refine ⟨by simp, ?_, hs⟩
          intro _
          exact ⟨(hs'.2.1 rfl).1, by simp⟩
        · simp only [GoodStk] at hs
          exact hs.2.2
    · rename_i h2
      simp only [GoodStk]
      exact ⟨⟨h1.1, hc, h1.2⟩, fun e => absurd e h2, hs⟩

theorem goodStk_foldl (rooted : Bool) (l : List Str) : ∀ (stk : List Str), GoodStk rooted stk →
    (∀ c ∈ l, '/' ∉ c) → GoodStk rooted (l.foldl (cleanStep rooted) stk) := by
  induction l with
  | nil => intro stk hs _; exact hs
  | cons c l ih =>
    intro stk hs hl
    simp only [List.foldl_cons]
    exact ih _ (goodStk_step rooted stk c hs (hl c (by simp))) (fun x hx => hl x (by simp [hx]))

theorem goodStk_replay (rooted : Bool) (stk : List Str) (hs : GoodStk rooted stk) :
    stk.reverse.foldl (cleanStep rooted) [] = stk := by
  induction stk with
  | nil => rfl
  | cons x rest ih =>
    simp only [GoodStk] at hs
    simp only [List.reverse_cons, List.foldl_append, List.foldl_cons, List.foldl_nil, ih hs.2.2]
    unfold cleanStep
    have h1 : ¬ (x = [] ∨ x = ['.']) := by
      simp only [not_or]; exact ⟨hs.1.1, hs.1.2.2⟩
    rw [if_neg h1]
    split
    · rename_i h2
      obtain ⟨hr, hh⟩ := hs.2.1 h2
      cases rest with
      | nil => simp [hr, h2]
      | cons top rest' =>
        have : top = ['.', '.'] := hh top (by simp)
        simp [this, h2]
    · rfl

theorem splitSlash_joinSlash (l : List Str) (hne : l ≠ []) (h : ∀ c ∈ l, '/' ∉ c) :
    splitSlash (joinSlash l) = l := by
  induction l with
  | nil => exact absurd rfl hne
  | cons a rest ih =>
    cases rest with
    | nil => simp only [joinSlash]; exact splitSlash_noSlash a (h a (by simp))
    | cons b rest' =>
      simp only [joinSlash]
      rw [splitSlash_append, splitSlash_noSlash a (h a (by simp)),
        ih (by simp) (fun c hc => h c (by simp [hc]))]
      rfl

theorem goodStk_mem (rooted : Bool) (stk : List Str) (hs : GoodStk rooted stk) :
    ∀ c ∈ stk, c ≠ [] ∧ '/' ∉ c ∧ c ≠ ['.'] := by
  induction stk with
  | nil => simp
  | cons x rest ih =>
    simp only [GoodStk] at hs
    intro c hc
    simp only [List.mem_cons] at hc
    rcases hc with rfl | hc
    · exact hs.1
    · exact ih hs.2.2 c hc

theorem joinSlash_head (l : List Str) (a : Str) (x : Char) (xs : Str) (ha : a = x :: xs) :
    ∃ ys, joinSlash (a :: l) = x :: ys := by
  cases l with
  | nil => exact ⟨xs, by simp [joinSlash, ha]⟩
  | cons b rest => exact ⟨xs ++ '/' :: joinSlash (b :: rest), by simp [joinSlash, ha]⟩

theorem goodStk_reverse_head (stk : List Str) (hs : GoodStk false stk) (hne : stk ≠ []) :
    ∃ x xs ys, joinSlash stk.reverse = x :: ys ∧ x ≠ '/' ∧ stk.reverse = (x :: xs) :: (stk.reverse.tail) := by
  have hrev : stk.reverse ≠ [] := by simpa using hne
  cases e : stk.reverse with
  | nil => exact absurd e hrev
  | cons a l =>
    have ha : a ∈ stk := by
      have : a ∈ stk.reverse := by rw [e]; simp
      simpa using this
    obtain ⟨h1, h2, _⟩ := goodStk_mem false stk hs a ha
    cases a with
    | nil => exact absurd rfl h1
    | cons x xs =>
      obtain ⟨ys, hy⟩ := joinSlash_head l (x :: xs) x xs rfl
      refine ⟨x, xs, ys, hy, ?_, rfl⟩
      intro hx
      apply h2
      simp [hx]

/-- The text of a cleaned path resolves to that path. -/
theorem resolve_text (rooted : Bool) (stk : List Str) (hs : GoodStk rooted stk) :
    resolve (RPath.text ⟨rooted, stk.reverse⟩) = some ⟨rooted, stk.reverse⟩ := by
  have hel : ∀ c ∈ stk.reverse, '/' ∉ c := by
    intro c hc
    exact (goodStk_mem rooted stk hs c (by simpa using hc)).2.1
  cases rooted with
  | true =>
    simp only [RPath.text, if_true, resolve, reduceCtorEq, if_false, isRooted, cleanComps,
      Option.some.injEq, RPath.mk.injEq, true_and]
    simp only [splitSlash, if_true, List.foldl_cons, cleanStep, true_or]
    by_cases hne : stk = []
    · subst hne
      simp [joinSlash, splitSlash, cleanStep]
    · rw [splitSlash_joinSlash _ (by simpa using hne) hel, goodStk_replay true stk hs]
  | false =>
    by_cases hne : stk = []
    · subst hne
      simp [RPath.text, resolve, isRooted, cleanComps, splitSlash, cleanStep]
    · obtain ⟨x, xs, ys, hy, hx, _⟩ := goodStk_reverse_head stk hs hne
      have hrev : stk.reverse ≠ [] := by simpa using hne
      have hroot : isRooted (joinSlash stk.reverse) = false := by
        rw [hy]
        unfold isRooted
        split
        · rename_i heq
          simp only [List.cons.injEq] at heq
          exact absurd heq.1 hx
        · rfl
      have hnil : joinSlash stk.reverse ≠ [] := by rw [hy]; simp
      simp only [RPath.text, Bool.false_eq_true, if_false, hrev, resolve, hnil, hroot,
        cleanComps, Option.some.injEq, RPath.mk.injEq, true_and]
      rw [splitSlash_joinSlash _ hrev hel, goodStk_replay false stk hs]

theorem goodStk_cleanComps (path : Str) :
    GoodStk (isRooted path) ((splitSlash path).foldl (cleanStep (isRooted path)) []) :=
  goodStk_foldl _ _ _ (by simp [GoodStk]) (splitSlash_elems path)

/-- The function `filepath.Clean` does not change what a path resolves to. -/
theorem resolve_Clean (path : Str) (h : path ≠ []) : resolve (Clean path) = resolve path := by
  unfold Clean
  rw [if_neg h]
  have := resolve_text (isRooted path) _ (goodStk_cleanComps path)
  unfold cleanComps
  rw [this]
  simp [resolve, h, cleanComps]

theorem isRooted_append (a b : Str) (h : a ≠ []) : isRooted (a ++ b) = isRooted a := by
  cases a with
  | nil => exact absurd rfl h
  | cons c cs =>
    by_cases hc : c = '/'
    · subst hc; rfl
    · simp only [List.cons_append, isRooted]
      split
      · rename_i heq
        simp only [List.cons.injEq] at heq
        exact absurd heq.1 hc
      · split
        · rename_i heq
          simp only [List.cons.injEq] at heq
          exact absurd heq.1 hc
        · rfl

theorem resolve_some (a : Str) (p : RPath) (h : resolve a = some p) :
    a ≠ [] ∧ p.rooted = isRooted a ∧
      p.comps.reverse = (splitSlash a).foldl (cleanStep (isRooted a)) [] := by
  unfold resolve at h
  split at h
  · cases h
  · rename_i hne
    simp only [Option.some.injEq] at h
    subst h
    exact ⟨hne, rfl, by simp [cleanComps]⟩

/-- What `filepath.Join(a, b)` resolves to: the elements of `b` processed after those of
`a`. -/
theorem resolve_join (a b : Str) (p : RPath) (h : resolve a = some p) :
    resolve (filepathJoin [a, b]) =
      some ⟨p.rooted, ((splitSlash b).foldl (cleanStep p.rooted) p.comps.reverse).reverse⟩ := by
  obtain ⟨hne, hr, hc⟩ := resolve_some a p h
  simp only [filepathJoin, hne, if_false, stringsJoin]
  rw [resolve_Clean _ (by simp [hne])]
  simp only [resolve, List.append_eq_nil, hne, false_and, if_false, cleanComps,
    isRooted_append a _ hne, splitSlash_append, List.foldl_append, Option.some.injEq,
    RPath.mk.injEq]
  rw [hr, hc]
  simp

theorem cleanStep_nice (rooted : Bool) (stk : List Str) (c : Str) (h : NiceElem c) :
    cleanStep rooted stk c = c :: stk := by
  obtain ⟨h1, _, h3, h4⟩ := h
  simp [cleanStep, h1, h3, h4]

/-- The path `filepath.Join(a, name)` resolves to the entry `name` of `a`. -/
theorem resolve_join_nice (a name : Str) (p : RPath) (h : resolve a = some p)
    (hn : NiceElem name) :
    resolve (filepathJoin [a, name]) = some ⟨p.rooted, p.comps ++ [name]⟩ := by
  rw [resolve_join a name p h, splitSlash_noSlash name hn.2.1]
  simp [cleanStep_nice _ _ _ hn]

/-- The path `filepath.Join(a, y/m)` resolves to the entry `m` of the entry `y` of `a`. -/
theorem resolve_join_two (a y m : Str) (p : RPath) (h : resolve a = some p)
    (hy : NiceElem y) (hm : NiceElem m) :
    resolve (filepathJoin [a, y ++ '/' :: m]) = some ⟨p.rooted, p.comps ++ [y, m]⟩ := by
  rw [resolve_join a _ p h, splitSlash_append, splitSlash_noSlash y hy.2.1,
    splitSlash_noSlash m hm.2.1]
  simp [cleanStep_nice _ _ _ hy, cleanStep_nice _ _ _ hm]

/-! ## The file system -/

theorem FS.get_root (fs : FS) (p : RPath) (h : p.comps = []) : fs.get p = some Node.dir := by
  cases fs <;> simp [FS.get, h]

theorem FS.get_cons (fs : FS) (q p : RPath) (n : Node) (h : p.comps ≠ []) :
    FS.get ((q, n) :: fs) p = if q = p then some n else fs.get p := by
  simp only [FS.get, h, if_false]

theorem FS.get_erase (fs : FS) (p q : RPath) :
    (fs.erase p).get q = if q.comps = [] then some Node.dir
      else if q = p then none else fs.get q := by
  by_cases hq : q.comps = []
  · rw [if_pos hq]; exact FS.get_root _ _ hq
  · rw [if_neg hq]
    induction fs with
    | nil => simp [FS.erase, FS.get, hq]
    | cons b rest ih =>
      obtain ⟨k, n⟩ := b
      unfold FS.erase at ih ⊢
      by_cases hk : k = p
      · subst hk
        simp only [List.filter_cons, ne_eq, not_true_eq_false, decide_False, Bool.false_eq_true,
          if_false]
        rw [ih, FS.get_cons _ _ _ _ hq]
        by_cases hqk : q = k
        · simp [hqk]
        · have : ¬ k = q := fun e => hqk e.symm
          simp [hqk, this]
      · simp only [List.filter_cons, ne_eq, hk, not_false_eq_true, decide_True, if_true]
        rw [FS.get_cons _ _ _ _ hq, FS.get_cons _ _ _ _ hq, ih]
        by_cases hqk : k = q
        · subst hqk; simp [hk]
        · simp [hqk]

theorem FS.get_set (fs : FS) (p q : RPath) (n : Node) :
    (fs.set p n).get q = if q.comps = [] then some Node.dir
      else if q = p then some n else fs.get q := by
  by_cases hq : q.comps = []
  · rw [if_pos hq]; exact FS.get_root _ _ hq
  · rw [if_neg hq]
    unfold FS.set
    rw [FS.get_cons _ _ _ _ hq, FS.get_erase, if_neg hq]
    by_cases hqp : q = p
    · subst hqp; simp
    · have : ¬ p = q := fun e => hqp e.symm
      simp [hqp, this]

theorem isStep_cons (rooted : Bool) (pre : List Str) (c : Str) (cs : List Str) (q : RPath) :
    IsStep rooted pre (c :: cs) q ↔ q = ⟨rooted, pre ++ [c]⟩ ∨ IsStep rooted (pre ++ [c]) cs q := by
  constructor
  · rintro ⟨hr, k, h1, h2, h3⟩
    by_cases hk : k = 1
    · left
      subst hk
      cases q
      simp only [RPath.mk.injEq]
      simp only at hr h3
      exact ⟨hr, by simpa using h3⟩
    · right
      refine ⟨hr, k - 1, by omega, by simp only [List.length_cons] at h2; omega, ?_⟩
      rw [h3]
      obtain ⟨j, rfl⟩ : ∃ j, k = j + 1 := ⟨k - 1, by omega⟩
      simp
  · rintro (h | ⟨hr, k, h1, h2, h3⟩)
    · subst h
      exact ⟨rfl, 1, le_refl _, by simp, by simp⟩
    · refine ⟨hr, k + 1, by omega, by simp only [List.length_cons]; omega, ?_⟩
      rw [h3]
      simp

/-- What `mkdirWalk` does: it fails exactly when a regular file stands on the way, and
otherwise makes a directory of every missing step and changes nothing else. -/
theorem mkdirWalk_spec (rooted : Bool) (cs : List Str) : ∀ (fs : FS) (pre : List Str),
    (Blocked rooted fs pre cs → mkdirWalk rooted fs pre cs = none) ∧
    (¬ Blocked rooted fs pre cs → ∃ fs', mkdirWalk rooted fs pre cs = some fs' ∧
      ∀ q, (fs.get q = none → IsStep rooted pre cs q → fs'.get q = some Node.dir) ∧
        (¬ (fs.get q = none ∧ IsStep rooted pre cs q) → fs'.get q = fs.get q)) := by
  induction cs with
  | nil =>
    intro fs pre
    constructor
    · rintro ⟨q, size, ⟨_, k, h1, h2, _⟩, _⟩
      simp at h2
      omega
    · intro _
      refine ⟨fs, rfl, ?_⟩
      intro q
      constructor
      · rintro _ ⟨_, k, h1, h2, _⟩
        simp at h2
        omega
      · intro _; rfl
  | cons c cs ih =>
    intro fs pre
    have hne : (⟨rooted, pre ++ [c]⟩ : RPath).comps ≠ [] := by simp
    cases e : fs.get ⟨rooted, pre ++ [c]⟩ with
    | none =>
      obtain ⟨ih1, ih2⟩ := ih (fs.set ⟨rooted, pre ++ [c]⟩ Node.dir) (pre ++ [c])
      have hb : Blocked rooted (fs.set ⟨rooted, pre ++ [c]⟩ Node.dir) (pre ++ [c]) cs ↔
          Blocked rooted fs pre (c :: cs) := by
        constructor
        · rintro ⟨q, size, hq, hg⟩
          rw [FS.get_set] at hg
          split at hg
          · cases hg
          · split at hg
            · cases hg
            · exact ⟨q, size, (isStep_cons _ _ _ _ _).2 (Or.inr hq), hg⟩
        · rintro ⟨q, size, hq, hg⟩
          rcases (isStep_cons _ _ _ _ _).1 hq with h | h
          · subst h; rw [e] at hg; cases hg
          · refine ⟨q, size, h, ?_⟩
            rw [FS.get_set]
            have hqc : q.comps ≠ [] := by
              intro h0; rw [FS.get_root _ _ h0] at hg; cases hg
            rw [if_neg hqc, if_neg]
            · exact hg
            · intro h0; subst h0; rw [e] at hg; cases hg
      constructor
      · intro hB
        simp only [mkdirWalk, e]
        exact ih1 (hb.2 hB)
      · intro hB
        obtain ⟨fs', h1, h2⟩ := ih2 (fun h => hB (hb.1 h))
        refine ⟨fs', by simp only [mkdirWalk, e]; exact h1, ?_⟩
        intro q
        obtain ⟨h2a, h2b⟩ := h2 q
        rw [FS.get_set] at h2a h2b
        by_cases hq : q = ⟨rooted, pre ++ [c]⟩
        · subst hq
          simp only [hne, if_false, if_true, reduceCtorEq, false_and, not_false_eq_true,
            true_implies] at h2b
          constructor
          · intro _ _; exact h2b
          · intro hn
            exact absurd ⟨e, (isStep_cons _ _ _ _ _).2 (Or.inl rfl)⟩ hn
        · by_cases hq0 : q.comps = []
          · have hg := FS.get_root fs q hq0
            simp only [hq0, if_true, reduceCtorEq, false_and, not_false_eq_true,
              true_implies] at h2b
            constructor
            · intro h; rw [hg] at h; cases h
            · intro _; rw [h2b, hg]
          · simp only [hq0, hq, if_false] at h2a h2b
            constructor
            · intro hg hs
              rcases (isStep_cons _ _ _ _ _).1 hs with h | h
              · exact absurd h hq
              · exact h2a hg h
            · intro hn
              apply h2b
              rintro ⟨hg, hs⟩
              exact hn ⟨hg, (isStep_cons _ _ _ _ _).2 (Or.inr hs)⟩
    | some n =>
      cases n with
      | file size =>
        constructor
        · intro _
          simp only [mkdirWalk, e]
        · intro hB
          exact absurd ⟨_, size, (isStep_cons _ _ _ _ _).2 (Or.inl rfl), e⟩ hB
      | dir =>
        obtain ⟨ih1, ih2⟩ := ih fs (pre ++ [c])
        have hb : Blocked rooted fs (pre ++ [c]) cs ↔ Blocked rooted fs pre (c :: cs) := by
          constructor
          · rintro ⟨q, size, hq, hg⟩
            exact ⟨q, size, (isStep_cons _ _ _ _ _).2 (Or.inr hq), hg⟩
          · rintro ⟨q, size, hq, hg⟩
            rcases (isStep_cons _ _ _ _ _).1 hq with h | h
            · subst h; rw [e] at hg; cases hg
            · exact ⟨q, size, h, hg⟩
        constructor
        · intro hB
          simp only [mkdirWalk, e]
          exact ih1 (hb.2 hB)
        · intro hB
          obtain ⟨fs', h1, h2⟩ := ih2 (fun h => hB (hb.1 h))
          refine ⟨fs', by simp only [mkdirWalk, e]; exact h1, ?_⟩
          intro q
          obtain ⟨h2a, h2b⟩ := h2 q
          constructor
          · intro hg hs
            rcases (isStep_cons _ _ _ _ _).1 hs with h | h
            · subst h; rw [e] at hg; cases hg
            · exact h2a hg h
          · intro hn
            apply h2b
            rintro ⟨hg, hs⟩
            exact hn ⟨hg, (isStep_cons _ _ _ _ _).2 (Or.inr hs)⟩

/-! ## The classifier on timestamp names -/

theorem numeral_four (a b c d : Char) (ha : isDigit a = true) (hb : isDigit b = true)
    (hc : isDigit c = true) (hd : isDigit d = true) :
    Atoi [a, b, c, d] = some (numeral [a, b, c, d]) ∧ 0 ≤ numeral [a, b, c, d] ∧
      numeral [a, b, c, d] < 10000 ∧ fmtZeroD 4 (numeral [a, b, c, d]) = [a, b, c, d] := by
  obtain ⟨n, h1, h2, h3⟩ := Atoi_four a b c d ha hb hc hd
  have hn : numeral [a, b, c, d] = (n : Int) := by
    have la := digitVal_lt a ha
    have : Atoi [a, b, c, d] = some (numeral [a, b, c, d]) := by
      rw [Atoi_digits a _ ha]
      have lb := digitVal_lt b hb
      have lc := digitVal_lt c hc
      have ld := digitVal_lt d hd
      simp only [parseUnsigned, parseDigits, ha, hb, hc, hd, if_true, reduceCtorEq, if_false,
        Nat.zero_mul, Nat.zero_add, numeral, List.foldl_cons, List.foldl_nil]
      rw [if_pos (by omega)]
    rw [h1] at this
    exact (Option.some.inj this).symm
  rw [hn]
  exact ⟨h1, by omega, by omega, h3⟩

theorem numeral_two (a b : Char) (ha : isDigit a = true) (hb : isDigit b = true) :
    Atoi [a, b] = some (numeral [a, b]) ∧ 0 ≤ numeral [a, b] ∧
      numeral [a, b] < 100 ∧ fmtZeroD 2 (numeral [a, b]) = [a, b] := by
  obtain ⟨n, h1, h2, h3⟩ := Atoi_two a b ha hb
  have hn : numeral [a, b] = (n : Int) := by
    have la := digitVal_lt a ha
    have lb := digitVal_lt b hb
    have : Atoi [a, b] = some (numeral [a, b]) := by
      rw [Atoi_digits a _ ha]
      simp only [parseUnsigned, parseDigits, ha, hb, if_true, reduceCtorEq, if_false,
        Nat.zero_mul, Nat.zero_add, numeral, List.foldl_cons, List.foldl_nil]
      rw [if_pos (by omega)]
    rw [h1] at this
    exact (Option.some.inj this).symm
  rw [hn]
  exact ⟨h1, by omega, by omega, h3⟩

/-- The shape of a timestamp name: fourteen digits, a dot, a word character and the rest. -/
theorem timestampName_shape (name : Str) (h : TimestampName name) :
    ∃ c0 c1 c2 c3 c4 c5 c6 c7 c8 c9 c10 c11 c12 c13 c15 rest,
      name = c0 :: c1 :: c2 :: c3 :: c4 :: c5 :: c6 :: c7 :: c8 :: c9 :: c10 :: c11 :: c12 ::
        c13 :: '.' :: c15 :: rest ∧
      isDigit c0 = true ∧ isDigit c1 = true ∧ isDigit c2 = true ∧ isDigit c3 = true ∧
      isDigit c4 = true ∧ isDigit c5 = true ∧ isDigit c6 = true ∧ isDigit c7 = true ∧
      isDigit c8 = true ∧ isDigit c9 = true ∧ isDigit c10 = true ∧ isDigit c11 = true ∧
      isDigit c12 = true ∧ isDigit c13 = true ∧ ∀ c ∈ c15 :: rest, isWord c = true := by
  obtain ⟨hlen, hdig, hdot, hword⟩ := h
  match name, hlen, hdig, hdot, hword with
  | c0 :: c1 :: c2 :: c3 :: c4 :: c5 :: c6 :: c7 :: c8 :: c9 :: c10 :: c11 :: c12 :: c13 ::
      c14 :: c15 :: rest, _, hdig, hdot, hword =>
    simp only [List.take_succ_cons, List.take_zero, List.mem_cons, forall_eq_or_imp,
      List.not_mem_nil, false_implies, implies_true, and_true] at hdig
    simp only [List.drop_succ_cons, List.drop_zero, List.take_succ_cons, List.take_zero,
      List.cons.injEq, and_true] at hdot hword
    obtain ⟨h0, h1, h2, h3, h4, h5, h6, h7, h8, h9, h10, h11, h12, h13⟩ := hdig
    subst hdot
    exact ⟨c0, c1, c2, c3, c4, c5, c6, c7, c8, c9, c10, c11, c12, c13, c15, rest, rfl,
      h0, h1, h2, h3, h4, h5, h6, h7, h8, h9, h10, h11, h12, h13, hword⟩

/-- The classifier on a timestamp name: the three conversions succeed and give the
numbers the digits denote, whose zero-padded numerals are the digits again. -/
theorem classify (name : Str) (h : TimestampName name) :
    FindStringSubmatch name = some (groupsOf name) ∧
    Atoi (idx (groupsOf name) 1) = some (fileYear name) ∧
    Atoi (idx (groupsOf name) 2) = some (fileMonth name) ∧
    Atoi (idx (groupsOf name) 3) = some (fileDay name) ∧
    idx (groupsOf name) 4 = fileExt name ∧
    (0 ≤ fileYear name ∧ fileYear name < 10000) ∧
    (0 ≤ fileMonth name ∧ fileMonth name < 100) ∧
    (0 ≤ fileDay name ∧ fileDay name < 100) ∧
    fmtZeroD 4 (fileYear name) = name.take 4 ∧
    fmtZeroD 2 (fileMonth name) = (name.drop 4).take 2 ∧
    fmtZeroD 2 (fileDay name) = (name.drop 6).take 2 := by
  refine ⟨FindStringSubmatch_of_timestampName name h, ?_⟩
  obtain ⟨c0, c1, c2, c3, c4, c5, c6, c7, c8, c9, c10, c11, c12, c13, c15, rest, rfl,
    h0, h1, h2, h3, h4, h5, h6, h7, _⟩ := timestampName_shape name h
  obtain ⟨y1, y2, y3, y4⟩ := numeral_four c0 c1 c2 c3 h0 h1 h2 h3
  obtain ⟨m1, m2, m3, m4⟩ := numeral_two c4 c5 h4 h5
  obtain ⟨d1, d2, d3, d4⟩ := numeral_two c6 c7 h6 h7
  simp only [idx, groupsOf, fileYear, fileMonth, fileDay, fileExt, List.getD_cons_succ,
    List.getD_cons_zero, List.take_succ_cons, List.take_zero, List.drop_succ_cons,
    List.drop_zero]
  exact ⟨y1, m1, d1, trivial, ⟨y2, y3⟩, ⟨m2, m3⟩, ⟨d2, d3⟩, y4, m4, d4⟩

theorem sprintfYearMonth_timestamp (name : Str) (h : TimestampName name) :
    sprintfYearMonth (fileYear name) (fileMonth name) =
      name.take 4 ++ '/' :: (name.drop 4).take 2 := by
  obtain ⟨_, _, _, _, _, _, _, _, hy, hm, _⟩ := classify name h
  rw [sprintfYearMonth, hy, hm]

/-- The loop body of the `cm` variant: nothing for a directory or a name that is no
timestamp name, `archiveStep` otherwise, and never an error. -/
theorem cm_archiveEntry_eq (env : Env) (thr : Time) (memoDir : Str) (file : DirEntry)
    (w : World) :
    Cm.archiveEntry env thr memoDir file w =
      (none, if file.isDir = true ∨ ¬ TimestampName file.name then w
        else archiveStep env thr memoDir file.name w) := by
  unfold Cm.archiveEntry
  by_cases hd : file.isDir = true
  · simp [hd]
  · by_cases hn : TimestampName file.name
    · obtain ⟨c1, c2, c3, c4, _⟩ := classify file.name hn
      have hs := sprintfYearMonth_timestamp file.name hn
      simp only [hd, Bool.false_eq_true, if_false, c1, c2, c3, c4, hn, not_true_eq_false,
        or_self, archiveStep, moveStep, oldPathOf, destDirOf, destPathOf, hs, fileTime]
      cases isEmptyFile env w (filepathJoin [memoDir, file.name]) with
      | mk b w1 =>
        cases b with
        | true => rfl
        | false =>
          simp only
          split
          · cases osMkdirAll env w1 (filepathJoin [memoDir,
                List.take 4 file.name ++ '/' :: List.take 2 (List.drop 4 file.name)]) with
            | mk b2 w2 => cases b2 <;> rfl
          · rfl
    · have hf : FindStringSubmatch file.name = none := by
        rw [FindStringSubmatch_eq, if_neg hn]
      simp [hd, hn, hf]

/-- The loop body of the root variant: as in the `cm` variant, but nothing either for a
timestamp name with another extension than `ext`. -/
theorem root_archiveEntry_eq (env : Env) (thr : Time) (memoDir ext : Str) (file : DirEntry)
    (w : World) :
    Root.archiveEntry env thr memoDir ext file w =
      (none, if file.isDir = true ∨ ¬ TimestampName file.name ∨ fileExt file.name ≠ ext then w
        else archiveStep env thr memoDir file.name w) := by
  unfold Root.archiveEntry
  by_cases hd : file.isDir = true
  · simp [hd]
  · by_cases hn : TimestampName file.name
    · obtain ⟨c1, c2, c3, c4, c5, _⟩ := classify file.name hn
      have hs := sprintfYearMonth_timestamp file.name hn
      by_cases he : fileExt file.name = ext
      · simp only [hd, Bool.false_eq_true, if_false, c1, c2, c3, c4, c5, he, hn,
          not_true_eq_false, ne_eq, or_self, archiveStep, moveStep, oldPathOf, destDirOf,
          destPathOf, hs, fileTime]
        cases isEmptyFile env w (filepathJoin [memoDir, file.name]) with
        | mk b w1 =>
          cases b with
          | true => rfl
          | false =>
            simp only
            split
            · cases osMkdirAll env w1 (filepathJoin [memoDir,
                  List.take 4 file.name ++ '/' :: List.take 2 (List.drop 4 file.name)]) with
              | mk b2 w2 => cases b2 <;> rfl
            · rfl
      · simp [hd, c1, c5, he, hn]
    · have hf : FindStringSubmatch file.name = none := by
        rw [FindStringSubmatch_eq, if_neg hn]
      simp [hd, hn, hf]

/-! ## One step of the loop on the file system -/

theorem isDigit_not_slash (c : Char) (h : isDigit c = true) : c ≠ '/' ∧ c ≠ '.' := by
  constructor <;> (rintro rfl; exact absurd h (by decide))

theorem isWord_not_slash (c : Char) (h : isWord c = true) : c ≠ '/' := by
  rintro rfl; exact absurd h (by decide)

theorem timestampName_nice (name : Str) (h : TimestampName name) :
    NiceElem name ∧ NiceElem (name.take 4) ∧ NiceElem ((name.drop 4).take 2) := by
  obtain ⟨c0, c1, c2, c3, c4, c5, c6, c7, c8, c9, c10, c11, c12, c13, c15, rest, rfl,
    h0, h1, h2, h3, h4, h5, h6, h7, h8, h9, h10, h11, h12, h13, hw⟩ := timestampName_shape name h
  have n0 := isDigit_not_slash _ h0
  have n1 := isDigit_not_slash _ h1
  have n2 := isDigit_not_slash _ h2
  have n3 := isDigit_not_slash _ h3
  have n4 := isDigit_not_slash _ h4
  have n5 := isDigit_not_slash _ h5
  have n6 := isDigit_not_slash _ h6
  have n7 := isDigit_not_slash _ h7
  have n8 := isDigit_not_slash _ h8
  have n9 := isDigit_not_slash _ h9
  have n10 := isDigit_not_slash _ h10
  have n11 := isDigit_not_slash _ h11
  have n12 := isDigit_not_slash _ h12
  have n13 := isDigit_not_slash _ h13
  refine ⟨⟨by simp, ?_, by simp, by simp⟩, ⟨by simp, ?_, by simp, by simp⟩,
    ⟨by simp, ?_, by simp, ?_⟩⟩
  · simp only [List.mem_cons, not_or]
    refine ⟨n0.1.symm, n1.1.symm, n2.1.symm, n3.1.symm, n4.1.symm, n5.1.symm, n6.1.symm,
      n7.1.symm, n8.1.symm, n9.1.symm, n10.1.symm, n11.1.symm, n12.1.symm, n13.1.symm,
      by decide, ?_⟩
    have hw' : ¬ ('/' ∈ c15 :: rest) := by
      intro hmem
      exact absurd (hw '/' hmem) (by decide)
    simpa [eq_comm] using hw'
  · simp only [List.take_succ_cons, List.take_zero, List.mem_cons, List.not_mem_nil, or_false,
      not_or]
    exact ⟨n0.1.symm, n1.1.symm, n2.1.symm, n3.1.symm⟩
  · simp only [List.drop_succ_cons, List.drop_zero, List.take_succ_cons, List.take_zero,
      List.mem_cons, List.not_mem_nil, or_false, not_or]
    exact ⟨n4.1.symm, n5.1.symm⟩
  · simp only [List.drop_succ_cons, List.drop_zero, List.take_succ_cons, List.take_zero, ne_eq,
      List.cons.injEq, and_true, not_and]
    intro h4'
    exact absurd h4' n4.2

theorem resolve_oldPathOf (memoDir name : Str) (P : RPath) (hres : resolve memoDir = some P)
    (hn : NiceElem name) : resolve (oldPathOf memoDir name) = some (oldR P name) :=
  resolve_join_nice memoDir name P hres hn

theorem resolve_destDirOf (memoDir name : Str) (P : RPath) (hres : resolve memoDir = some P)
    (hn : TimestampName name) : resolve (destDirOf memoDir name) = some (dirR P name) :=
  resolve_join_two memoDir _ _ P hres (timestampName_nice name hn).2.1
    (timestampName_nice name hn).2.2

theorem resolve_destPathOf (memoDir name : Str) (P : RPath) (hres : resolve memoDir = some P)
    (hn : TimestampName name) : resolve (destPathOf memoDir name) = some (destR P name) := by
  have := resolve_join_nice (destDirOf memoDir name) name (dirR P name)
    (resolve_destDirOf memoDir name P hres hn) (timestampName_nice name hn).1
  simpa [destPathOf, destR, dirR] using this

theorem timestampName_length (name : Str) (h : TimestampName name) : 16 ≤ name.length := h.1

theorem oldR_not_step (P : RPath) (name other : Str) (h : TimestampName name) :
    ¬ IsStep P.rooted [] (dirR P other).comps (oldR P name) := by
  rintro ⟨_, k, h1, h2, h3⟩
  simp only [oldR, dirR, List.nil_append] at h3 h2
  have hl := congrArg List.length h3
  simp only [List.length_append, List.length_singleton, List.length_take, List.length_cons,
    List.length_nil] at hl h2
  have hk : k = P.comps.length + 1 := by omega
  subst hk
  rw [List.take_append_eq_append_take] at h3
  simp only [List.take_succ_cons, List.take_zero, Nat.add_sub_cancel_left] at h3
  have h4 : List.take (P.comps.length + 1) P.comps = P.comps := List.take_of_length_le (by omega)
  rw [h4] at h3
  have h5 := List.append_cancel_left h3
  simp only [List.cons.injEq, and_true] at h5
  have h6 := congrArg List.length h5
  have h7 := timestampName_length name h
  simp only [List.length_take] at h6
  omega

theorem destR_not_step (P : RPath) (name other : Str) :
    ¬ IsStep P.rooted [] (dirR P other).comps (destR P name) := by
  rintro ⟨_, k, h1, h2, h3⟩
  simp only [destR, dirR, List.nil_append] at h3 h2
  have hl := congrArg List.length h3
  simp only [List.length_append, List.length_take, List.length_cons,
    List.length_nil] at hl h2
  omega

theorem dirR_is_step (P : RPath) (name : Str) :
    IsStep P.rooted [] (dirR P name).comps (dirR P name) :=
  ⟨rfl, (dirR P name).comps.length, by simp [dirR], le_refl _, by simp⟩

theorem oldR_ne_destR (P : RPath) (name other : Str) : oldR P name ≠ destR P other := by
  intro h
  have := congrArg (fun p => p.comps.length) h
  simp [oldR, destR] at this

theorem destR_parent (P : RPath) (name : Str) : (destR P name).parent = dirR P name := by
  simp only [destR, dirR, RPath.parent, RPath.mk.injEq, true_and]
  have : P.comps ++ [List.take 4 name, List.take 2 (List.drop 4 name), name] =
      (P.comps ++ [List.take 4 name, List.take 2 (List.drop 4 name)]) ++ [name] := by simp
  rw [this, List.dropLast_concat]

theorem oldR_comps_ne (P : RPath) (name : Str) : (oldR P name).comps ≠ [] := by simp [oldR]

theorem destR_comps_ne (P : RPath) (name : Str) : (destR P name).comps ≠ [] := by simp [destR]

theorem moveStep_sem (env : Env) (memoDir name : Str) (P : RPath) (w : World)
    (hres : resolve memoDir = some P) (hn : TimestampName name) :
    (moveStep env memoDir name w).calls = w.calls ++ (entryMoveView env memoDir name P w).2.2 ∧
    (moveStep env memoDir name w).fs.get (oldR P name) = (entryMoveView env memoDir name P w).1 ∧
    (moveStep env memoDir name w).fs.get (destR P name) =
      (entryMoveView env memoDir name P w).2.1 ∧
    Frame P name w.fs (moveStep env memoDir name w).fs := by
  unfold entryMoveView
  have hO := resolve_oldPathOf memoDir name P hres (timestampName_nice name hn).1
  have hD := resolve_destDirOf memoDir name P hres hn
  have hT := resolve_destPathOf memoDir name P hres hn
  obtain ⟨hblk, hok⟩ := mkdirWalk_spec P.rooted (dirR P name).comps w.fs []
  have hrefl : Frame P name w.fs w.fs := fun q _ _ => Or.inl rfl
  have hdr : (dirR P name).rooted = P.rooted := rfl
  unfold moveStep osMkdirAll
  simp only [hD, hdr]
  by_cases hm : env.mkdirAllFails (destDirOf memoDir name) = true
  · simp only [hm, if_true, moveView, Bool.true_or]
    exact ⟨trivial, trivial, trivial, hrefl⟩
  · simp only [hm, Bool.false_eq_true, if_false]
    by_cases hB : Blocked P.rooted w.fs [] (dirR P name).comps
    · have h0 := hblk hB
      simp only [h0, moveView, Option.isNone_none, Bool.or_true, if_true]
      exact ⟨trivial, trivial, trivial, hrefl⟩
    · obtain ⟨fs1, h1, h2⟩ := hok hB
      have g1 : fs1.get (oldR P name) = w.fs.get (oldR P name) :=
        (h2 _).2 (fun h => oldR_not_step P name name hn h.2)
      have g2 : fs1.get (destR P name) = w.fs.get (destR P name) :=
        (h2 _).2 (fun h => destR_not_step P name name h.2)
      have g3 : fs1.get (dirR P name) = some Node.dir := by
        cases e : w.fs.get (dirR P name) with
        | none => exact (h2 _).1 e (dirR_is_step P name)
        | some n =>
          cases n with
          | file size => exact absurd ⟨_, size, dirR_is_step P name, e⟩ hB
          | dir =>
            rw [(h2 _).2 (fun h => by rw [e] at h; cases h.1), e]
      have hfr1 : Frame P name w.fs fs1 := by
        intro q _ _
        by_cases hq : w.fs.get q = none ∧ IsStep P.rooted [] (dirR P name).comps q
        · exact Or.inr ⟨hq.1, (h2 q).1 hq.1 hq.2, hq.2⟩
        · exact Or.inl ((h2 q).2 hq)
      simp only [h1, moveView, Option.isNone_some, Bool.or_false, Bool.false_eq_true, if_false,
        hm]
      unfold osRename
      simp only [hO, hT, g1, g2, g3, destR_parent, destR_comps_ne, oldR_ne_destR, if_false,
        ne_eq, not_true_eq_false]
      by_cases hr : env.renameFails (oldPathOf memoDir name) (destPathOf memoDir name) = true
      · simp only [hr, if_true]
        exact ⟨by simp, g1, g2, hfr1⟩
      · simp only [hr, Bool.false_eq_true, if_false]
        cases ha : w.fs.get (oldR P name) with
        | none =>
          simp only
          exact ⟨by simp, by rw [g1, ha], g2, hfr1⟩
        | some n =>
          cases n with
          | dir =>
            simp only
            exact ⟨by simp, by rw [g1, ha], g2, hfr1⟩
          | file size =>
            simp only
            by_cases hb : w.fs.get (destR P name) = some Node.dir
            · simp only [hb, if_true]
              exact ⟨by simp, by rw [g1, ha], by rw [g2, hb], hfr1⟩
            · simp only [hb, if_false]
              refine ⟨by simp, ?_, ?_, ?_⟩
              · rw [FS.get_set, if_neg (oldR_comps_ne P name), if_neg (oldR_ne_destR P name name),
                  FS.get_erase, if_neg (oldR_comps_ne P name), if_pos rfl]
              · rw [FS.get_set, if_neg (destR_comps_ne P name), if_pos rfl]
              · intro q hq1 hq2
                have : ((fs1.erase (oldR P name)).set (destR P name) (Node.file size)).get q =
                    fs1.get q := by
                  rw [FS.get_set, FS.get_erase]
                  by_cases hq0 : q.comps = []
                  · simp [hq0, FS.get_root fs1 q hq0]
                  · simp [hq0, hq1, hq2]
                rw [this]
                exact hfr1 q hq1 hq2

theorem archiveStep_sem (env : Env) (thr : Time) (memoDir name : Str) (P : RPath) (w : World)
    (hres : resolve memoDir = some P) (hn : TimestampName name) :
    (archiveStep env thr memoDir name w).calls = w.calls ++ (entryView env thr memoDir name P w).2.2 ∧
    (archiveStep env thr memoDir name w).fs.get (oldR P name) =
      (entryView env thr memoDir name P w).1 ∧
    (archiveStep env thr memoDir name w).fs.get (destR P name) =
      (entryView env thr memoDir name P w).2.1 ∧
    Frame P name w.fs (archiveStep env thr memoDir name w).fs := by
  have hO := resolve_oldPathOf memoDir name P hres (timestampName_nice name hn).1
  have hrefl : Frame P name w.fs w.fs := fun q _ _ => Or.inl rfl
  have hmove : ∀ cs : List Call,
      (moveStep env memoDir name ⟨w.fs, cs⟩).calls =
        cs ++ (entryMoveView env memoDir name P w).2.2 ∧
      (moveStep env memoDir name ⟨w.fs, cs⟩).fs.get (oldR P name) =
        (entryMoveView env memoDir name P w).1 ∧
      (moveStep env memoDir name ⟨w.fs, cs⟩).fs.get (destR P name) =
        (entryMoveView env memoDir name P w).2.1 ∧
      Frame P name w.fs (moveStep env memoDir name ⟨w.fs, cs⟩).fs :=
    fun cs => moveStep_sem env memoDir name P ⟨w.fs, cs⟩ hres hn
  unfold archiveStep isEmptyFile osStat entryView stepView
  simp only [hO]
  by_cases hs : env.statFails (oldPathOf memoDir name) = true
  · simp only [hs, if_true, Option.isSome_none, Bool.false_eq_true, if_false]
    by_cases hb : (fileTime name).Before thr = true
    · simp only [hb, if_true]
      obtain ⟨m1, m2, m3, m4⟩ := hmove (w.calls ++ [Call.stat (oldPathOf memoDir name) false])
      exact ⟨by rw [m1]; simp [entryMoveView], m2, m3, m4⟩
    · simp only [hb, Bool.false_eq_true, if_false]
      exact ⟨by simp, trivial, trivial, hrefl⟩
  · simp only [hs, Bool.false_eq_true, if_false]
    cases ha : w.fs.get (oldR P name) with
    | none =>
      simp only [Option.isSome_none, Bool.false_eq_true, if_false]
      by_cases hb : (fileTime name).Before thr = true
      · simp only [hb, if_true]
        obtain ⟨m1, m2, m3, m4⟩ := hmove (w.calls ++ [Call.stat (oldPathOf memoDir name) false])
        simp only [entryMoveView, ha] at m1 m2 m3
        exact ⟨by rw [m1]; simp, m2, m3, m4⟩
      · simp only [hb, Bool.false_eq_true, if_false]
        exact ⟨by simp, ha, trivial, hrefl⟩
    | some n =>
      by_cases hz : n.size = 0
      · have hn0 : n = Node.file 0 := by
          cases n with
          | file size => simp only [Node.size] at hz; rw [hz]
          | dir => simp [Node.size] at hz
        subst hn0
        simp only [Node.size, decide_True, Option.isSome_some, if_true]
        unfold osRemove removeView
        simp only [hO, oldR_comps_ne, if_false, ha]
        by_cases hr : env.removeFails (oldPathOf memoDir name) = true
        · simp only [hr, if_true]
          exact ⟨by simp, ha, trivial, hrefl⟩
        · simp only [hr, Bool.false_eq_true, if_false]
          refine ⟨by simp, ?_, ?_, ?_⟩
          · rw [FS.get_erase, if_neg (oldR_comps_ne P name), if_pos rfl]
          · rw [FS.get_erase, if_neg (destR_comps_ne P name),
              if_neg (fun h => oldR_ne_destR P name name h.symm)]
          · intro q hq1 _
            left
            rw [FS.get_erase]
            by_cases hq0 : q.comps = []
            · simp [hq0, FS.get_root w.fs q hq0]
            · simp [hq0, hq1]
      · simp only [hz, decide_False, Option.isSome_some, Bool.false_eq_true, if_false]
        by_cases hb : (fileTime name).Before thr = true
        · simp only [hb, if_true]
          obtain ⟨m1, m2, m3, m4⟩ := hmove (w.calls ++ [Call.stat (oldPathOf memoDir name) true])
          simp only [entryMoveView, ha] at m1 m2 m3
          exact ⟨by rw [m1]; simp, m2, m3, m4⟩
        · simp only [hb, Bool.false_eq_true, if_false]
          exact ⟨by simp, ha, trivial, hrefl⟩

/-! ## The loop -/

theorem cm_archiveLoop_eq (env : Env) (thr : Time) (memoDir : Str) (files : List DirEntry) :
    ∀ w, Cm.archiveLoop env thr memoDir files w = (none, loopW cmSel env thr memoDir files w) := by
  induction files with
  | nil => intro w; rfl
  | cons f files ih =>
    intro w
    simp only [Cm.archiveLoop, cm_archiveEntry_eq, loopW, ih]
    congr 2
    by_cases hd : f.isDir = true
    · simp [cmSel, hd]
    · by_cases hn : TimestampName f.name
      · simp [cmSel, hd, hn]
      · simp [cmSel, hd, hn]

theorem root_archiveLoop_eq (env : Env) (thr : Time) (memoDir ext : Str)
    (files : List DirEntry) :
    ∀ w, Root.archiveLoop env thr memoDir ext files w =
      (none, loopW (rootSel ext) env thr memoDir files w) := by
  induction files with
  | nil => intro w; rfl
  | cons f files ih =>
    intro w
    simp only [Root.archiveLoop, root_archiveEntry_eq, loopW, ih]
    congr 2
    by_cases hd : f.isDir = true
    · simp [rootSel, cmSel, hd]
    · by_cases hn : TimestampName f.name
      · by_cases he : fileExt f.name = ext
        · simp [rootSel, cmSel, hd, hn, he]
        · simp [rootSel, cmSel, hd, hn, he]
      · simp [rootSel, cmSel, hd, hn]

theorem cmSel_timestamp (f : DirEntry) (h : cmSel f = true) : TimestampName f.name := by
  simp only [cmSel, Bool.and_eq_true, decide_eq_true_eq] at h
  exact h.2

theorem rootSel_timestamp (ext : Str) (f : DirEntry) (h : rootSel ext f = true) :
    TimestampName f.name := by
  simp only [rootSel, Bool.and_eq_true] at h
  exact cmSel_timestamp f h.1

theorem loopW_append (sel : DirEntry → Bool) (env : Env) (thr : Time) (memoDir : Str)
    (l1 l2 : List DirEntry) : ∀ w, loopW sel env thr memoDir (l1 ++ l2) w =
      loopW sel env thr memoDir l2 (loopW sel env thr memoDir l1 w) := by
  induction l1 with
  | nil => intro w; rfl
  | cons f l1 ih => intro w; simp only [List.cons_append, loopW]; exact ih _

theorem OnlyBy.refl (P : RPath) (S : Str → Prop) (fs : FS) : OnlyBy P S fs fs :=
  fun _ => Or.inl rfl

theorem OnlyBy.trans (P : RPath) (S : Str → Prop) (fs1 fs2 fs3 : FS)
    (h12 : OnlyBy P S fs1 fs2) (h23 : OnlyBy P S fs2 fs3) : OnlyBy P S fs1 fs3 := by
  intro q
  rcases h23 q with h | h | ⟨h1, h2, h3⟩
  · rcases h12 q with g | g | ⟨g1, g2, g3⟩
    · exact Or.inl (h.trans g)
    · exact Or.inr (Or.inl g)
    · exact Or.inr (Or.inr ⟨g1, h.trans g2, g3⟩)
  · exact Or.inr (Or.inl h)
  · rcases h12 q with g | g | ⟨g1, g2, g3⟩
    · exact Or.inr (Or.inr ⟨g ▸ h1, h2, h3⟩)
    · exact Or.inr (Or.inl g)
    · rw [g2] at h1; cases h1

theorem OnlyBy.mono (P : RPath) (S T : Str → Prop) (fs fs' : FS) (hST : ∀ n, S n → T n)
    (h : OnlyBy P S fs fs') : OnlyBy P T fs fs' := by
  intro q
  rcases h q with h | ⟨n, h1, h2⟩ | ⟨h1, h2, n, h3, h4⟩
  · exact Or.inl h
  · exact Or.inr (Or.inl ⟨n, hST n h1, h2⟩)
  · exact Or.inr (Or.inr ⟨h1, h2, n, hST n h3, h4⟩)

theorem OnlyBy.of_frame (P : RPath) (S : Str → Prop) (n : Str) (fs fs' : FS) (hS : S n)
    (hn : TimestampName n) (h : Frame P n fs fs') : OnlyBy P S fs fs' := by
  intro q
  by_cases h1 : q = oldR P n
  · exact Or.inr (Or.inl ⟨n, hS, hn, Or.inl h1⟩)
  · by_cases h2 : q = destR P n
    · exact Or.inr (Or.inl ⟨n, hS, hn, Or.inr h2⟩)
    · rcases h q h1 h2 with g | ⟨g1, g2, g3⟩
      · exact Or.inl g
      · exact Or.inr (Or.inr ⟨g1, g2, n, hS, hn, g3⟩)

theorem removeView_calls (removeF : Bool) (memoDir name : Str) (a b : Option Node) :
    ∀ c ∈ (removeView removeF (oldPathOf memoDir name) a b).2.2, IsCallOf memoDir name c := by
  intro c hc
  unfold removeView at hc
  split at hc
  · simp only [List.mem_singleton] at hc
    exact ⟨_, Or.inr (Or.inl hc)⟩
  · split at hc <;>
    · simp only [List.mem_singleton] at hc
      exact ⟨_, Or.inr (Or.inl hc)⟩

theorem moveView_calls (mkdirF renameF blocked : Bool) (memoDir name : Str)
    (a b : Option Node) :
    ∀ c ∈ (moveView mkdirF renameF blocked (oldPathOf memoDir name)
      (destDirOf memoDir name) (destPathOf memoDir name) a b).2.2, IsCallOf memoDir name c := by
  intro c hc
  unfold moveView at hc
  split at hc
  · simp only [List.mem_singleton] at hc
    exact ⟨_, Or.inr (Or.inr (Or.inl hc))⟩
  · split at hc
    · simp only [List.mem_cons, List.mem_singleton, List.not_mem_nil, or_false] at hc
      rcases hc with hc | hc
      · exact ⟨_, Or.inr (Or.inr (Or.inl hc))⟩
      · exact ⟨_, Or.inr (Or.inr (Or.inr hc))⟩
    · split at hc
      · split at hc <;>
        · simp only [List.mem_cons, List.mem_singleton, List.not_mem_nil, or_false] at hc
          rcases hc with hc | hc
          · exact ⟨_, Or.inr (Or.inr (Or.inl hc))⟩
          · exact ⟨_, Or.inr (Or.inr (Or.inr hc))⟩
      · simp only [List.mem_cons, List.mem_singleton, List.not_mem_nil, or_false] at hc
        rcases hc with hc | hc
        · exact ⟨_, Or.inr (Or.inr (Or.inl hc))⟩
        · exact ⟨_, Or.inr (Or.inr (Or.inr hc))⟩

theorem stepView_calls (statF removeF mkdirF renameF before blocked : Bool)
    (memoDir name : Str) (a b : Option Node) :
    ∀ c ∈ (stepView statF removeF mkdirF renameF before blocked (oldPathOf memoDir name)
      (destDirOf memoDir name) (destPathOf memoDir name) a b).2.2, IsCallOf memoDir name c := by
  intro c hc
  unfold stepView at hc
  simp only [List.mem_cons] at hc
  rcases hc with hc | hc
  · exact ⟨_, Or.inl hc⟩
  · split_ifs at hc
    all_goals first
      | exact removeView_calls _ _ _ _ _ c hc
      | exact moveView_calls _ _ _ _ _ _ _ c hc
      | simp at hc

/-- The loop changes the file system only by steps for the entries it selects, and makes
only calls for them. -/
theorem loopW_onlyBy (sel : DirEntry → Bool) (env : Env) (thr : Time) (memoDir : Str)
    (P : RPath) (hres : resolve memoDir = some P)
    (hsel : ∀ f, sel f = true → TimestampName f.name) (files : List DirEntry) :
    ∀ w, OnlyBy P (fun n => ∃ f ∈ files, sel f = true ∧ f.name = n) w.fs
        (loopW sel env thr memoDir files w).fs ∧
      ∃ extra, (loopW sel env thr memoDir files w).calls = w.calls ++ extra ∧
        ∀ c ∈ extra, ∃ f ∈ files, sel f = true ∧ IsCallOf memoDir f.name c := by
  induction files with
  | nil =>
    intro w
    exact ⟨OnlyBy.refl _ _ _, [], by simp [loopW], by simp⟩
  | cons f files ih =>
    intro w
    simp only [loopW]
    by_cases hf : sel f = true
    · simp only [hf, if_true]
      obtain ⟨s1, s2, s3, s4⟩ := archiveStep_sem env thr memoDir f.name P w hres (hsel f hf)
      obtain ⟨i1, extra, i2, i3⟩ := ih (archiveStep env thr memoDir f.name w)
      constructor
      · refine OnlyBy.trans P _ _ _ _ (OnlyBy.of_frame P _ f.name _ _ ⟨f, by simp, hf, rfl⟩
          (hsel f hf) s4) (OnlyBy.mono P _ _ _ _ ?_ i1)
        rintro n ⟨g, hg, h1, h2⟩
        exact ⟨g, by simp [hg], h1, h2⟩
      · refine ⟨(entryView env thr memoDir f.name P w).2.2 ++ extra, ?_, ?_⟩
        · rw [i2, s1]; simp
        · intro c hc
          simp only [List.mem_append] at hc
          rcases hc with hc | hc
          · exact ⟨f, by simp, hf, stepView_calls _ _ _ _ _ _ _ _ _ _ c hc⟩
          · obtain ⟨g, hg, h1, h2⟩ := i3 c hc
            exact ⟨g, by simp [hg], h1, h2⟩
    · simp only [hf, Bool.false_eq_true, if_false]
      obtain ⟨i1, extra, i2, i3⟩ := ih w
      constructor
      · refine OnlyBy.mono P _ _ _ _ ?_ i1
        rintro n ⟨g, hg, h1, h2⟩
        exact ⟨g, by simp [hg], h1, h2⟩
      · refine ⟨extra, i2, ?_⟩
        intro c hc
        obtain ⟨g, hg, h1, h2⟩ := i3 c hc
        exact ⟨g, by simp [hg], h1, h2⟩

theorem oldR_inj (P : RPath) (m n : Str) (h : oldR P m = oldR P n) : m = n := by
  simp only [oldR, RPath.mk.injEq, true_and] at h
  have := List.append_cancel_left h
  simpa using this

theorem destR_inj (P : RPath) (m n : Str) (h : destR P m = destR P n) : m = n := by
  simp only [destR, RPath.mk.injEq, true_and] at h
  have := List.append_cancel_left h
  simp only [List.cons.injEq, and_true] at this
  exact this.2.2

theorem mkdirWalk_isNone (rooted : Bool) (fs : FS) (cs : List Str) :
    (mkdirWalk rooted fs [] cs).isNone = true ↔ Blocked rooted fs [] cs := by
  obtain ⟨h1, h2⟩ := mkdirWalk_spec rooted cs fs []
  constructor
  · intro h
    by_contra hB
    obtain ⟨fs', e, _⟩ := h2 hB
    rw [e] at h
    cases h
  · intro hB
    rw [h1 hB]
    rfl

theorem onlyBy_blocked (P : RPath) (S : Str → Prop) (fs fs' : FS) (m : Str)
    (h : OnlyBy P S fs fs') :
    Blocked P.rooted fs [] (dirR P m).comps ↔ Blocked P.rooted fs' [] (dirR P m).comps := by
  constructor
  · rintro ⟨q, size, hq, hg⟩
    refine ⟨q, size, hq, ?_⟩
    rcases h q with g | ⟨n, _, hn, g | g⟩ | ⟨g1, _, _⟩
    · rw [g, hg]
    · subst g; exact absurd hq (oldR_not_step P n m hn)
    · subst g; exact absurd hq (destR_not_step P n m)
    · rw [hg] at g1; cases g1
  · rintro ⟨q, size, hq, hg⟩
    refine ⟨q, size, hq, ?_⟩
    rcases h q with g | ⟨n, _, hn, g | g⟩ | ⟨_, g2, _⟩
    · rw [← g, hg]
    · subst g; exact absurd hq (oldR_not_step P n m hn)
    · subst g; exact absurd hq (destR_not_step P n m)
    · rw [hg] at g2; cases g2

/-- Steps for other entries leave the two places of a timestamp name, and what blocks its
directories, as they are. -/
theorem onlyBy_view (P : RPath) (S : Str → Prop) (fs fs' : FS) (m : Str)
    (hm : TimestampName m) (hS : ¬ S m) (h : OnlyBy P S fs fs') :
    fs'.get (oldR P m) = fs.get (oldR P m) ∧ fs'.get (destR P m) = fs.get (destR P m) ∧
      (mkdirWalk P.rooted fs' [] (dirR P m).comps).isNone =
        (mkdirWalk P.rooted fs [] (dirR P m).comps).isNone := by
  refine ⟨?_, ?_, ?_⟩
  · rcases h (oldR P m) with g | ⟨n, hn, _, g | g⟩ | ⟨_, _, n, _, _, g⟩
    · exact g
    · rw [oldR_inj P m n g] at hS; exact absurd hn hS
    · exact absurd g (oldR_ne_destR P m n)
    · exact absurd g (oldR_not_step P m n hm)
  · rcases h (destR P m) with g | ⟨n, hn, _, g | g⟩ | ⟨_, _, n, _, _, g⟩
    · exact g
    · exact absurd g.symm (oldR_ne_destR P n m)
    · rw [destR_inj P m n g] at hS; exact absurd hn hS
    · exact absurd g (destR_not_step P m n)
  · have := onlyBy_blocked P S fs fs' m h
    rw [Bool.eq_iff_iff, mkdirWalk_isNone, mkdirWalk_isNone]
    exact this.symm

/-- Steps leave an existing entry whose name is no timestamp name as it is. -/
theorem onlyBy_plain (P : RPath) (S : Str → Prop) (fs fs' : FS) (m : Str) (x : Node)
    (hm : ¬ TimestampName m) (hx : fs.get (oldR P m) = some x) (h : OnlyBy P S fs fs') :
    fs'.get (oldR P m) = some x := by
  rcases h (oldR P m) with g | ⟨n, _, hn, g | g⟩ | ⟨g1, _, _⟩
  · rw [g, hx]
  · rw [oldR_inj P m n g] at hm; exact absurd hn hm
  · exact absurd g (oldR_ne_destR P m n)
  · rw [hx] at g1; cases g1

theorem entryView_congr (env : Env) (thr : Time) (memoDir m : Str) (P : RPath) (w w' : World)
    (h1 : w'.fs.get (oldR P m) = w.fs.get (oldR P m))
    (h2 : w'.fs.get (destR P m) = w.fs.get (destR P m))
    (h3 : (mkdirWalk P.rooted w'.fs [] (dirR P m).comps).isNone =
      (mkdirWalk P.rooted w.fs [] (dirR P m).comps).isNone) :
    entryView env thr memoDir m P w' = entryView env thr memoDir m P w := by
  unfold entryView
  rw [h1, h2, h3]

/-- The loop over entries none of which is the selected entry `m`: the two places of `m`
and what blocks its directories stay as they are, and every call is for another entry. -/
theorem loopW_absent (sel : DirEntry → Bool) (env : Env) (thr : Time) (memoDir : Str)
    (P : RPath) (hres : resolve memoDir = some P)
    (hsel : ∀ f, sel f = true → TimestampName f.name) (files : List DirEntry) (m : Str)
    (hm : TimestampName m) (habs : ∀ g ∈ files, sel g = true → g.name ≠ m) (w : World) :
    (loopW sel env thr memoDir files w).fs.get (oldR P m) = w.fs.get (oldR P m) ∧
    (loopW sel env thr memoDir files w).fs.get (destR P m) = w.fs.get (destR P m) ∧
    (mkdirWalk P.rooted (loopW sel env thr memoDir files w).fs [] (dirR P m).comps).isNone =
      (mkdirWalk P.rooted w.fs [] (dirR P m).comps).isNone ∧
    ∃ extra, (loopW sel env thr memoDir files w).calls = w.calls ++ extra ∧
      ∀ c ∈ extra, ∃ g ∈ files, g.name ≠ m ∧ sel g = true ∧ IsCallOf memoDir g.name c := by
  obtain ⟨h1, extra, h2, h3⟩ := loopW_onlyBy sel env thr memoDir P hres hsel files w
  have hS : ¬ (∃ f ∈ files, sel f = true ∧ f.name = m) := by
    rintro ⟨f, hf, hs, hn⟩
    exact habs f hf hs hn
  obtain ⟨v1, v2, v3⟩ := onlyBy_view P _ _ _ m hm hS h1
  refine ⟨v1, v2, v3, extra, h2, ?_⟩
  intro c hc
  obtain ⟨g, hg, hs, hcall⟩ := h3 c hc
  exact ⟨g, hg, habs g hg hs, hs, hcall⟩

/-- The calls the loop adds begin with the `Stat` of the first entry it selects. -/
theorem loopW_head (sel : DirEntry → Bool) (env : Env) (thr : Time) (memoDir : Str)
    (P : RPath) (hres : resolve memoDir = some P)
    (hsel : ∀ f, sel f = true → TimestampName f.name) (files : List DirEntry) :
    ∀ (w : World) (extra : List Call),
      (loopW sel env thr memoDir files w).calls = w.calls ++ extra →
      ∀ c ∈ extra.head?, c.opens = true := by
  induction files with
  | nil =>
    intro w extra h c hc
    simp only [loopW] at h
    have : extra = [] := by
      have h2 : w.calls ++ [] = w.calls ++ extra := by simpa using h
      exact (List.append_cancel_left h2).symm
    subst this
    simp at hc
  | cons f files ih =>
    intro w extra h c hc
    simp only [loopW] at h
    by_cases hs : sel f = true
    · simp only [hs, if_true] at h
      obtain ⟨s1, _⟩ := archiveStep_sem env thr memoDir f.name P w hres (hsel f hs)
      obtain ⟨_, more, h2, _⟩ := loopW_onlyBy sel env thr memoDir P hres hsel files
        (archiveStep env thr memoDir f.name w)
      have hv : ∃ b rest, (entryView env thr memoDir f.name P w).2.2 =
          Call.stat (oldPathOf memoDir f.name) b :: rest := ⟨_, _, rfl⟩
      obtain ⟨b, rest, hv⟩ := hv
      rw [h2, s1, hv, List.append_assoc] at h
      have := List.append_cancel_left h
      rw [← this] at hc
      simp only [List.cons_append, List.head?_cons, Option.mem_def, Option.some.injEq] at hc
      rw [← hc]
      rfl
    · simp only [hs] at h
      exact ih w extra h c hc

/-- The loop over a listing without repeated names, seen from a selected entry: its two
places end as its own step leaves them from the initial world, its calls are those of
that step, and every other call is for another entry. -/
theorem loopW_entry (sel : DirEntry → Bool) (env : Env) (thr : Time) (memoDir : Str)
    (P : RPath) (hres : resolve memoDir = some P)
    (hsel : ∀ f, sel f = true → TimestampName f.name) (files : List DirEntry)
    (hnd : (files.map DirEntry.name).Nodup) (f : DirEntry) (hf : f ∈ files)
    (hs : sel f = true) (w : World) :
    ∃ pre post, (loopW sel env thr memoDir files w).calls =
        w.calls ++ pre ++ (entryView env thr memoDir f.name P w).2.2 ++ post ∧
      (∀ c ∈ pre ++ post, ∃ g ∈ files, g.name ≠ f.name ∧ sel g = true ∧
        IsCallOf memoDir g.name c) ∧
      (loopW sel env thr memoDir files w).fs.get (oldR P f.name) =
        (entryView env thr memoDir f.name P w).1 ∧
      (loopW sel env thr memoDir files w).fs.get (destR P f.name) =
        (entryView env thr memoDir f.name P w).2.1 ∧
      ∀ c ∈ post.head?, c.opens = true := by
  obtain ⟨l1, l2, rfl⟩ := List.append_of_mem hf
  have hm := hsel f hs
  simp only [List.map_append, List.map_cons] at hnd
  have hnd' := List.nodup_append.1 hnd
  have hl1 : ∀ g ∈ l1, sel g = true → g.name ≠ f.name := by
    intro g hg _ e
    have : f.name ∈ l1.map DirEntry.name := by rw [← e]; exact List.mem_map_of_mem _ hg
    exact hnd'.2.2 this (by simp)
  have hl2 : ∀ g ∈ l2, sel g = true → g.name ≠ f.name := by
    intro g hg _ e
    have h1 := (List.nodup_cons.1 hnd'.2.1).1
    apply h1
    rw [← e]; exact List.mem_map_of_mem _ hg
  obtain ⟨a1, a2, a3, pre, a4, a5⟩ :=
    loopW_absent sel env thr memoDir P hres hsel l1 f.name hm hl1 w
  have hview := entryView_congr env thr memoDir f.name P w _ a1 a2 a3
  obtain ⟨s1, s2, s3, _⟩ := archiveStep_sem env thr memoDir f.name P
    (loopW sel env thr memoDir l1 w) hres hm
  obtain ⟨b1, b2, _, post, b4, b5⟩ :=
    loopW_absent sel env thr memoDir P hres hsel l2 f.name hm hl2
      (archiveStep env thr memoDir f.name (loopW sel env thr memoDir l1 w))
  rw [loopW_append]
  simp only [loopW, hs, if_true]
  refine ⟨pre, post, ?_, ?_, ?_, ?_, ?_⟩
  · rw [b4, s1, a4, hview]
  · intro c hc
    simp only [List.mem_append] at hc
    rcases hc with hc | hc
    · obtain ⟨g, hg, h1, h2, h3⟩ := a5 c hc
      exact ⟨g, by simp [hg], h1, h2, h3⟩
    · obtain ⟨g, hg, h1, h2, h3⟩ := b5 c hc
      exact ⟨g, by simp [hg], h1, h2, h3⟩
  · rw [b1, s2, hview]
  · rw [b2, s3, hview]
  · exact loopW_head sel env thr memoDir P hres hsel l2 _ post b4

/-! ## The directory listing -/

theorem strLt_irrefl : ∀ a : Str, strLt a a = false := by
  intro a
  induction a with
  | nil => rfl
  | cons c cs ih => simp [strLt, ih]

theorem strLt_trans : ∀ a b c : Str, strLt a b = true → strLt b c = true → strLt a c = true := by
  intro a
  induction a with
  | nil =>
    intro b c h1 h2
    cases b with
    | nil => simp [strLt] at h1
    | cons y ys =>
      cases c with
      | nil => simp [strLt] at h2
      | cons z zs => rfl
  | cons x xs ih =>
    intro b c h1 h2
    cases b with
    | nil => simp [strLt] at h1
    | cons y ys =>
      cases c with
      | nil => simp [strLt] at h2
      | cons z zs =>
        simp only [strLt, Bool.or_eq_true, decide_eq_true_eq, Bool.and_eq_true] at h1 h2 ⊢
        rcases h1 with h1 | ⟨h1, h1'⟩
        · rcases h2 with h2 | ⟨h2, _⟩
          · exact Or.inl (lt_trans h1 h2)
          · exact Or.inl (h2 ▸ h1)
        · rcases h2 with h2 | ⟨h2, h2'⟩
          · exact Or.inl (h1 ▸ h2)
          · exact Or.inr ⟨h1.trans h2, ih ys zs h1' h2'⟩

theorem strLt_total : ∀ a b : Str, a ≠ b → strLt a b = false → strLt b a = true := by
  intro a
  induction a with
  | nil =>
    intro b h1 h2
    cases b with
    | nil => exact absurd rfl h1
    | cons y ys => simp [strLt] at h2
  | cons x xs ih =>
    intro b h1 h2
    cases b with
    | nil => rfl
    | cons y ys =>
      simp only [strLt, Bool.or_eq_false_iff, decide_eq_false_iff_not, Bool.and_eq_false_imp,
        decide_eq_true_eq] at h2
      simp only [strLt, Bool.or_eq_true, decide_eq_true_eq, Bool.and_eq_true]
      obtain ⟨h2, h3⟩ := h2
      by_cases hxy : x = y
      · subst hxy
        right
        refine ⟨rfl, ih ys ?_ (h3 rfl)⟩
        intro e; exact h1 (by rw [e])
      · left
        rcases lt_trichotomy x y with h | h | h
        · exact absurd h h2
        · exact absurd h hxy
        · exact h

theorem insertEntry_mem (e : DirEntry) (l : List DirEntry) :
    ∀ f ∈ insertEntry e l, f = e ∨ f ∈ l := by
  induction l with
  | nil => intro f hf; simp only [insertEntry, List.mem_singleton] at hf; exact Or.inl hf
  | cons x xs ih =>
    intro f hf
    unfold insertEntry at hf
    split at hf
    · exact Or.inr hf
    · split at hf
      · simp only [List.mem_cons] at hf
        rcases hf with hf | hf | hf
        · exact Or.inl hf
        · exact Or.inr (by simp [hf])
        · exact Or.inr (by simp [hf])
      · simp only [List.mem_cons] at hf
        rcases hf with hf | hf
        · exact Or.inr (by simp [hf])
        · rcases ih f hf with h | h
          · exact Or.inl h
          · exact Or.inr (by simp [h])

theorem insertEntry_names (e : DirEntry) (l : List DirEntry) :
    e.name ∈ (insertEntry e l).map DirEntry.name ∧
      ∀ f ∈ l, f ∈ insertEntry e l := by
  induction l with
  | nil => simp [insertEntry]
  | cons x xs ih =>
    unfold insertEntry
    split
    · rename_i h
      exact ⟨by simp [h], fun f hf => hf⟩
    · split
      · exact ⟨by simp, fun f hf => by simp only [List.mem_cons] at hf ⊢; exact Or.inr hf⟩
      · refine ⟨by simp only [List.map_cons, List.mem_cons]; exact Or.inr ih.1, ?_⟩
        intro f hf
        simp only [List.mem_cons] at hf ⊢
        rcases hf with hf | hf
        · exact Or.inl hf
        · exact Or.inr (ih.2 f hf)

theorem insertEntry_sorted (e : DirEntry) (l : List DirEntry) (h : SortedNames l) :
    SortedNames (insertEntry e l) := by
  induction l with
  | nil => simp [insertEntry, SortedNames]
  | cons x xs ih =>
    unfold SortedNames at h ih ⊢
    rw [List.pairwise_cons] at h
    unfold insertEntry
    split
    · exact List.pairwise_cons.2 h
    · rename_i hne
      split
      · rename_i hlt
        refine List.pairwise_cons.2 ⟨?_, List.pairwise_cons.2 h⟩
        intro y hy
        simp only [List.mem_cons] at hy
        rcases hy with hy | hy
        · rw [hy]; exact hlt
        · exact strLt_trans _ _ _ hlt (h.1 y hy)
      · rename_i hnlt
        have hxe : strLt x.name e.name = true :=
          strLt_total e.name x.name hne (by simpa using hnlt)
        refine List.pairwise_cons.2 ⟨?_, ih h.2⟩
        intro y hy
        rcases insertEntry_mem e xs y hy with hy | hy
        · rw [hy]; exact hxe
        · exact h.1 y hy

theorem sortedNames_nodup (l : List DirEntry) (h : SortedNames l) :
    (l.map DirEntry.name).Nodup := by
  unfold SortedNames at h
  rw [List.Nodup, List.pairwise_map]
  refine List.Pairwise.imp ?_ h
  intro a b hab e
  rw [e, strLt_irrefl] at hab
  cases hab

theorem listDir_sorted (fs : FS) (d : RPath) (l : FS) : SortedNames (listDir fs d l) := by
  induction l with
  | nil => simp [listDir, SortedNames]
  | cons b rest ih =>
    obtain ⟨q, n⟩ := b
    unfold listDir
    split
    · exact insertEntry_sorted _ _ ih
    · exact ih

theorem child_eq (d q : RPath) (h : q.rooted = d.rooted ∧ q.comps ≠ [] ∧ q.comps.dropLast = d.comps) :
    q = oldR d (q.comps.getLastD []) := by
  obtain ⟨h1, h2, h3⟩ := h
  cases q with
  | mk r cs =>
    simp only at h1 h2 h3
    simp only [oldR, RPath.mk.injEq]
    refine ⟨h1, ?_⟩
    rw [← h3]
    have := List.dropLast_append_getLast h2
    rw [List.getLastD_eq_getLast?, List.getLast?_eq_getLast _ h2]
    exact this.symm

/-- Every entry of the listing stands for a node of the file system directly below the
directory, and carries its kind. -/
theorem listDir_mem (fs : FS) (d : RPath) (l : FS) :
    ∀ f ∈ listDir fs d l, (∃ n, (oldR d f.name, n) ∈ l) ∧
      f.isDir = decide (fs.get (oldR d f.name) = some Node.dir) := by
  induction l with
  | nil => intro f hf; simp [listDir] at hf
  | cons b rest ih =>
    obtain ⟨q, n⟩ := b
    intro f hf
    unfold listDir at hf
    split at hf
    · rename_i hc
      rcases insertEntry_mem _ _ f hf with h | h
      · have hq := child_eq d q hc
        subst h
        simp only
        rw [← hq]
        exact ⟨⟨n, by simp⟩, rfl⟩
      · obtain ⟨⟨n', hn'⟩, h2⟩ := ih f h
        exact ⟨⟨n', by simp [hn']⟩, h2⟩
    · obtain ⟨⟨n', hn'⟩, h2⟩ := ih f hf
      exact ⟨⟨n', by simp [hn']⟩, h2⟩

theorem listDir_names (fs : FS) (d : RPath) (l : FS) (name : Str) :
    (∃ n, (oldR d name, n) ∈ l) → name ∈ (listDir fs d l).map DirEntry.name := by
  induction l with
  | nil => rintro ⟨n, hn⟩; simp at hn
  | cons b rest ih =>
    obtain ⟨q, k⟩ := b
    rintro ⟨n, hn⟩
    simp only [List.mem_cons, Prod.mk.injEq] at hn
    unfold listDir
    rcases hn with ⟨h1, _⟩ | hn
    · subst h1
      have hc : (oldR d name).rooted = d.rooted ∧ (oldR d name).comps ≠ [] ∧
          (oldR d name).comps.dropLast = d.comps := by
        simp [oldR]
      rw [if_pos hc]
      have : (oldR d name).comps.getLastD [] = name := by simp [oldR]
      rw [this]
      exact (insertEntry_names _ _).1
    · have := ih ⟨n, hn⟩
      split
      · simp only [List.mem_map] at this ⊢
        obtain ⟨f, hf, hname⟩ := this
        exact ⟨f, (insertEntry_names _ _).2 f hf, hname⟩
      · exact this

theorem FS.get_some_mem (fs : FS) (q : RPath) (n : Node) (hq : q.comps ≠ [])
    (h : fs.get q = some n) : (q, n) ∈ fs := by
  induction fs with
  | nil => simp [FS.get, hq] at h
  | cons b rest ih =>
    obtain ⟨k, m⟩ := b
    rw [FS.get_cons _ _ _ _ hq] at h
    split at h
    · rename_i e
      simp only [Option.some.injEq] at h
      subst e h
      simp
    · simp [ih h]

theorem FS.get_of_mem (fs : FS) (q : RPath) (n : Node) (h : (q, n) ∈ fs) :
    ∃ n', fs.get q = some n' := by
  by_cases hq : q.comps = []
  · exact ⟨_, FS.get_root fs q hq⟩
  · induction fs with
    | nil => simp at h
    | cons b rest ih =>
      obtain ⟨k, m⟩ := b
      rw [FS.get_cons _ _ _ _ hq]
      by_cases hk : k = q
      · exact ⟨m, by simp [hk]⟩
      · simp only [List.mem_cons, Prod.mk.injEq] at h
        rcases h with ⟨h1, _⟩ | h
        · exact absurd h1.symm hk
        · simp only [hk, if_false]
          exact ih h

/-- A node directly below the directory is listed, with its kind. -/
theorem listDir_of_get (fs : FS) (d : RPath) (name : Str) (n : Node)
    (h : fs.get (oldR d name) = some n) :
    (⟨name, decide (n = Node.dir)⟩ : DirEntry) ∈ listDir fs d fs := by
  have h1 := FS.get_some_mem fs _ n (oldR_comps_ne d name) h
  have h2 := listDir_names fs d fs name ⟨n, h1⟩
  simp only [List.mem_map] at h2
  obtain ⟨f, hf, hname⟩ := h2
  obtain ⟨_, h3⟩ := listDir_mem fs d fs f hf
  have : f = ⟨name, decide (n = Node.dir)⟩ := by
    cases f with
    | mk fname fdir =>
      simp only at hname h3
      subst hname
      rw [h] at h3
      simp only [Option.some.injEq] at h3
      simp [h3]
  rw [← this]
  exact hf

theorem listDir_nodup (fs : FS) (d : RPath) (l : FS) :
    ((listDir fs d l).map DirEntry.name).Nodup :=
  sortedNames_nodup _ (listDir_sorted fs d l)

/-! ## The function archiveOldFiles -/

theorem cm_archiveOldFiles_eq (env : Env) (now : LocalTime) (memoDir ext : Str) (w : World) :
    Cm.archiveOldFiles env now memoDir ext w =
      (if (osReadDir env w memoDir).1.isSome then Outcome.returned none else Outcome.fatal,
        runW cmSel env now memoDir w) := by
  unfold Cm.archiveOldFiles runW
  cases h : osReadDir env w memoDir with
  | mk r w1 =>
    cases r with
    | none => rfl
    | some files => simp [cm_archiveLoop_eq]

theorem root_archiveOldFiles_eq (env : Env) (now : LocalTime) (memoDir ext : Str) (w : World) :
    Root.archiveOldFiles env now memoDir ext w =
      (if (osReadDir env w memoDir).1.isSome then Outcome.returned none else Outcome.fatal,
        runW (rootSel ext) env now memoDir w) := by
  unfold Root.archiveOldFiles runW
  cases h : osReadDir env w memoDir with
  | mk r w1 =>
    cases r with
    | none => rfl
    | some files => simp [root_archiveLoop_eq]

theorem readable_resolve (env : Env) (w : World) (memoDir : Str) (h : Readable env w memoDir) :
    ∃ P, resolve memoDir = some P ∧ w.fs.get P = some Node.dir := by
  obtain ⟨_, h2⟩ := h
  unfold World.nodeAt at h2
  cases e : resolve memoDir with
  | none => rw [e] at h2; cases h2
  | some P => rw [e] at h2; exact ⟨P, rfl, h2⟩

theorem runW_readable (sel : DirEntry → Bool) (env : Env) (now : LocalTime) (memoDir : Str)
    (w : World) (P : RPath) (hres : resolve memoDir = some P) (h : Readable env w memoDir) :
    (osReadDir env w memoDir).1.isSome = true ∧
    runW sel env now memoDir w = loopW sel env (now.AddDate 0 (-1) 0) memoDir
      (listDir w.fs P w.fs) ⟨w.fs, w.calls ++ [Call.readDir memoDir true]⟩ := by
  obtain ⟨h1, h2⟩ := h
  unfold World.nodeAt at h2
  rw [hres] at h2
  simp only at h2
  simp only [runW, osReadDir, h1, hres, h2, Bool.false_eq_true, if_false, if_true,
    Option.isSome_some, and_self]

theorem nodeAt_old (w : World) (memoDir name : Str) (P : RPath)
    (hres : resolve memoDir = some P) (hn : NiceElem name) :
    w.nodeAt (oldPathOf memoDir name) = w.fs.get (oldR P name) := by
  simp [World.nodeAt, resolve_oldPathOf memoDir name P hres hn]

theorem nodeAt_dest (w : World) (memoDir name : Str) (P : RPath)
    (hres : resolve memoDir = some P) (hn : TimestampName name) :
    w.nodeAt (destPathOf memoDir name) = w.fs.get (destR P name) := by
  simp [World.nodeAt, resolve_destPathOf memoDir name P hres hn]

theorem newCalls_append (w w' : World) (extra : List Call) (h : w'.calls = w.calls ++ extra) :
    newCalls w w' = extra := by
  simp [newCalls, h]

theorem resolve_inj_ne (a b : Str) (p q : RPath) (ha : resolve a = some p)
    (hb : resolve b = some q) (h : p ≠ q) : a ≠ b := by
  intro e
  rw [e, hb] at ha
  exact h (Option.some.inj ha).symm

theorem oldR_ne_dirR (P : RPath) (m n : Str) (hm : TimestampName m) : oldR P m ≠ dirR P n := by
  intro h
  exact oldR_not_step P m n hm (h ▸ dirR_is_step P n)

theorem dirR_ne_destR (P : RPath) (m n : Str) : dirR P n ≠ destR P m := by
  intro h
  have := congrArg (fun p => p.comps.length) h
  simp [dirR, destR] at this

theorem P_ne_oldR (P : RPath) (m : Str) : P ≠ oldR P m := by
  intro h
  have := congrArg (fun p => p.comps.length) h
  simp [oldR] at this

theorem P_ne_destR (P : RPath) (m : Str) : P ≠ destR P m := by
  intro h
  have := congrArg (fun p => p.comps.length) h
  simp [destR] at this

theorem oldR_ne_dirR_plain (P : RPath) (m n : Str) : oldR P m ≠ dirR P n := by
  intro h
  have := congrArg (fun p => p.comps.length) h
  simp [oldR, dirR] at this

/-- The calls for one entry name neither the path nor the destination of another. -/
theorem callOf_paths (memoDir g name : Str) (P : RPath) (c : Call)
    (hres : resolve memoDir = some P) (hg : TimestampName g) (hn : TimestampName name)
    (hne : g ≠ name) (hc : IsCallOf memoDir g c) :
    oldPathOf memoDir name ∉ c.paths ∧ destPathOf memoDir name ∉ c.paths := by
  have o1 := resolve_oldPathOf memoDir g P hres (timestampName_nice g hg).1
  have o2 := resolve_destDirOf memoDir g P hres hg
  have o3 := resolve_destPathOf memoDir g P hres hg
  have n1 := resolve_oldPathOf memoDir name P hres (timestampName_nice name hn).1
  have n3 := resolve_destPathOf memoDir name P hres hn
  have e1 : oldPathOf memoDir name ≠ oldPathOf memoDir g :=
    resolve_inj_ne _ _ _ _ n1 o1 (fun h => hne (oldR_inj P name g h).symm)
  have e2 : oldPathOf memoDir name ≠ destDirOf memoDir g :=
    resolve_inj_ne _ _ _ _ n1 o2 (oldR_ne_dirR_plain P name g)
  have e3 : oldPathOf memoDir name ≠ destPathOf memoDir g :=
    resolve_inj_ne _ _ _ _ n1 o3 (oldR_ne_destR P name g)
  have e4 : destPathOf memoDir name ≠ oldPathOf memoDir g :=
    resolve_inj_ne _ _ _ _ n3 o1 (fun h => oldR_ne_destR P g name h.symm)
  have e5 : destPathOf memoDir name ≠ destDirOf memoDir g :=
    resolve_inj_ne _ _ _ _ n3 o2 (fun h => dirR_ne_destR P name g h.symm)
  have e6 : destPathOf memoDir name ≠ destPathOf memoDir g :=
    resolve_inj_ne _ _ _ _ n3 o3 (fun h => hne (destR_inj P name g h).symm)
  obtain ⟨b, h | h | h | h⟩ := hc <;> subst h <;>
    simp [Call.paths, e1, e2, e3, e4, e5, e6]

/-- The calls for a timestamp entry do not name the path of an entry with another kind of
name. -/
theorem callOf_paths_plain (memoDir g name : Str) (P : RPath) (c : Call)
    (hres : resolve memoDir = some P) (hg : TimestampName g) (hn : NiceElem name)
    (hne : ¬ TimestampName name) (hc : IsCallOf memoDir g c) :
    oldPathOf memoDir name ∉ c.paths := by
  have o1 := resolve_oldPathOf memoDir g P hres (timestampName_nice g hg).1
  have o2 := resolve_destDirOf memoDir g P hres hg
  have o3 := resolve_destPathOf memoDir g P hres hg
  have n1 := resolve_oldPathOf memoDir name P hres hn
  have e1 : oldPathOf memoDir name ≠ oldPathOf memoDir g :=
    resolve_inj_ne _ _ _ _ n1 o1 (fun h => hne (by rw [oldR_inj P name g h]; exact hg))
  have e2 : oldPathOf memoDir name ≠ destDirOf memoDir g :=
    resolve_inj_ne _ _ _ _ n1 o2 (oldR_ne_dirR_plain P name g)
  have e3 : oldPathOf memoDir name ≠ destPathOf memoDir g :=
    resolve_inj_ne _ _ _ _ n1 o3 (oldR_ne_destR P name g)
  obtain ⟨b, h | h | h | h⟩ := hc <;> subst h <;> simp [Call.paths, e1, e2, e3]

theorem entryView_fs (env : Env) (thr : Time) (memoDir name : Str) (P : RPath) (fs : FS)
    (cs cs' : List Call) :
    entryView env thr memoDir name P ⟨fs, cs⟩ = entryView env thr memoDir name P ⟨fs, cs'⟩ := rfl

/-- The run seen from a regular file with a timestamp name that the loop selects: its
calls are those of its own step from the initial file system, no other call names its
path or its destination, and its two places end as that step leaves them. -/
theorem run_entry (sel : DirEntry → Bool) (env : Env) (now : LocalTime) (memoDir : Str)
    (w : World) (name : Str) (size : Nat) (P : RPath) (hres : resolve memoDir = some P)
    (hsel : ∀ f, sel f = true → TimestampName f.name) (hrd : Readable env w memoDir)
    (hn : TimestampName name) (hfile : w.fs.get (oldR P name) = some (Node.file size))
    (hs : sel ⟨name, false⟩ = true) :
    Segment memoDir name w (runW sel env now memoDir w)
        (entryView env (now.AddDate 0 (-1) 0) memoDir name P w).2.2 ∧
      (runW sel env now memoDir w).nodeAt (oldPathOf memoDir name) =
        (entryView env (now.AddDate 0 (-1) 0) memoDir name P w).1 ∧
      (runW sel env now memoDir w).nodeAt (destPathOf memoDir name) =
        (entryView env (now.AddDate 0 (-1) 0) memoDir name P w).2.1 := by
  obtain ⟨_, hrun⟩ := runW_readable sel env now memoDir w P hres hrd
  have hmem : (⟨name, false⟩ : DirEntry) ∈ listDir w.fs P w.fs := by
    have := listDir_of_get w.fs P name _ hfile
    simpa using this
  obtain ⟨pre, post, h1, h2, h3, h4, h5⟩ := loopW_entry sel env (now.AddDate 0 (-1) 0) memoDir P hres
    hsel _ (listDir_nodup w.fs P w.fs) ⟨name, false⟩ hmem hs
    ⟨w.fs, w.calls ++ [Call.readDir memoDir true]⟩
  have n1 := resolve_oldPathOf memoDir name P hres (timestampName_nice name hn).1
  have n3 := resolve_destPathOf memoDir name P hres hn
  rw [hrun, nodeAt_old _ _ _ _ hres (timestampName_nice name hn).1, nodeAt_dest _ _ _ _ hres hn]
  refine ⟨⟨Call.readDir memoDir true :: pre, post, ?_, ?_, h5⟩, h3, h4⟩
  · rw [h1]
    simp only [List.append_assoc, List.singleton_append, List.cons_append]
    rfl
  · intro c hc
    simp only [List.cons_append, List.mem_cons] at hc
    rcases hc with hc | hc
    · subst hc
      simp only [Call.paths, List.mem_singleton]
      exact ⟨resolve_inj_ne _ _ _ _ n1 hres (fun h => P_ne_oldR P name h.symm),
        resolve_inj_ne _ _ _ _ n3 hres (fun h => P_ne_destR P name h.symm)⟩
    · obtain ⟨g, _, hg1, hg2, hg3⟩ := h2 c hc
      exact callOf_paths memoDir g.name name P c hres (hsel g hg2) hn hg1 hg3

/-- The run seen from a timestamp name the loop does not select: every call is the
listing or a call for another entry, and its two places stay as they are. -/
theorem run_absent (sel : DirEntry → Bool) (env : Env) (now : LocalTime) (memoDir : Str)
    (w : World) (name : Str) (P : RPath) (hres : resolve memoDir = some P)
    (hsel : ∀ f, sel f = true → TimestampName f.name) (hrd : Readable env w memoDir)
    (hn : TimestampName name)
    (habs : ∀ g ∈ listDir w.fs P w.fs, sel g = true → g.name ≠ name) :
    Segment memoDir name w (runW sel env now memoDir w) [] ∧
      (runW sel env now memoDir w).nodeAt (oldPathOf memoDir name) =
        w.nodeAt (oldPathOf memoDir name) ∧
      (runW sel env now memoDir w).nodeAt (destPathOf memoDir name) =
        w.nodeAt (destPathOf memoDir name) := by
  obtain ⟨_, hrun⟩ := runW_readable sel env now memoDir w P hres hrd
  obtain ⟨h1, h2, _, extra, h4, h5⟩ := loopW_absent sel env (now.AddDate 0 (-1) 0) memoDir P hres
    hsel (listDir w.fs P w.fs) name hn habs
    ⟨w.fs, w.calls ++ [Call.readDir memoDir true]⟩
  have n1 := resolve_oldPathOf memoDir name P hres (timestampName_nice name hn).1
  have n3 := resolve_destPathOf memoDir name P hres hn
  rw [hrun]
  simp only [nodeAt_old _ _ _ _ hres (timestampName_nice name hn).1, nodeAt_dest _ _ _ _ hres hn]
  refine ⟨⟨Call.readDir memoDir true :: extra, [], ?_, ?_, by simp⟩, h1, h2⟩
  · rw [h4]; simp
  · intro c hc
    simp only [List.append_nil, List.mem_cons] at hc
    rcases hc with hc | hc
    · subst hc
      simp only [Call.paths, List.mem_singleton]
      exact ⟨resolve_inj_ne _ _ _ _ n1 hres (fun h => P_ne_oldR P name h.symm),
        resolve_inj_ne _ _ _ _ n3 hres (fun h => P_ne_destR P name h.symm)⟩
    · obtain ⟨g, _, hg1, hg2, hg3⟩ := h5 c hc
      exact callOf_paths memoDir g.name name P c hres (hsel g hg2) hn hg1 hg3

theorem Segment.newCalls (memoDir name : Str) (w w' : World) (seg : List Call)
    (h : Segment memoDir name w w' seg) :
    ∃ pre post, newCalls w w' = pre ++ seg ++ post ∧
      ∀ c ∈ pre ++ post, oldPathOf memoDir name ∉ c.paths ∧ destPathOf memoDir name ∉ c.paths := by
  obtain ⟨pre, post, h1, h2, _⟩ := h
  exact ⟨pre, post, newCalls_append w w' _ h1, h2⟩

/-- The run seen from a timestamp name that the directory does not hold. -/
theorem run_missing (sel : DirEntry → Bool) (env : Env) (now : LocalTime) (memoDir : Str)
    (w : World) (name : Str) (P : RPath) (hres : resolve memoDir = some P)
    (hsel : ∀ f, sel f = true → TimestampName f.name) (hrd : Readable env w memoDir)
    (hn : TimestampName name) (hnone : w.fs.get (oldR P name) = none) :
    Segment memoDir name w (runW sel env now memoDir w) [] ∧
      (runW sel env now memoDir w).nodeAt (oldPathOf memoDir name) =
        w.nodeAt (oldPathOf memoDir name) ∧
      (runW sel env now memoDir w).nodeAt (destPathOf memoDir name) =
        w.nodeAt (destPathOf memoDir name) := by
  refine run_absent sel env now memoDir w name P hres hsel hrd hn ?_
  intro g hg _ e
  obtain ⟨⟨n, hmem⟩, _⟩ := listDir_mem w.fs P w.fs g hg
  rw [e] at hmem
  obtain ⟨n', hn'⟩ := FS.get_of_mem w.fs _ n hmem
  rw [hnone] at hn'
  cases hn'

theorem Clean_ne_nil (path : Str) : Clean path ≠ [] := by
  by_cases h : path = []
  · simp [Clean, h]
  · intro e
    have := resolve_Clean path h
    rw [e] at this
    simp [resolve, h] at this

/-- The run seen from an entry whose name is no timestamp name: no call names its path,
and the entry stays as it is. -/
theorem run_plain (sel : DirEntry → Bool) (env : Env) (now : LocalTime) (memoDir : Str)
    (w : World) (name : Str) (hsel : ∀ f, sel f = true → TimestampName f.name)
    (hn : NiceElem name) (hne : ¬ TimestampName name) :
    (∃ extra, (runW sel env now memoDir w).calls = w.calls ++ extra ∧
      ∀ c ∈ extra, oldPathOf memoDir name ∉ c.paths) ∧
    ∀ x, w.nodeAt (oldPathOf memoDir name) = some x →
      (runW sel env now memoDir w).nodeAt (oldPathOf memoDir name) = some x := by
  cases hres : resolve memoDir with
  | none =>
    have hrun : runW sel env now memoDir w =
        ⟨w.fs, w.calls ++ [Call.readDir memoDir false]⟩ := by
      simp only [runW, osReadDir, hres, ite_self, Option.isSome_none]
    have hm : memoDir = [] := by
      by_contra h
      simp [resolve, h] at hres
    rw [hrun]
    refine ⟨⟨[Call.readDir memoDir false], rfl, ?_⟩, fun x hx => hx⟩
    intro c hc
    simp only [List.mem_singleton] at hc
    subst hc
    simp only [Call.paths, List.mem_singleton, hm, oldPathOf, filepathJoin, if_true, hn.1,
      if_false]
    exact Clean_ne_nil _
  | some P =>
    have n1 := resolve_oldPathOf memoDir name P hres hn
    have hp : oldPathOf memoDir name ≠ memoDir :=
      resolve_inj_ne _ _ _ _ n1 hres (fun h => P_ne_oldR P name h.symm)
    by_cases hrd : Readable env w memoDir
    · obtain ⟨_, hrun⟩ := runW_readable sel env now memoDir w P hres hrd
      obtain ⟨h1, extra, h2, h3⟩ := loopW_onlyBy sel env (now.AddDate 0 (-1) 0) memoDir P hres
        hsel (listDir w.fs P w.fs) ⟨w.fs, w.calls ++ [Call.readDir memoDir true]⟩
      rw [hrun]
      constructor
      · refine ⟨Call.readDir memoDir true :: extra, by rw [h2]; simp, ?_⟩
        intro c hc
        simp only [List.mem_cons] at hc
        rcases hc with hc | hc
        · subst hc
          simpa [Call.paths] using hp
        · obtain ⟨g, _, hg1, hg2⟩ := h3 c hc
          exact callOf_paths_plain memoDir g.name name P c hres (hsel g hg1) hn hne hg2
      · intro x hx
        rw [nodeAt_old _ _ _ _ hres hn] at hx ⊢
        exact onlyBy_plain P _ _ _ name x hne hx h1
    · have hrun : runW sel env now memoDir w =
          ⟨w.fs, w.calls ++ [Call.readDir memoDir false]⟩ := by
        simp only [runW, osReadDir, hres]
        by_cases h1 : env.readDirFails memoDir = true
        · simp [h1]
        · by_cases h2 : w.fs.get P = some Node.dir
          · exfalso
            apply hrd
            exact ⟨by simpa using h1, by simp [World.nodeAt, hres, h2]⟩
          · simp [h1, h2]
      rw [hrun]
      refine ⟨⟨[Call.readDir memoDir false], rfl, ?_⟩, fun x hx => hx⟩
      intro c hc
      simp only [List.mem_singleton] at hc
      subst hc
      simpa [Call.paths] using hp

/-! ## The function main, run twice -/

theorem osMkdirAll_sem (env : Env) (w : World) (path : Str) (P : RPath)
    (hres : resolve path = some P) :
    ((osMkdirAll env w path).1 = false ∧
      (osMkdirAll env w path).2 = ⟨w.fs, w.calls ++ [Call.mkdirAll path false]⟩) ∨
    ((osMkdirAll env w path).1 = true ∧
      (osMkdirAll env w path).2.calls = w.calls ++ [Call.mkdirAll path true] ∧
      (osMkdirAll env w path).2.fs.get P = some Node.dir ∧
      ∀ q, (osMkdirAll env w path).2.fs.get q = w.fs.get q ∨
        (w.fs.get q = none ∧ (osMkdirAll env w path).2.fs.get q = some Node.dir ∧
          IsStep P.rooted [] P.comps q)) := by
  obtain ⟨hblk, hok⟩ := mkdirWalk_spec P.rooted P.comps w.fs []
  unfold osMkdirAll
  simp only [hres]
  by_cases hm : env.mkdirAllFails path = true
  · left; simp [hm]
  · simp only [hm, Bool.false_eq_true, if_false]
    by_cases hB : Blocked P.rooted w.fs [] P.comps
    · left; simp [hblk hB]
    · right
      obtain ⟨fs1, h1, h2⟩ := hok hB
      simp only [h1, true_and]
      refine ⟨?_, ?_⟩
      · by_cases hP : P.comps = []
        · exact FS.get_root _ _ hP
        · have hstep : IsStep P.rooted [] P.comps P :=
            ⟨rfl, P.comps.length, by
              cases hc : P.comps with
              | nil => exact absurd hc hP
              | cons a b => simp, le_refl _, by simp⟩
          cases e : w.fs.get P with
          | none => exact (h2 P).1 e hstep
          | some n =>
            cases n with
            | file size => exact absurd ⟨P, size, hstep, e⟩ hB
            | dir => rw [(h2 P).2 (fun h => by rw [e] at h; cases h.1), e]
      · intro q
        by_cases hq : w.fs.get q = none ∧ IsStep P.rooted [] P.comps q
        · exact Or.inr ⟨hq.1, (h2 q).1 hq.1 hq.2, hq.2⟩
        · exact Or.inl ((h2 q).2 hq)

theorem step_short (P : RPath) (q : RPath) (h : IsStep P.rooted [] P.comps q) :
    q.comps.length ≤ P.comps.length := by
  obtain ⟨_, k, _, h2, h3⟩ := h
  rw [h3]
  simp only [List.nil_append, List.length_take]
  omega

theorem osCreate_sem (env : Env) (w : World) (memoDir name : Str) (P : RPath)
    (hres : resolve memoDir = some P) (hn : NiceElem name) :
    ((osCreate env w (oldPathOf memoDir name)).1 = false ∧
      (osCreate env w (oldPathOf memoDir name)).2 =
        ⟨w.fs, w.calls ++ [Call.create (oldPathOf memoDir name) false]⟩) ∨
    ((osCreate env w (oldPathOf memoDir name)).1 = true ∧
      (osCreate env w (oldPathOf memoDir name)).2 =
        ⟨w.fs.set (oldR P name) (Node.file 0),
          w.calls ++ [Call.create (oldPathOf memoDir name) true]⟩) := by
  have hO := resolve_oldPathOf memoDir name P hres hn
  unfold osCreate
  simp only [hO, oldR_comps_ne, if_false]
  by_cases h1 : env.createFails (oldPathOf memoDir name) = true
  · left; simp [h1]
  · simp only [h1, Bool.false_eq_true, if_false]
    by_cases h2 : w.fs.get (oldR P name).parent ≠ some Node.dir
    · left; simp [h2]
    · simp only [h2, if_false]
      by_cases h3 : w.fs.get (oldR P name) = some Node.dir
      · left; simp [h3]
      · right; simp [h3]

theorem runW_calls (sel : DirEntry → Bool) (env : Env) (now : LocalTime) (memoDir : Str)
    (w : World) (hsel : ∀ f, sel f = true → TimestampName f.name) :
    (¬ Readable env w memoDir ∧
      runW sel env now memoDir w = ⟨w.fs, w.calls ++ [Call.readDir memoDir false]⟩) ∨
    (Readable env w memoDir ∧ ∃ extra, (runW sel env now memoDir w).calls =
      w.calls ++ Call.readDir memoDir true :: extra) := by
  by_cases hrd : Readable env w memoDir
  · right
    obtain ⟨P, hres, _⟩ := readable_resolve env w memoDir hrd
    obtain ⟨_, hrun⟩ := runW_readable sel env now memoDir w P hres hrd
    obtain ⟨_, extra, h2, _⟩ := loopW_onlyBy sel env (now.AddDate 0 (-1) 0) memoDir P hres
      hsel (listDir w.fs P w.fs) ⟨w.fs, w.calls ++ [Call.readDir memoDir true]⟩
    exact ⟨hrd, extra, by rw [hrun, h2]; simp⟩
  · left
    refine ⟨hrd, ?_⟩
    cases hres : resolve memoDir with
    | none => simp only [runW, osReadDir, hres, ite_self, Option.isSome_none]
    | some P =>
      simp only [runW, osReadDir, hres]
      by_cases h1 : env.readDirFails memoDir = true
      · simp [h1]
      · by_cases h2 : w.fs.get P = some Node.dir
        · exfalso
          apply hrd
          exact ⟨by simpa using h1, by simp [World.nodeAt, hres, h2]⟩
        · simp [h1, h2]

theorem osMkdirAll_calls (env : Env) (w : World) (path : Str) :
    (osMkdirAll env w path).2.calls =
      w.calls ++ [Call.mkdirAll path (osMkdirAll env w path).1] := by
  unfold osMkdirAll
  simp only
  split <;> rfl

theorem osCreate_calls (env : Env) (w : World) (path : Str) :
    (osCreate env w path).2.calls = w.calls ++ [Call.create path (osCreate env w path).1] := by
  unfold osCreate
  simp only
  split <;> rfl

theorem osReadDir_isSome (env : Env) (w : World) (memoDir : Str) :
    (osReadDir env w memoDir).1.isSome = true ↔ Readable env w memoDir := by
  unfold osReadDir Readable World.nodeAt
  simp only
  by_cases h1 : env.readDirFails memoDir = true
  · simp [h1]
  · cases hres : resolve memoDir with
    | none => simp [h1]
    | some P =>
      by_cases h2 : w.fs.get P = some Node.dir
      · simp [h1, h2]
      · simp [h1, h2]

theorem mem_newCalls (w w' : World) (extra : List Call) (c : Call)
    (h : w'.calls = w.calls ++ extra) (hc : c ∈ extra) : c ∈ newCalls w w' := by
  rw [newCalls_append w w' extra h]; exact hc

/-- A run of `main` of the `cm` variant in which every call succeeds: the directory is
made, read, and the new memo is created. -/
theorem main_ok (env : Env) (now later : LocalTime) (path ext memoDir : Str) (w : World)
    (hexp : Cm.expandPath env path = Result.ok memoDir)
    (hok : ∀ c ∈ newCalls w (Cm.main env now later path ext w).2, c.ok = true) :
    (osMkdirAll env w memoDir).1 = true ∧
    Readable env (osMkdirAll env w memoDir).2 memoDir ∧
    (osCreate env (runW cmSel env now memoDir (osMkdirAll env w memoDir).2)
      (oldPathOf memoDir (later.Format ++ '.' :: ext))).1 = true ∧
    Cm.main env now later path ext w = (Exit.done,
      (osCreate env (runW cmSel env now memoDir (osMkdirAll env w memoDir).2)
        (oldPathOf memoDir (later.Format ++ '.' :: ext))).2) := by
  have c1 := osMkdirAll_calls env w memoDir
  have c2 := runW_calls cmSel env now memoDir (osMkdirAll env w memoDir).2 cmSel_timestamp
  have c3 := osCreate_calls env (runW cmSel env now memoDir (osMkdirAll env w memoDir).2)
    (oldPathOf memoDir (later.Format ++ '.' :: ext))
  have hmain : Cm.main env now later path ext w =
      if (osMkdirAll env w memoDir).1 = true then
        if Readable env (osMkdirAll env w memoDir).2 memoDir then
          if (osCreate env (runW cmSel env now memoDir (osMkdirAll env w memoDir).2)
              (oldPathOf memoDir (later.Format ++ '.' :: ext))).1 = true then
            (Exit.done, (osCreate env (runW cmSel env now memoDir (osMkdirAll env w memoDir).2)
              (oldPathOf memoDir (later.Format ++ '.' :: ext))).2)
          else
            (Exit.fatal, (osCreate env (runW cmSel env now memoDir (osMkdirAll env w memoDir).2)
              (oldPathOf memoDir (later.Format ++ '.' :: ext))).2)
        else (Exit.fatal, runW cmSel env now memoDir (osMkdirAll env w memoDir).2)
      else (Exit.fatal, (osMkdirAll env w memoDir).2) := by
    unfold Cm.main
    simp only [hexp, Cm.checkDirExitsOrCreate]
    cases h1 : osMkdirAll env w memoDir with
    | mk b1 w1 =>
      cases b1 with
      | false => simp
      | true =>
        simp only [if_true, cm_archiveOldFiles_eq, osReadDir_isSome]
        by_cases hrd : Readable env w1 memoDir
        · simp only [hrd, if_true, createNewMemo, oldPathOf]
          cases h3 : osCreate env (runW cmSel env now memoDir w1)
              (filepathJoin [memoDir, later.Format ++ '.' :: ext]) with
          | mk b3 w3 => cases b3 <;> simp
        · simp [hrd]
  rw [hmain] at hok ⊢
  by_cases h1 : (osMkdirAll env w memoDir).1 = true
  · rw [if_pos h1] at hok ⊢
    rw [h1] at c1
    by_cases h2 : Readable env (osMkdirAll env w memoDir).2 memoDir
    · rw [if_pos h2] at hok ⊢
      by_cases h3 : (osCreate env (runW cmSel env now memoDir (osMkdirAll env w memoDir).2)
          (oldPathOf memoDir (later.Format ++ '.' :: ext))).1 = true
      · rw [if_pos h3]
        exact ⟨h1, h2, h3, rfl⟩
      · exfalso
        rw [if_neg h3] at hok
        simp only [Bool.not_eq_true] at h3
        rw [h3] at c3
        rcases c2 with ⟨hn, _⟩ | ⟨_, extra, c2⟩
        · exact hn h2
        · have := hok (Call.create (oldPathOf memoDir (later.Format ++ '.' :: ext)) false)
            (mem_newCalls w _
            ([Call.mkdirAll memoDir true] ++ (Call.readDir memoDir true :: extra) ++
              [Call.create (oldPathOf memoDir (later.Format ++ '.' :: ext)) false]) _
            (by rw [c3, c2, c1]; simp) (by simp))
          simp [Call.ok] at this
    · exfalso
      rw [if_neg h2] at hok
      rcases c2 with ⟨_, c2⟩ | ⟨hy, _⟩
      · have := hok (Call.readDir memoDir false) (mem_newCalls w _
          ([Call.mkdirAll memoDir true] ++ [Call.readDir memoDir false]) _
          (by rw [c2]; simp only; rw [c1]; simp) (by simp))
        simp [Call.ok] at this
      · exact h2 hy
  · exfalso
    rw [if_neg h1] at hok
    simp only [Bool.not_eq_true] at h1
    rw [h1] at c1
    have := hok (Call.mkdirAll memoDir false) (mem_newCalls w _ _ _ c1 (by simp))
    simp [Call.ok] at this

/-! ## Calendar arithmetic -/

theorem norm_id (hi lo base : Int) (h0 : 0 ≤ lo) (h1 : lo < base) : norm hi lo base = (hi, lo) := by
  unfold norm
  simp only [not_lt.2 h0, if_false, ge_iff_le, not_le.2 h1]

theorem norm_minus_one (hi : Int) : norm hi (-1) 12 = (hi - 1, 11) := by
  unfold norm
  simp

/-- The last step of `time.Date`: the offset taken off the date read as UTC. -/
theorem pickOffset_eq (loc : Location) (unix ns : Int) :
    (if (loc.lookup unix).offset ≠ 0 then
      if unix - (loc.lookup unix).offset < (loc.lookup unix).start ∨
          unix - (loc.lookup unix).offset ≥ (loc.lookup unix).stop then
        (⟨unix - (loc.lookup (unix - (loc.lookup unix).offset)).offset, ns⟩ : Time)
      else ⟨unix - (loc.lookup unix).offset, ns⟩
    else ⟨unix, ns⟩) = ⟨unix - pickOffset loc unix, ns⟩ := by
  unfold pickOffset
  by_cases h : (loc.lookup unix).offset ≠ 0
  · rw [if_pos h, if_pos h]
    by_cases h2 : unix - (loc.lookup unix).offset < (loc.lookup unix).start ∨
        unix - (loc.lookup unix).offset ≥ (loc.lookup unix).stop
    · rw [if_pos h2, if_pos h2]
    · rw [if_neg h2, if_neg h2]
  · rw [if_neg h, if_neg h, Int.sub_zero]

theorem pickOffset_fixed (loc : Location) (c unix : Int) (h : loc.Fixed c) :
    pickOffset loc unix = c := by
  unfold pickOffset
  rw [h unix, h (unix - c)]
  by_cases hc : c = 0
  · simp [hc]
  · simp [hc]

theorem pickOffset_bounded (loc : Location) (unix : Int) (h : loc.Bounded) :
    -86400 < pickOffset loc unix ∧ pickOffset loc unix < 86400 := by
  unfold pickOffset
  have h1 := h unix
  have h2 := h (unix - (loc.lookup unix).offset)
  split_ifs <;> omega

theorem fixedZone_fixed (c : Int) : (FixedZone c).Fixed c := fun _ => rfl

theorem utc_fixed : UTC.Fixed 0 := fun _ => rfl

theorem utc_bounded : UTC.Bounded :=
  fun _ => ⟨show (-86400 : Int) < 0 by decide, show (0 : Int) < 86400 by decide⟩

theorem fixedZone_bounded (c : Int) (h1 : -86400 < c) (h2 : c < 86400) :
    (FixedZone c).Bounded := fun _ => ⟨h1, h2⟩

/-- The instant `time.Date` gives for a month from 1 to 12 and a time of day within its
ranges; the day is free. -/
theorem Date_eq (y m d h mi s ns : Int) (loc : Location) (hm1 : 1 ≤ m) (hm2 : m ≤ 12)
    (hh1 : 0 ≤ h) (hh2 : h < 24) (hmi1 : 0 ≤ mi) (hmi2 : mi < 60) (hs1 : 0 ≤ s) (hs2 : s < 60)
    (hn1 : 0 ≤ ns) (hn2 : ns < 1000000000) :
    Date y m d h mi s ns loc =
      ⟨(monthStart y m + (d - 1)) * 86400 + h * 3600 + mi * 60 + s -
        pickOffset loc ((monthStart y m + (d - 1)) * 86400 + h * 3600 + mi * 60 + s), ns⟩ := by
  have e1 := norm_id y (m - 1) 12 (by omega) (by omega)
  have e2 := norm_id s ns 1000000000 hn1 hn2
  have e3 := norm_id mi s 60 hs1 hs2
  have e4 := norm_id h mi 60 hmi1 hmi2
  have e5 := norm_id d h 24 hh1 hh2
  unfold Date
  rw [e1]
  simp only []
  rw [e2]
  simp only []
  rw [e3]
  simp only []
  rw [e4]
  simp only []
  rw [e5]
  simp only [Int.sub_add_cancel]
  exact pickOffset_eq loc _ ns

/-- The instant `time.Date` gives for month 0: December of the year before. -/
theorem Date_month_zero (y d h mi s ns : Int) (loc : Location)
    (hh1 : 0 ≤ h) (hh2 : h < 24) (hmi1 : 0 ≤ mi) (hmi2 : mi < 60) (hs1 : 0 ≤ s) (hs2 : s < 60)
    (hn1 : 0 ≤ ns) (hn2 : ns < 1000000000) :
    Date y 0 d h mi s ns loc =
      ⟨(monthStart (y - 1) 12 + (d - 1)) * 86400 + h * 3600 + mi * 60 + s -
        pickOffset loc ((monthStart (y - 1) 12 + (d - 1)) * 86400 + h * 3600 + mi * 60 + s),
        ns⟩ := by
  have e0 : (0 : Int) - 1 = -1 := rfl
  have e1 := norm_minus_one y
  have e2 := norm_id s ns 1000000000 hn1 hn2
  have e3 := norm_id mi s 60 hs1 hs2
  have e4 := norm_id h mi 60 hmi1 hmi2
  have e5 := norm_id d h 24 hh1 hh2
  have e6 : monthStart (y - 1) 12 = daysSinceEpoch (y - 1) + daysBefore (11 + 1 - 1) +
      (if isLeap (y - 1) = true ∧ (11 : Int) + 1 ≥ 3 then 1 else 0) := rfl
  unfold Date
  rw [e0, e1]
  simp only []
  rw [e2]
  simp only []
  rw [e3]
  simp only []
  rw [e4]
  simp only []
  rw [e5]
  simp only []
  rw [e6]
  exact pickOffset_eq loc _ ns

theorem isLeap_iff (y : Int) :
    isLeap y = true ↔ y % 4 = 0 ∧ (y % 100 ≠ 0 ∨ y % 400 = 0) := by
  simp [isLeap]

theorem daysSinceEpoch_succ (y : Int) :
    daysSinceEpoch (y + 1) = daysSinceEpoch y + (if isLeap y then 366 else 365) := by
  unfold daysSinceEpoch
  by_cases h : isLeap y = true
  · rw [if_pos h]
    rw [isLeap_iff] at h
    simp only [Int.add_sub_cancel]
    omega
  · rw [if_neg h]
    rw [isLeap_iff] at h
    simp only [Int.add_sub_cancel]
    omega

theorem daysSinceEpoch_mono (y z : Int) (h : y ≤ z) : daysSinceEpoch y ≤ daysSinceEpoch z := by
  unfold daysSinceEpoch
  simp only
  omega

/-- The first day of the next month comes `daysIn` days after the first of a month. -/
theorem monthStart_next (y m : Int) (h1 : 1 ≤ m) (h2 : m ≤ 11) :
    monthStart y (m + 1) = monthStart y m + daysIn y m := by
  have hcases : m = 1 ∨ m = 2 ∨ m = 3 ∨ m = 4 ∨ m = 5 ∨ m = 6 ∨ m = 7 ∨ m = 8 ∨ m = 9 ∨
      m = 10 ∨ m = 11 := by omega
  by_cases hl : isLeap y = true <;>
  rcases hcases with h | h | h | h | h | h | h | h | h | h | h <;> subst h <;>
    simp [monthStart, daysBefore, daysIn, hl] <;> omega

theorem monthStart_december (y : Int) : monthStart (y + 1) 1 = monthStart y 12 + 31 := by
  simp only [monthStart, daysSinceEpoch_succ]
  by_cases hl : isLeap y = true <;> simp [daysBefore, hl] <;> omega

theorem daysIn_ge (y m : Int) : 28 ≤ daysIn y m ∧ daysIn y m ≤ 31 := by
  unfold daysIn
  split_ifs <;> omega

theorem monthStart_year (y m : Int) (h1 : 1 ≤ m) (h2 : m ≤ 12) :
    monthStart y 1 ≤ monthStart y m ∧ monthStart y m + daysIn y m ≤ monthStart (y + 1) 1 := by
  have hcases : m = 1 ∨ m = 2 ∨ m = 3 ∨ m = 4 ∨ m = 5 ∨ m = 6 ∨ m = 7 ∨ m = 8 ∨ m = 9 ∨
      m = 10 ∨ m = 11 ∨ m = 12 := by omega
  by_cases hl : isLeap y = true <;>
  rcases hcases with h | h | h | h | h | h | h | h | h | h | h | h <;> subst h <;>
    simp [monthStart, daysBefore, daysIn, hl, daysSinceEpoch_succ] <;> omega

theorem monthStart_within (y m n : Int) (h1 : 1 ≤ m) (h2 : m < n) (h3 : n ≤ 12) :
    monthStart y m + daysIn y m ≤ monthStart y n := by
  have hm : m = 1 ∨ m = 2 ∨ m = 3 ∨ m = 4 ∨ m = 5 ∨ m = 6 ∨ m = 7 ∨ m = 8 ∨ m = 9 ∨
      m = 10 ∨ m = 11 := by omega
  have hn : n = 2 ∨ n = 3 ∨ n = 4 ∨ n = 5 ∨ n = 6 ∨ n = 7 ∨ n = 8 ∨ n = 9 ∨
      n = 10 ∨ n = 11 ∨ n = 12 := by omega
  by_cases hl : isLeap y = true <;>
  rcases hm with h | h | h | h | h | h | h | h | h | h | h <;> subst h <;>
  rcases hn with h | h | h | h | h | h | h | h | h | h | h <;> subst h <;>
    first
    | omega
    | (simp [monthStart, daysBefore, daysIn, hl] <;> omega)

/-- The first days of the months come in the order of the months, a month's length
apart at least. -/
theorem monthStart_mono (y1 m1 y2 m2 : Int) (h1 : 1 ≤ m1) (h2 : m1 ≤ 12) (h3 : 1 ≤ m2)
    (h4 : m2 ≤ 12) (hlt : y1 < y2 ∨ (y1 = y2 ∧ m1 < m2)) :
    monthStart y1 m1 + daysIn y1 m1 ≤ monthStart y2 m2 := by
  rcases hlt with h | ⟨h, h'⟩
  · have a := (monthStart_year y1 m1 h1 h2).2
    have b := (monthStart_year y2 m2 h3 h4).1
    have c := daysSinceEpoch_mono (y1 + 1) y2 (by omega)
    have d1 : monthStart (y1 + 1) 1 = daysSinceEpoch (y1 + 1) := by simp [monthStart, daysBefore]
    have d2 : monthStart y2 1 = daysSinceEpoch y2 := by simp [monthStart, daysBefore]
    omega
  · subst h
    exact monthStart_within y1 m1 m2 h1 h' h4

theorem monthStart_le (y1 m1 y2 m2 : Int) (h1 : 1 ≤ m1) (h2 : m1 ≤ 12) (h3 : 1 ≤ m2)
    (h4 : m2 ≤ 12) (hle : y1 < y2 ∨ (y1 = y2 ∧ m1 ≤ m2)) :
    monthStart y1 m1 ≤ monthStart y2 m2 := by
  by_cases he : y1 = y2 ∧ m1 = m2
  · rw [he.1, he.2]
  · have := monthStart_mono y1 m1 y2 m2 h1 h2 h3 h4 (by omega)
    have := daysIn_ge y1 m1
    omega

theorem prevStart_add (t : LocalTime) (h1 : 1 ≤ t.month) (h2 : t.month ≤ 12) :
    prevStart t + prevMonthLength t = monthStart t.year t.month := by
  unfold prevStart prevMonthLength
  by_cases h : t.month = 1
  · rw [if_pos h, if_pos h, h]
    have := monthStart_december (t.year - 1)
    simp only [Int.sub_add_cancel] at this
    omega
  · rw [if_neg h, if_neg h]
    have := monthStart_next t.year (t.month - 1) (by omega) (by omega)
    simp only [Int.sub_add_cancel] at this
    omega

theorem toTime_eq (t : LocalTime) (h : t.Valid) :
    t.toTime = ⟨(monthStart t.year t.month + (t.day - 1)) * 86400 + t.hour * 3600 + t.min * 60 +
      t.sec - t.offset, t.nsec⟩ := by
  obtain ⟨h1, h2, _, _, h5, h6, h7, h8, h9, h10, h11, h12, _, _⟩ := h
  simp only [LocalTime.toTime]
  rw [Date_eq _ _ _ _ _ _ _ _ h1 h2 h5 h6 h7 h8 h9 h10 h11 h12,
    pickOffset_fixed _ _ _ (fixedZone_fixed t.offset)]

/-- The threshold of a run: the date one month back, at the offset `time.Date` picks for
it in the location of the run. -/
theorem threshold_eq (t : LocalTime) (h : t.Valid) :
    t.AddDate 0 (-1) 0 = ⟨(prevStart t + (t.day - 1)) * 86400 + t.hour * 3600 + t.min * 60 +
      t.sec - pickOffset t.loc ((prevStart t + (t.day - 1)) * 86400 + t.hour * 3600 +
        t.min * 60 + t.sec), t.nsec⟩ := by
  obtain ⟨h1, h2, _, _, h5, h6, h7, h8, h9, h10, h11, h12, _, _⟩ := h
  simp only [LocalTime.AddDate, Int.add_zero]
  unfold prevStart
  by_cases hm : t.month = 1
  · rw [if_pos hm, hm]
    exact Date_month_zero _ _ _ _ _ _ _ h5 h6 h7 h8 h9 h10 h11 h12
  · rw [if_neg hm]
    have : t.month + -1 = t.month - 1 := by omega
    rw [this]
    exact Date_eq _ _ _ _ _ _ _ _ (by omega) (by omega) h5 h6 h7 h8 h9 h10 h11 h12

theorem prevStart_ge (t : LocalTime) (y m : Int) (h1 : 1 ≤ t.month) (h2 : t.month ≤ 12)
    (h3 : 1 ≤ m) (h4 : m ≤ 12) (hlt : y < t.year ∨ (y = t.year ∧ m < t.month)) :
    monthStart y m ≤ prevStart t := by
  unfold prevStart
  by_cases hm : t.month = 1
  · rw [if_pos hm]
    exact monthStart_le y m (t.year - 1) 12 h3 h4 (by omega) (by omega) (by omega)
  · rw [if_neg hm]
    exact monthStart_le y m t.year (t.month - 1) h3 h4 (by omega) (by omega) (by omega)

theorem Time.before_trans_le (t a b : Time) (h1 : t.Before a = true)
    (h2 : a.sec < b.sec ∨ (a.sec = b.sec ∧ a.nsec ≤ b.nsec)) : t.Before b = true := by
  simp only [Time.Before, Bool.or_eq_true, decide_eq_true_eq, Bool.and_eq_true] at h1 ⊢
  omega

/-! ## The name of a new memo -/

theorem isDigit_digitChar (k : Nat) : isDigit (digitChar k) = true := by
  have h : ∀ j, j < 10 → isDigit (Char.ofNat ('0'.toNat + j)) = true := by decide
  exact h (k % 10) (Nat.mod_lt _ (by omega))

theorem digitVal_digitChar (k : Nat) : digitVal (digitChar k) = k % 10 := by
  have h : ∀ j, j < 10 → digitVal (Char.ofNat ('0'.toNat + j)) = j := by decide
  exact h (k % 10) (Nat.mod_lt _ (by omega))

theorem appendInt_two (x : Int) (h0 : 0 ≤ x) (h1 : x < 100) :
    appendInt x 2 = [digitChar (x.natAbs / 10), digitChar x.natAbs] := by
  unfold appendInt
  rw [if_neg (by omega), padZeros_two _ (by omega)]

theorem appendInt_four (x : Int) (h0 : 0 ≤ x) (h1 : x < 10000) :
    appendInt x 4 = [digitChar (x.natAbs / 1000), digitChar (x.natAbs / 100),
      digitChar (x.natAbs / 10), digitChar x.natAbs] := by
  unfold appendInt
  rw [if_neg (by omega), padZeros_four _ (by omega)]

theorem daysIn_le (y m : Int) : daysIn y m ≤ 31 := (daysIn_ge y m).2

/-- The text `t.Format("20060102150405")` of a clock reading in the years 0 to 9999:
fourteen digits. -/
theorem Format_eq (t : LocalTime) (h : t.Valid) (hy0 : 0 ≤ t.year) (hy1 : t.year ≤ 9999) :
    t.Format = [digitChar (t.year.natAbs / 1000), digitChar (t.year.natAbs / 100),
      digitChar (t.year.natAbs / 10), digitChar t.year.natAbs,
      digitChar (t.month.natAbs / 10), digitChar t.month.natAbs,
      digitChar (t.day.natAbs / 10), digitChar t.day.natAbs,
      digitChar (t.hour.natAbs / 10), digitChar t.hour.natAbs,
      digitChar (t.min.natAbs / 10), digitChar t.min.natAbs,
      digitChar (t.sec.natAbs / 10), digitChar t.sec.natAbs] := by
  obtain ⟨h1, h2, h3, h4, h5, h6, h7, h8, h9, h10, _, _, _, _⟩ := h
  have hd := daysIn_le t.year t.month
  unfold LocalTime.Format
  rw [appendInt_four t.year hy0 (by omega), appendInt_two t.month (by omega) (by omega),
    appendInt_two t.day (by omega) (by omega), appendInt_two t.hour h5 (by omega),
    appendInt_two t.min h7 (by omega), appendInt_two t.sec h9 (by omega)]
  rfl

theorem numeral_digits_four (n : Nat) (h : n < 10000) :
    numeral [digitChar (n / 1000), digitChar (n / 100), digitChar (n / 10), digitChar n] =
      (n : Int) := by
  simp only [numeral, List.foldl_cons, List.foldl_nil, digitVal_digitChar, Nat.zero_mul,
    Nat.zero_add]
  congr 1
  omega

theorem numeral_digits_two (n : Nat) (h : n < 100) :
    numeral [digitChar (n / 10), digitChar n] = (n : Int) := by
  simp only [numeral, List.foldl_cons, List.foldl_nil, digitVal_digitChar, Nat.zero_mul,
    Nat.zero_add]
  congr 1
  omega

/-- The date a new memo's name encodes is the date of the clock reading. -/
theorem new_name_date (t : LocalTime) (ext : Str) (h : t.Valid) (hy0 : 0 ≤ t.year)
    (hy1 : t.year ≤ 9999) :
    fileYear (t.Format ++ '.' :: ext) = t.year ∧ fileMonth (t.Format ++ '.' :: ext) = t.month ∧
      fileDay (t.Format ++ '.' :: ext) = t.day ∧ fileExt (t.Format ++ '.' :: ext) = ext := by
  rw [Format_eq t h hy0 hy1]
  obtain ⟨h1, h2, h3, h4, _⟩ := h
  have hd := daysIn_le t.year t.month
  simp only [fileYear, fileMonth, fileDay, fileExt, List.cons_append, List.nil_append,
    List.take_succ_cons, List.take_zero, List.drop_succ_cons, List.drop_zero]
  rw [numeral_digits_four _ (by omega), numeral_digits_two _ (by omega),
    numeral_digits_two _ (by omega)]
  refine ⟨by omega, by omega, by omega, trivial⟩

/-- The name of a new memo is a timestamp name when the extension is a non-empty word. -/
theorem new_name_timestamp (t : LocalTime) (ext : Str) (h : t.Valid) (hy0 : 0 ≤ t.year)
    (hy1 : t.year ≤ 9999) (hne : ext ≠ []) (hw : ∀ c ∈ ext, isWord c = true) :
    TimestampName (t.Format ++ '.' :: ext) := by
  rw [Format_eq t h hy0 hy1]
  refine ⟨?_, ?_, ?_, ?_⟩
  · cases ext with
    | nil => exact absurd rfl hne
    | cons a b => simp only [List.cons_append, List.nil_append, List.length_cons]; omega
  · intro c hc
    simp only [List.cons_append, List.nil_append, List.take_succ_cons, List.take_zero,
      List.mem_cons, List.not_mem_nil, or_false] at hc
    rcases hc with hc | hc | hc | hc | hc | hc | hc | hc | hc | hc | hc | hc | hc | hc <;>
      (rw [hc]; exact isDigit_digitChar _)
  · rfl
  · exact hw

theorem decimal_digits (n : Nat) : ∀ c ∈ decimal n, isDigit c = true := by
  induction n using Nat.strong_induction_on with
  | _ n ih =>
    by_cases h : n < 10
    · rw [decimal_lt n h]
      intro c hc
      simp only [List.mem_singleton] at hc
      rw [hc]; exact isDigit_digitChar _
    · rw [decimal_ge n (by omega)]
      intro c hc
      simp only [List.mem_append, List.mem_singleton] at hc
      rcases hc with hc | hc
      · exact ih (n / 10) (by omega) c hc
      · rw [hc]; exact isDigit_digitChar _

theorem decimal_length_ge (n : Nat) (h : 10000 ≤ n) : 5 ≤ (decimal n).length := by
  rw [decimal_ge n (by omega), decimal_ge (n / 10) (by omega), decimal_ge (n / 10 / 10) (by omega),
    decimal_ge (n / 10 / 10 / 10) (by omega)]
  have := decimal_length_pos (n / 10 / 10 / 10 / 10)
  simp only [List.length_append, List.length_singleton]
  omega

theorem padZeros_digits (w : Nat) (s : Str) (h : ∀ c ∈ s, isDigit c = true) :
    ∀ c ∈ padZeros w s, isDigit c = true := by
  intro c hc
  simp only [padZeros, List.mem_append, List.mem_replicate] at hc
  rcases hc with ⟨_, hc⟩ | hc
  · rw [hc]; decide
  · exact h c hc

theorem padZeros_length (w : Nat) (s : Str) : w ≤ (padZeros w s).length ∧
    s.length ≤ (padZeros w s).length := by
  simp only [padZeros, List.length_append, List.length_replicate]
  omega

/-- The characters of `appendInt`: digits after a possible minus sign. -/
theorem appendInt_chars (x : Int) (w : Nat) :
    (0 ≤ x → ∀ c ∈ appendInt x w, isDigit c = true) ∧
    (∀ c ∈ appendInt x w, isDigit c = true ∨ c = '-') ∧ w ≤ (appendInt x w).length := by
  unfold appendInt
  have hd := padZeros_digits w _ (decimal_digits x.natAbs)
  have hl := (padZeros_length w (decimal x.natAbs)).1
  by_cases hx : x < 0
  · simp only [hx, if_true]
    refine ⟨fun h => absurd hx (by omega), ?_, by simp only [List.length_cons]; omega⟩
    intro c hc
    simp only [List.mem_cons] at hc
    rcases hc with hc | hc
    · exact Or.inr hc
    · exact Or.inl (hd c hc)
  · simp only [hx, if_false]
    exact ⟨fun _ => hd, fun c hc => Or.inl (hd c hc), hl⟩

/-- The text `t.Format("20060102150405")` of a clock reading: the year, then ten
digits. -/
theorem Format_shape (t : LocalTime) (h : t.Valid) :
    ∃ r : Str, t.Format = appendInt t.year 4 ++ r ∧ r.length = 10 ∧
      ∀ c ∈ r, isDigit c = true := by
  obtain ⟨h1, h2, h3, h4, h5, h6, h7, h8, h9, h10, _, _, _, _⟩ := h
  have hd := daysIn_le t.year t.month
  refine ⟨appendInt t.month 2 ++ appendInt t.day 2 ++ appendInt t.hour 2 ++ appendInt t.min 2 ++
    appendInt t.sec 2, by simp [LocalTime.Format], ?_, ?_⟩
  · rw [appendInt_two t.month (by omega) (by omega),
      appendInt_two t.day (by omega) (by omega), appendInt_two t.hour h5 (by omega),
      appendInt_two t.min h7 (by omega), appendInt_two t.sec h9 (by omega)]
    rfl
  · intro c hc
    simp only [List.mem_append] at hc
    rcases hc with (((hc | hc) | hc) | hc) | hc
    · exact (appendInt_chars t.month 2).1 (by omega) c hc
    · exact (appendInt_chars t.day 2).1 (by omega) c hc
    · exact (appendInt_chars t.hour 2).1 h5 c hc
    · exact (appendInt_chars t.min 2).1 h7 c hc
    · exact (appendInt_chars t.sec 2).1 h9 c hc

/-- The name of a new memo is a file name when the extension holds no separator. -/
theorem new_name_nice (t : LocalTime) (ext : Str) (h : t.Valid) (hext : '/' ∉ ext) :
    NiceElem (t.Format ++ '.' :: ext) := by
  obtain ⟨r, hf, hr, hrd⟩ := Format_shape t h
  obtain ⟨_, hc, hl⟩ := appendInt_chars t.year 4
  rw [hf]
  have hne : appendInt t.year 4 ≠ [] := by
    intro e; rw [e] at hl; simp at hl
  cases ha : appendInt t.year 4 with
  | nil => exact absurd ha hne
  | cons a rest =>
    rw [ha] at hc
    have hfirst : a ≠ '.' ∧ a ≠ '/' := by
      rcases hc a (by simp) with h1 | h1
      · exact ⟨(isDigit_not_slash a h1).2, (isDigit_not_slash a h1).1⟩
      · rw [h1]; exact ⟨by decide, by decide⟩
    refine ⟨by simp, ?_, ?_, ?_⟩
    · intro hmem
      simp only [List.cons_append, List.append_assoc, List.mem_cons, List.mem_append] at hmem
      rcases hmem with hmem | hmem | hmem | hmem | hmem
      · exact hfirst.2 hmem.symm
      · rcases hc '/' (by simp [hmem]) with h1 | h1
        · exact absurd h1 (by decide)
        · exact absurd h1 (by decide)
      · exact absurd (hrd '/' hmem) (by decide)
      · exact absurd hmem (by decide)
      · exact hext hmem
    · intro e
      simp only [List.cons_append, List.cons.injEq] at e
      exact hfirst.1 e.1
    · intro e
      simp only [List.cons_append, List.cons.injEq] at e
      exact hfirst.1 e.1

/-- A new memo's name that is a timestamp name comes from a year between 0 and 9999. -/
theorem new_name_year (t : LocalTime) (ext : Str) (h : t.Valid)
    (hn : TimestampName (t.Format ++ '.' :: ext)) : 0 ≤ t.year ∧ t.year ≤ 9999 := by
  obtain ⟨r, hf, hr, hrd⟩ := Format_shape t h
  obtain ⟨_, hdig, hdot, _⟩ := hn
  rw [hf] at hdig hdot
  have hy0 : 0 ≤ t.year := by
    by_contra hneg
    have hx : t.year < 0 := by omega
    have : isDigit '-' = true := by
      apply hdig
      simp [appendInt, hx]
    exact absurd this (by decide)
  refine ⟨hy0, ?_⟩
  by_contra hbig
  have hx : ¬ t.year < 0 := by omega
  have hlen : 5 ≤ (appendInt t.year 4).length := by
    unfold appendInt
    rw [if_neg hx]
    have := decimal_length_ge t.year.natAbs (by omega)
    have := (padZeros_length 4 (decimal t.year.natAbs)).2
    omega
  have hall : ∀ c ∈ appendInt t.year 4 ++ r, isDigit c = true := by
    intro c hc
    simp only [List.mem_append] at hc
    rcases hc with hc | hc
    · exact (appendInt_chars t.year 4).1 hy0 c hc
    · exact hrd c hc
  have hlen2 : 15 ≤ (appendInt t.year 4 ++ r).length := by
    simp only [List.length_append]; omega
  generalize appendInt t.year 4 ++ r = L at hall hlen2 hdot
  have hget : ∃ c, c ∈ L ∧ List.take 1 (List.drop 14 (L ++ '.' :: ext)) = [c] := by
    match L, hlen2 with
    | c0 :: c1 :: c2 :: c3 :: c4 :: c5 :: c6 :: c7 :: c8 :: c9 :: c10 :: c11 :: c12 :: c13 ::
        c14 :: rest, _ => exact ⟨c14, by simp, by simp⟩
  obtain ⟨c, hc, hcd⟩ := hget
  rw [hcd] at hdot
  simp only [List.cons.injEq, and_true] at hdot
  have := hall c hc
  rw [hdot] at this
  exact absurd this (by decide)

theorem prevMonthLength_ge (t : LocalTime) : 28 ≤ prevMonthLength t := by
  unfold prevMonthLength
  split
  · omega
  · exact (daysIn_ge _ _).1

/-- The name of a memo created at or after the run time is not the name of a file whose
date is before the threshold of that run. -/
theorem new_name_ne (now later : LocalTime) (ext name : Str) (hv : now.Valid)
    (hz : now.loc.Bounded) (hl : later.Valid) (ht : Time.le now.toTime later.toTime)
    (hn : TimestampName name) (hold : (fileTime name).Before (now.AddDate 0 (-1) 0) = true) :
    later.Format ++ '.' :: ext ≠ name := by
  intro e
  subst e
  obtain ⟨hy0, hy1⟩ := new_name_year later ext hl hn
  obtain ⟨e1, e2, e3, _⟩ := new_name_date later ext hl hy0 hy1
  have hp := prevStart_add now hv.1 hv.2.1
  have hpl := prevMonthLength_ge now
  unfold Time.le at ht
  rw [toTime_eq now hv, toTime_eq later hl] at ht
  rw [threshold_eq now hv] at hold
  unfold fileTime at hold
  rw [e1, e2, e3, Date_eq later.year later.month later.day 0 0 0 0 UTC hl.1 hl.2.1
    (by omega) (by omega) (by omega) (by omega) (by omega) (by omega) (by omega) (by omega),
    pickOffset_fixed _ _ _ utc_fixed] at hold
  have hz' := pickOffset_bounded now.loc ((prevStart now + (now.day - 1)) * 86400 +
    now.hour * 3600 + now.min * 60 + now.sec) hz
  simp only [Time.Before, Bool.or_eq_false_iff, decide_eq_false_iff_not, Bool.and_eq_false_imp,
    decide_eq_true_eq, Bool.or_eq_true, Bool.and_eq_true] at ht hold
  obtain ⟨a1, a2, a3, a4, a5, a6, a7, a8, a9, a10, a11, a12, a13, a14⟩ := hv
  obtain ⟨b1, b2, b3, b4, b5, b6, b7, b8, b9, b10, b11, b12, b13, b14⟩ := hl
  omega

theorem stepView_all_ok (statF removeF mkdirF renameF blocked : Bool) (o d p : Str)
    (size : Nat) (b : Option Node)
    (h : ∀ c ∈ (stepView statF removeF mkdirF renameF true blocked o d p
      (some (Node.file size)) b).2.2, c.ok = true) :
    stepView statF removeF mkdirF renameF true blocked o d p (some (Node.file size)) b =
      (none, if size = 0 then b else some (Node.file size),
        if size = 0 then [Call.stat o true, Call.remove o true]
        else [Call.stat o true, Call.mkdirAll d true, Call.rename o p true]) := by
  by_cases hz : size = 0 <;> by_cases hb : b = some Node.dir <;>
  cases statF <;> cases removeF <;> cases mkdirF <;> cases renameF <;> cases blocked <;>
    simp [stepView, moveView, removeView, Node.size, hz, hb, Call.ok] at h ⊢

/-- A run of `main` in which every call succeeds, seen from a timestamp name other than
the name of the new memo: what `archiveOldFiles` does for the name is all the run does
for it. -/
theorem main_entry (env : Env) (now later : LocalTime) (path ext memoDir : Str) (w : World)
    (name : Str) (seg : List Call) (a b : Option Node)
    (hexp : Cm.expandPath env path = Result.ok memoDir)
    (hok : ∀ c ∈ newCalls w (Cm.main env now later path ext w).2, c.ok = true)
    (hn : TimestampName name) (hnn : NiceElem (later.Format ++ '.' :: ext))
    (hne : later.Format ++ '.' :: ext ≠ name)
    (hmid : ∀ P w1, resolve memoDir = some P → Readable env w1 memoDir →
      w1.fs.get (oldR P name) = w.fs.get (oldR P name) →
      w1.fs.get (destR P name) = w.fs.get (destR P name) →
      (∀ c ∈ newCalls w1 (runW cmSel env now memoDir w1), c.ok = true) →
      Segment memoDir name w1 (runW cmSel env now memoDir w1) seg ∧
        (runW cmSel env now memoDir w1).nodeAt (oldPathOf memoDir name) = a ∧
        (runW cmSel env now memoDir w1).nodeAt (destPathOf memoDir name) = b) :
    (Cm.main env now later path ext w).1 = Exit.done ∧
    Segment memoDir name w (Cm.main env now later path ext w).2 seg ∧
    (Cm.main env now later path ext w).2.nodeAt (oldPathOf memoDir name) = a ∧
    (Cm.main env now later path ext w).2.nodeAt (destPathOf memoDir name) = b := by
  obtain ⟨m1, m2, m3, m4⟩ := main_ok env now later path ext memoDir w hexp hok
  obtain ⟨P, hres, _⟩ := readable_resolve env _ memoDir m2
  have c1 := osMkdirAll_calls env w memoDir
  rw [m1] at c1
  have c3 := osCreate_calls env (runW cmSel env now memoDir (osMkdirAll env w memoDir).2)
    (oldPathOf memoDir (later.Format ++ '.' :: ext))
  rw [m3] at c3
  -- the directory made first
  have hframe : ∀ q, P.comps.length < q.comps.length →
      (osMkdirAll env w memoDir).2.fs.get q = w.fs.get q := by
    intro q hq
    rcases osMkdirAll_sem env w memoDir P hres with ⟨h1, _⟩ | ⟨_, _, _, h4⟩
    · rw [m1] at h1; cases h1
    · rcases h4 q with h | ⟨_, _, h⟩
      · exact h
      · have := step_short P q h
        omega
  have g1 := hframe (oldR P name) (by simp [oldR])
  have g2 := hframe (destR P name) (by simp [destR])
  -- the archival routine
  have hokmid : ∀ c ∈ newCalls (osMkdirAll env w memoDir).2
      (runW cmSel env now memoDir (osMkdirAll env w memoDir).2), c.ok = true := by
    intro c hc
    apply hok c
    rw [m4]
    rcases runW_calls cmSel env now memoDir (osMkdirAll env w memoDir).2 cmSel_timestamp with
      ⟨hnr, _⟩ | ⟨_, extra, c2⟩
    · exact absurd m2 hnr
    · rw [newCalls_append _ _ _ c2] at hc
      exact mem_newCalls w _ ([Call.mkdirAll memoDir true] ++
        (Call.readDir memoDir true :: extra) ++
        [Call.create (oldPathOf memoDir (later.Format ++ '.' :: ext)) true]) c
        (by rw [c3, c2, c1]; simp) (by simp only [List.mem_append]; exact Or.inl (Or.inr hc))
  obtain ⟨⟨pre, post, s1, s2, s5⟩, s3, s4⟩ := hmid P _ hres m2 g1 g2 hokmid
  -- the new memo
  have hcreate : (osCreate env (runW cmSel env now memoDir (osMkdirAll env w memoDir).2)
      (oldPathOf memoDir (later.Format ++ '.' :: ext))).2.fs =
      (runW cmSel env now memoDir (osMkdirAll env w memoDir).2).fs.set
        (oldR P (later.Format ++ '.' :: ext)) (Node.file 0) := by
    rcases osCreate_sem env (runW cmSel env now memoDir (osMkdirAll env w memoDir).2) memoDir
      (later.Format ++ '.' :: ext) P hres hnn with ⟨h1, _⟩ | ⟨_, h2⟩
    · rw [m3] at h1; cases h1
    · rw [h2]
  have n1 := resolve_oldPathOf memoDir name P hres (timestampName_nice name hn).1
  have n3 := resolve_destPathOf memoDir name P hres hn
  have nn := resolve_oldPathOf memoDir _ P hres hnn
  have hne1 : oldR P name ≠ oldR P (later.Format ++ '.' :: ext) :=
    fun h => hne (oldR_inj P _ _ h).symm
  have hne2 : destR P name ≠ oldR P (later.Format ++ '.' :: ext) :=
    fun h => oldR_ne_destR P _ _ h.symm
  rw [m4]
  refine ⟨rfl, ⟨Call.mkdirAll memoDir true :: pre,
    post ++ [Call.create (oldPathOf memoDir (later.Format ++ '.' :: ext)) true], ?_, ?_, ?_⟩,
    ?_, ?_⟩
  · simp only
    rw [c3, s1, c1]
    simp
  · intro c hc
    simp only [List.cons_append, List.mem_cons, List.mem_append, List.mem_singleton,
      List.not_mem_nil, or_false] at hc
    rcases hc with hc | hc | hc | hc
    · subst hc
      simp only [Call.paths, List.mem_singleton]
      exact ⟨resolve_inj_ne _ _ _ _ n1 hres (fun h => P_ne_oldR P name h.symm),
        resolve_inj_ne _ _ _ _ n3 hres (fun h => P_ne_destR P name h.symm)⟩
    · exact s2 c (by simp [hc])
    · exact s2 c (by simp [hc])
    · subst hc
      simp only [Call.paths, List.mem_singleton]
      exact ⟨resolve_inj_ne _ _ _ _ n1 nn hne1, resolve_inj_ne _ _ _ _ n3 nn hne2⟩
  · intro c hc
    cases post with
    | nil =>
      simp only [List.nil_append, List.head?_cons, Option.mem_def, Option.some.injEq] at hc
      rw [← hc]
      rfl
    | cons x post =>
      simp only [List.cons_append, List.head?_cons, Option.mem_def, Option.some.injEq] at hc
      exact s5 c (by simp [hc])
  · rw [← s3]
    simp only [World.nodeAt, n1, hcreate]
    rw [FS.get_set, if_neg (oldR_comps_ne P name), if_neg hne1]
  · rw [← s4]
    simp only [World.nodeAt, n3, hcreate]
    rw [FS.get_set, if_neg (destR_comps_ne P name), if_neg hne2]

/-! ## What a step does to its file -/

theorem stepView_nonempty_old (statF removeF mkdirF renameF blocked : Bool) (o d p : Str)
    (size : Nat) (b : Option Node) (hz : size ≠ 0) :
    (Call.mkdirAll d false ∈
        (stepView statF removeF mkdirF renameF true blocked o d p (some (Node.file size)) b).2.2 ∨
      Call.rename o p false ∈
        (stepView statF removeF mkdirF renameF true blocked o d p (some (Node.file size)) b).2.2) ∨
    ((stepView statF removeF mkdirF renameF true blocked o d p (some (Node.file size)) b).1 = none ∧
      (stepView statF removeF mkdirF renameF true blocked o d p (some (Node.file size)) b).2.1 =
        some (Node.file size)) := by
  by_cases hb : b = some Node.dir <;>
  cases statF <;> cases mkdirF <;> cases renameF <;> cases blocked <;>
    simp [stepView, moveView, Node.size, hz, hb]

theorem entryView_nonempty_old (env : Env) (thr : Time) (memoDir name : Str) (P : RPath)
    (w : World) (size : Nat) (hfile : w.fs.get (oldR P name) = some (Node.file size))
    (hpos : 0 < size) (hold : (fileTime name).Before thr = true) :
    (Call.mkdirAll (destDirOf memoDir name) false ∈ (entryView env thr memoDir name P w).2.2 ∨
      Call.rename (oldPathOf memoDir name) (destPathOf memoDir name) false ∈
        (entryView env thr memoDir name P w).2.2) ∨
    ((entryView env thr memoDir name P w).1 = none ∧
      (entryView env thr memoDir name P w).2.1 = some (Node.file size)) := by
  unfold entryView
  rw [hfile, hold]
  exact stepView_nonempty_old _ _ _ _ _ _ _ _ _ _ (by omega)

theorem moved_of_calls (sel : DirEntry → Bool) (env : Env) (now : LocalTime) (memoDir : Str)
    (w : World) (name : Str) (size : Nat)
    (hsel : ∀ f, sel f = true → TimestampName f.name) (hrd : Readable env w memoDir)
    (hn : TimestampName name) (hs : sel ⟨name, false⟩ = true)
    (hfile : w.nodeAt (oldPathOf memoDir name) = some (Node.file size)) (hpos : 0 < size)
    (hold : (fileTime name).Before (now.AddDate 0 (-1) 0) = true)
    (hmk : Call.mkdirAll (destDirOf memoDir name) false ∉
      newCalls w (runW sel env now memoDir w))
    (hrn : Call.rename (oldPathOf memoDir name) (destPathOf memoDir name) false ∉
      newCalls w (runW sel env now memoDir w)) :
    (runW sel env now memoDir w).nodeAt (destPathOf memoDir name) = some (Node.file size) ∧
    (runW sel env now memoDir w).nodeAt (oldPathOf memoDir name) = none := by
  obtain ⟨P, hres, _⟩ := readable_resolve env w memoDir hrd
  rw [nodeAt_old _ _ _ _ hres (timestampName_nice name hn).1] at hfile
  obtain ⟨hseg, h3, h4⟩ :=
    run_entry sel env now memoDir w name size P hres hsel hrd hn hfile hs
  obtain ⟨pre, post, hnew, _⟩ := Segment.newCalls _ _ _ _ _ hseg
  rw [hnew] at hmk hrn
  rcases entryView_nonempty_old env (now.AddDate 0 (-1) 0) memoDir name P w size hfile hpos hold
    with (h | h) | ⟨h5, h6⟩
  · exact absurd (by simp [h]) hmk
  · exact absurd (by simp [h]) hrn
  · rw [h3, h4]
    exact ⟨h6, h5⟩

theorem stepView_empty (removeF mkdirF renameF before blocked : Bool) (o d p : Str)
    (b : Option Node) :
    stepView false removeF mkdirF renameF before blocked o d p (some (Node.file 0)) b =
      (if removeF then some (Node.file 0) else none, b,
        [Call.stat o true, Call.remove o (!removeF)]) := by
  cases removeF <;> simp [stepView, removeView, Node.size]

theorem stepView_kept (statF removeF mkdirF renameF blocked : Bool) (o d p : Str)
    (size : Nat) (b : Option Node) (hz : size ≠ 0) :
    stepView statF removeF mkdirF renameF false blocked o d p (some (Node.file size)) b =
      (some (Node.file size), b, [Call.stat o (!statF)]) := by
  cases statF <;> simp [stepView, Node.size, hz]

/-- The run on an empty regular file with a timestamp name that the loop selects, `Stat`
succeeding on it. -/
theorem deleted_of_empty (sel : DirEntry → Bool) (env : Env) (now : LocalTime) (memoDir : Str)
    (w : World) (name : Str)
    (hsel : ∀ f, sel f = true → TimestampName f.name) (hrd : Readable env w memoDir)
    (hn : TimestampName name) (hs : sel ⟨name, false⟩ = true)
    (hfile : w.nodeAt (oldPathOf memoDir name) = some (Node.file 0))
    (hstat : env.statFails (oldPathOf memoDir name) = false) :
    ∃ ok, Segment memoDir name w (runW sel env now memoDir w)
        [Call.stat (oldPathOf memoDir name) true, Call.remove (oldPathOf memoDir name) ok] ∧
      (ok = true → (runW sel env now memoDir w).nodeAt (oldPathOf memoDir name) = none) ∧
      (runW sel env now memoDir w).nodeAt (destPathOf memoDir name) =
        w.nodeAt (destPathOf memoDir name) := by
  obtain ⟨P, hres, _⟩ := readable_resolve env w memoDir hrd
  rw [nodeAt_old _ _ _ _ hres (timestampName_nice name hn).1] at hfile
  obtain ⟨h1, h3, h4⟩ := run_entry sel env now memoDir w name 0 P hres hsel hrd hn hfile hs
  have hv : entryView env (now.AddDate 0 (-1) 0) memoDir name P w =
      (if env.removeFails (oldPathOf memoDir name) then some (Node.file 0) else none,
        w.fs.get (destR P name), [Call.stat (oldPathOf memoDir name) true,
          Call.remove (oldPathOf memoDir name) (!env.removeFails (oldPathOf memoDir name))]) := by
    unfold entryView
    rw [hfile, hstat]
    exact stepView_empty _ _ _ _ _ _ _ _ _
  rw [hv] at h1 h3 h4
  refine ⟨!env.removeFails (oldPathOf memoDir name), h1, ?_, ?_⟩
  · intro hok
    rw [h3]
    simp only [Bool.not_eq_true'] at hok
    simp [hok]
  · rw [h4, nodeAt_dest _ _ _ _ hres hn]

/-- The run on a non-empty regular file with a timestamp name whose date is not before the
threshold, the loop selecting it. -/
theorem kept_of_recent (sel : DirEntry → Bool) (env : Env) (now : LocalTime) (memoDir : Str)
    (w : World) (name : Str) (size : Nat)
    (hsel : ∀ f, sel f = true → TimestampName f.name) (hrd : Readable env w memoDir)
    (hn : TimestampName name) (hs : sel ⟨name, false⟩ = true)
    (hfile : w.nodeAt (oldPathOf memoDir name) = some (Node.file size)) (hpos : 0 < size)
    (hnew : (fileTime name).Before (now.AddDate 0 (-1) 0) = false) :
    ∃ ok, Segment memoDir name w (runW sel env now memoDir w)
        [Call.stat (oldPathOf memoDir name) ok] ∧
      (runW sel env now memoDir w).nodeAt (oldPathOf memoDir name) = some (Node.file size) ∧
      (runW sel env now memoDir w).nodeAt (destPathOf memoDir name) =
        w.nodeAt (destPathOf memoDir name) := by
  obtain ⟨P, hres, _⟩ := readable_resolve env w memoDir hrd
  rw [nodeAt_old _ _ _ _ hres (timestampName_nice name hn).1] at hfile
  obtain ⟨h1, h3, h4⟩ := run_entry sel env now memoDir w name size P hres hsel hrd hn hfile hs
  have hv : entryView env (now.AddDate 0 (-1) 0) memoDir name P w =
      (some (Node.file size), w.fs.get (destR P name),
        [Call.stat (oldPathOf memoDir name) (!env.statFails (oldPathOf memoDir name))]) := by
    unfold entryView
    rw [hfile, hnew]
    exact stepView_kept _ _ _ _ _ _ _ _ _ _ (by omega)
  rw [hv] at h1 h3 h4
  exact ⟨_, h1, h3, by rw [h4, nodeAt_dest _ _ _ _ hres hn]⟩

theorem stepView_failed (statF removeF mkdirF renameF before blocked : Bool) (o d p : Str)
    (size : Nat) (b : Option Node)
    (h : ∃ c ∈ (stepView statF removeF mkdirF renameF before blocked o d p
      (some (Node.file size)) b).2.2, c.ok = false ∧ ∀ r, c ≠ Call.stat o r) :
    (stepView statF removeF mkdirF renameF before blocked o d p (some (Node.file size)) b).1 =
        some (Node.file size) ∧
      (stepView statF removeF mkdirF renameF before blocked o d p (some (Node.file size)) b).2.1 =
        b := by
  by_cases hz : size = 0 <;> by_cases hb : b = some Node.dir <;>
  cases statF <;> cases removeF <;> cases mkdirF <;> cases renameF <;> cases before <;>
    cases blocked <;>
    simp [stepView, moveView, removeView, Node.size, hz, hb, Call.ok] at h ⊢

theorem stepView_statFailed (removeF mkdirF renameF before blocked : Bool) (o d p : Str)
    (size : Nat) (b : Option Node) :
    (∀ r, Call.remove o r ∉ (stepView true removeF mkdirF renameF before blocked o d p
      (some (Node.file size)) b).2.2) ∧
    (before = true →
      (∀ c ∈ (stepView true removeF mkdirF renameF before blocked o d p
        (some (Node.file size)) b).2.2, c.ok = false → ∃ r, c = Call.stat o r) →
      (stepView true removeF mkdirF renameF before blocked o d p (some (Node.file size)) b).1 =
          none ∧
        (stepView true removeF mkdirF renameF before blocked o d p
          (some (Node.file size)) b).2.1 = some (Node.file size)) := by
  by_cases hb : b = some Node.dir <;>
  cases removeF <;> cases mkdirF <;> cases renameF <;> cases before <;> cases blocked <;>
    simp [stepView, moveView, removeView, Node.size, hb, Call.ok]

theorem entryView_reliable (env : Env) (thr : Time) (memoDir name : Str) (P : RPath) (w : World)
    (h1 : env.statFails (oldPathOf memoDir name) = false)
    (h2 : env.removeFails (oldPathOf memoDir name) = false)
    (h3 : env.mkdirAllFails (destDirOf memoDir name) = false)
    (h4 : env.renameFails (oldPathOf memoDir name) (destPathOf memoDir name) = false) :
    entryView env thr memoDir name P w = entryView (Env.reliable env.home) thr memoDir name P w := by
  unfold entryView
  rw [h1, h2, h3, h4]
  rfl

theorem Cm.archiveOldFiles_outcome (env : Env) (now : LocalTime) (memoDir ext : Str) (w : World) :
    (Cm.archiveOldFiles env now memoDir ext w).1 = Outcome.returned none ∨
      (Cm.archiveOldFiles env now memoDir ext w).1 = Outcome.fatal := by
  rw [cm_archiveOldFiles_eq]
  simp only
  split
  · exact Or.inl rfl
  · exact Or.inr rfl

theorem loopW_congr (sel1 sel2 : DirEntry → Bool) (env : Env) (thr : Time) (memoDir : Str)
    (files : List DirEntry) (h : ∀ f ∈ files, sel1 f = sel2 f) :
    ∀ w, loopW sel1 env thr memoDir files w = loopW sel2 env thr memoDir files w := by
  induction files with
  | nil => intro w; rfl
  | cons f files ih =>
    intro w
    simp only [loopW, h f (by simp)]
    exact ih (fun g hg => h g (by simp [hg])) _

/-! # The properties of the specification -/

/-- C1: on every timestamp name `FindStringSubmatch` matches, the three conversions
succeed and give the integers whose four-digit and two-digit numerals are the first four,
the next two and the next two characters of the name, and the extension is everything
after the dot; on every other name it does not match, and `archiveOldFiles` (either
variant) makes no call that names the path of such an entry and leaves the entry as it
is. -/
theorem classification (name : Str) (env : Env) (now : LocalTime) (memoDir ext : Str)
    (w : World) :
    (TimestampName name →
      FindStringSubmatch name =
        some [name, name.take 4, (name.drop 4).take 2, (name.drop 6).take 2, name.drop 15] ∧
      Atoi (name.take 4) = some (fileYear name) ∧
      Atoi ((name.drop 4).take 2) = some (fileMonth name) ∧
      Atoi ((name.drop 6).take 2) = some (fileDay name) ∧
      (0 ≤ fileYear name ∧ fmtZeroD 4 (fileYear name) = name.take 4) ∧
      (0 ≤ fileMonth name ∧ fmtZeroD 2 (fileMonth name) = (name.drop 4).take 2) ∧
      (0 ≤ fileDay name ∧ fmtZeroD 2 (fileDay name) = (name.drop 6).take 2)) ∧
    (¬ TimestampName name → NiceElem name →
      FindStringSubmatch name = none ∧
      (∀ c ∈ newCalls w (Cm.archiveOldFiles env now memoDir ext w).2,
        oldPathOf memoDir name ∉ c.paths) ∧
      (∀ x, w.nodeAt (oldPathOf memoDir name) = some x →
        (Cm.archiveOldFiles env now memoDir ext w).2.nodeAt (oldPathOf memoDir name) = some x) ∧
      (∀ c ∈ newCalls w (Root.archiveOldFiles env now memoDir ext w).2,
        oldPathOf memoDir name ∉ c.paths) ∧
      (∀ x, w.nodeAt (oldPathOf memoDir name) = some x →
        (Root.archiveOldFiles env now memoDir ext w).2.nodeAt (oldPathOf memoDir name) =
          some x)) := by
  constructor
  · intro hn
    obtain ⟨c1, c2, c3, c4, _, c6, c7, c8, c9, c10, c11⟩ := classify name hn
    simp only [idx, groupsOf, List.getD_cons_succ, List.getD_cons_zero] at c1 c2 c3 c4
    exact ⟨c1, c2, c3, c4, ⟨c6.1, c9⟩, ⟨c7.1, c10⟩, ⟨c8.1, c11⟩⟩
  · intro hne hnice
    rw [cm_archiveOldFiles_eq, root_archiveOldFiles_eq]
    obtain ⟨⟨e1, h1, h2⟩, h3⟩ := run_plain cmSel env now memoDir w name cmSel_timestamp hnice hne
    obtain ⟨⟨e2, g1, g2⟩, g3⟩ :=
      run_plain (rootSel ext) env now memoDir w name (rootSel_timestamp ext) hnice hne
    refine ⟨by rw [FindStringSubmatch_eq, if_neg hne], ?_, h3, ?_, g3⟩
    · rw [newCalls_append w _ e1 h1]; exact h2
    · rw [newCalls_append w _ e2 g1]; exact g2

/-- C2, as it holds: a non-empty regular file of the memo directory whose name is a
timestamp name and whose date at 00:00 UTC is strictly before now minus one calendar
month is, after `archiveOldFiles` of the `cm` variant, at
`<memoDir>/<YYYY>/<MM>/<name>` with its size and no longer at its path, whenever no
`MkdirAll` on that directory and no `Rename` of the file failed during the run; the root
variant does the same for the files whose extension is `ext`. -/
theorem archived_when_old (env : Env) (now : LocalTime) (memoDir ext : Str) (w : World)
    (name : Str) (size : Nat) (hrd : Readable env w memoDir) (hn : TimestampName name)
    (hfile : w.nodeAt (oldPathOf memoDir name) = some (Node.file size)) (hpos : 0 < size)
    (hold : (fileTime name).Before (now.AddDate 0 (-1) 0) = true) :
    (Call.mkdirAll (destDirOf memoDir name) false ∉
        newCalls w (Cm.archiveOldFiles env now memoDir ext w).2 →
      Call.rename (oldPathOf memoDir name) (destPathOf memoDir name) false ∉
        newCalls w (Cm.archiveOldFiles env now memoDir ext w).2 →
      (Cm.archiveOldFiles env now memoDir ext w).2.nodeAt (destPathOf memoDir name) =
          some (Node.file size) ∧
        (Cm.archiveOldFiles env now memoDir ext w).2.nodeAt (oldPathOf memoDir name) = none) ∧
    (fileExt name = ext →
      Call.mkdirAll (destDirOf memoDir name) false ∉
        newCalls w (Root.archiveOldFiles env now memoDir ext w).2 →
      Call.rename (oldPathOf memoDir name) (destPathOf memoDir name) false ∉
        newCalls w (Root.archiveOldFiles env now memoDir ext w).2 →
      (Root.archiveOldFiles env now memoDir ext w).2.nodeAt (destPathOf memoDir name) =
          some (Node.file size) ∧
        (Root.archiveOldFiles env now memoDir ext w).2.nodeAt (oldPathOf memoDir name) =
          none) := by
  rw [cm_archiveOldFiles_eq, root_archiveOldFiles_eq]
  constructor
  · intro hmk hrn
    exact moved_of_calls cmSel env now memoDir w name size cmSel_timestamp hrd hn
      (by simp [cmSel, hn]) hfile hpos hold hmk hrn
  · intro he hmk hrn
    exact moved_of_calls (rootSel ext) env now memoDir w name size (rootSel_timestamp ext) hrd hn
      (by simp [rootSel, cmSel, hn, he]) hfile hpos hold hmk hrn

/-- C3, as it holds: an empty regular file of the memo directory whose name is a
timestamp name, and on which `Stat` succeeds, receives from `archiveOldFiles` of the `cm`
variant exactly the calls `Stat` and `Remove`, whatever its date; when the `Remove`
succeeds the file is gone, and nothing appears at its `<YYYY>/<MM>/` destination.  The
root variant does the same for the files whose extension is `ext`. -/
theorem empty_file_deleted (env : Env) (now : LocalTime) (memoDir ext : Str) (w : World)
    (name : Str) (hrd : Readable env w memoDir) (hn : TimestampName name)
    (hfile : w.nodeAt (oldPathOf memoDir name) = some (Node.file 0))
    (hstat : env.statFails (oldPathOf memoDir name) = false) :
    (∃ ok, Segment memoDir name w (Cm.archiveOldFiles env now memoDir ext w).2
        [Call.stat (oldPathOf memoDir name) true, Call.remove (oldPathOf memoDir name) ok] ∧
      (ok = true →
        (Cm.archiveOldFiles env now memoDir ext w).2.nodeAt (oldPathOf memoDir name) = none) ∧
      (Cm.archiveOldFiles env now memoDir ext w).2.nodeAt (destPathOf memoDir name) =
        w.nodeAt (destPathOf memoDir name)) ∧
    (fileExt name = ext →
      ∃ ok, Segment memoDir name w (Root.archiveOldFiles env now memoDir ext w).2
        [Call.stat (oldPathOf memoDir name) true, Call.remove (oldPathOf memoDir name) ok] ∧
      (ok = true →
        (Root.archiveOldFiles env now memoDir ext w).2.nodeAt (oldPathOf memoDir name) = none) ∧
      (Root.archiveOldFiles env now memoDir ext w).2.nodeAt (destPathOf memoDir name) =
        w.nodeAt (destPathOf memoDir name)) := by
  rw [cm_archiveOldFiles_eq, root_archiveOldFiles_eq]
  constructor
  · exact deleted_of_empty cmSel env now memoDir w name cmSel_timestamp hrd hn
      (by simp [cmSel, hn]) hfile hstat
  · intro he
    exact deleted_of_empty (rootSel ext) env now memoDir w name (rootSel_timestamp ext) hrd hn
      (by simp [rootSel, cmSel, hn, he]) hfile hstat

/-- C4, as it holds: a non-empty regular file of the memo directory whose name is a
timestamp name and whose date at 00:00 UTC is not before the instant one calendar month
before now receives from `archiveOldFiles` of the `cm` variant the call `Stat` and no
other, stays at its path with its size, and nothing appears at its destination, whatever
fails.  The root variant does the same for the files whose extension is `ext`. -/
theorem recent_file_kept (env : Env) (now : LocalTime) (memoDir ext : Str) (w : World)
    (name : Str) (size : Nat) (hrd : Readable env w memoDir) (hn : TimestampName name)
    (hfile : w.nodeAt (oldPathOf memoDir name) = some (Node.file size)) (hpos : 0 < size)
    (hnew : (fileTime name).Before (now.AddDate 0 (-1) 0) = false) :
    (∃ ok, Segment memoDir name w (Cm.archiveOldFiles env now memoDir ext w).2
        [Call.stat (oldPathOf memoDir name) ok] ∧
      (Cm.archiveOldFiles env now memoDir ext w).2.nodeAt (oldPathOf memoDir name) =
        some (Node.file size) ∧
      (Cm.archiveOldFiles env now memoDir ext w).2.nodeAt (destPathOf memoDir name) =
        w.nodeAt (destPathOf memoDir name)) ∧
    (fileExt name = ext →
      ∃ ok, Segment memoDir name w (Root.archiveOldFiles env now memoDir ext w).2
        [Call.stat (oldPathOf memoDir name) ok] ∧
      (Root.archiveOldFiles env now memoDir ext w).2.nodeAt (oldPathOf memoDir name) =
        some (Node.file size) ∧
      (Root.archiveOldFiles env now memoDir ext w).2.nodeAt (destPathOf memoDir name) =
        w.nodeAt (destPathOf memoDir name)) := by
  rw [cm_archiveOldFiles_eq, root_archiveOldFiles_eq]
  constructor
  · exact kept_of_recent cmSel env now memoDir w name size cmSel_timestamp hrd hn
      (by simp [cmSel, hn]) hfile hpos hnew
  · intro he
    exact kept_of_recent (rootSel ext) env now memoDir w name size (rootSel_timestamp ext) hrd hn
      (by simp [rootSel, cmSel, hn, he]) hfile hpos hnew

/-- C5, as it holds for the `cm` variant: whatever calls fail, `archiveOldFiles` returns
no error once the directory is read.  For a regular file of the directory with a
timestamp name: when a `Remove`, `MkdirAll` or `Rename` made for it fails, the file stays
at its path and nothing appears at its destination; when `Stat` fails on it, no `Remove`
is made for it, and it is moved like a non-empty file when its date is before the
threshold and no other call for it fails; and when no failure is injected on its own
four calls, its two places end as in the run without any failure. -/
theorem failures_stay_local (env : Env) (now : LocalTime) (memoDir ext : Str) (w : World)
    (name : Str) (size : Nat) (hrd : Readable env w memoDir) (hn : TimestampName name)
    (hfile : w.nodeAt (oldPathOf memoDir name) = some (Node.file size)) :
    (Cm.archiveOldFiles env now memoDir ext w).1 = Outcome.returned none ∧
    (∃ seg, Segment memoDir name w (Cm.archiveOldFiles env now memoDir ext w).2 seg ∧
      ((∃ c ∈ seg, c.ok = false ∧ ∀ r, c ≠ Call.stat (oldPathOf memoDir name) r) →
        (Cm.archiveOldFiles env now memoDir ext w).2.nodeAt (oldPathOf memoDir name) =
            some (Node.file size) ∧
          (Cm.archiveOldFiles env now memoDir ext w).2.nodeAt (destPathOf memoDir name) =
            w.nodeAt (destPathOf memoDir name)) ∧
      (env.statFails (oldPathOf memoDir name) = true →
        (∀ r, Call.remove (oldPathOf memoDir name) r ∉ seg) ∧
        ((fileTime name).Before (now.AddDate 0 (-1) 0) = true →
          (∀ c ∈ seg, c.ok = false → ∃ r, c = Call.stat (oldPathOf memoDir name) r) →
          (Cm.archiveOldFiles env now memoDir ext w).2.nodeAt (oldPathOf memoDir name) = none ∧
            (Cm.archiveOldFiles env now memoDir ext w).2.nodeAt (destPathOf memoDir name) =
              some (Node.file size)))) ∧
    (env.statFails (oldPathOf memoDir name) = false →
      env.removeFails (oldPathOf memoDir name) = false →
      env.mkdirAllFails (destDirOf memoDir name) = false →
      env.renameFails (oldPathOf memoDir name) (destPathOf memoDir name) = false →
      (Cm.archiveOldFiles env now memoDir ext w).2.nodeAt (oldPathOf memoDir name) =
          (Cm.archiveOldFiles (Env.reliable env.home) now memoDir ext w).2.nodeAt
            (oldPathOf memoDir name) ∧
        (Cm.archiveOldFiles env now memoDir ext w).2.nodeAt (destPathOf memoDir name) =
          (Cm.archiveOldFiles (Env.reliable env.home) now memoDir ext w).2.nodeAt
            (destPathOf memoDir name)) := by
  obtain ⟨P, hres, _⟩ := readable_resolve env w memoDir hrd
  have hfile' := hfile
  rw [nodeAt_old _ _ _ _ hres (timestampName_nice name hn).1] at hfile'
  have hs : cmSel ⟨name, false⟩ = true := by simp [cmSel, hn]
  obtain ⟨h1, h3, h4⟩ :=
    run_entry cmSel env now memoDir w name size P hres cmSel_timestamp hrd hn hfile' hs
  have hrd' : Readable (Env.reliable env.home) w memoDir := ⟨rfl, hrd.2⟩
  obtain ⟨_, g3, g4⟩ := run_entry cmSel (Env.reliable env.home) now memoDir w name size P hres
    cmSel_timestamp hrd' hn hfile' hs
  have hread := (runW_readable cmSel env now memoDir w P hres hrd).1
  simp only [cm_archiveOldFiles_eq]
  refine ⟨by rw [hread]; rfl, ⟨_, h1, ?_, ?_⟩, ?_⟩
  · intro hfail
    rw [h3, h4, nodeAt_dest _ _ _ _ hres hn]
    unfold entryView at hfail ⊢
    rw [hfile'] at hfail ⊢
    exact stepView_failed _ _ _ _ _ _ _ _ _ _ _ hfail
  · intro hst
    rw [h3, h4]
    unfold entryView
    rw [hfile', hst]
    exact stepView_statFailed _ _ _ _ _ _ _ _ _ _
  · intro e1 e2 e3 e4
    rw [h3, h4, g3, g4, entryView_reliable env _ memoDir name P w e1 e2 e3 e4]
    exact ⟨rfl, rfl⟩

/-- C6, as it holds: for a valid clock reading in the years 0 to 9999 and an extension
of one or more word characters, `createNewMemo` calls `os.Create` on
`<memoDir>/<timestamp>.<ext>`, the timestamp being fourteen digits, and the classifier
accepts that name and returns the year, the month and the day of the clock reading and
the extension. -/
theorem new_memo_is_classified (env : Env) (now : LocalTime) (memoDir ext : Str) (w : World)
    (hv : now.Valid) (hy0 : 0 ≤ now.year) (hy1 : now.year ≤ 9999) (hne : ext ≠ [])
    (hw : ∀ c ∈ ext, isWord c = true) :
    (∃ ok, (createNewMemo env now memoDir ext w).2.calls =
      w.calls ++ [Call.create (filepathJoin [memoDir, now.Format ++ '.' :: ext]) ok]) ∧
    now.Format.length = 14 ∧ (∀ c ∈ now.Format, isDigit c = true) ∧
    FindStringSubmatch (now.Format ++ '.' :: ext) =
      some (groupsOf (now.Format ++ '.' :: ext)) ∧
    Atoi (idx (groupsOf (now.Format ++ '.' :: ext)) 1) = some now.year ∧
    Atoi (idx (groupsOf (now.Format ++ '.' :: ext)) 2) = some now.month ∧
    Atoi (idx (groupsOf (now.Format ++ '.' :: ext)) 3) = some now.day ∧
    idx (groupsOf (now.Format ++ '.' :: ext)) 4 = ext := by
  have hn := new_name_timestamp now ext hv hy0 hy1 hne hw
  obtain ⟨c1, c2, c3, c4, c5, _⟩ := classify _ hn
  obtain ⟨e1, e2, e3, e4⟩ := new_name_date now ext hv hy0 hy1
  refine ⟨?_, ?_, ?_, c1, by rw [c2, e1], by rw [c3, e2], by rw [c4, e3], by rw [c5, e4]⟩
  · refine ⟨(osCreate env w (filepathJoin [memoDir, now.Format ++ '.' :: ext])).1, ?_⟩
    have := osCreate_calls env w (filepathJoin [memoDir, now.Format ++ '.' :: ext])
    unfold createNewMemo
    simp only
    cases h : osCreate env w (filepathJoin [memoDir, now.Format ++ '.' :: ext]) with
    | mk b w1 =>
      rw [h] at this
      cases b <;> exact this
  · rw [Format_eq now hv hy0 hy1]; rfl
  · rw [Format_eq now hv hy0 hy1]
    intro c hc
    simp only [List.mem_cons, List.not_mem_nil, or_false] at hc
    rcases hc with hc | hc | hc | hc | hc | hc | hc | hc | hc | hc | hc | hc | hc | hc <;>
      (rw [hc]; exact isDigit_digitChar _)

/-- C7, as it holds: the tool run twice, every call of both runs succeeding, seen from a
regular file of the memo directory with a timestamp name whose date is before the
threshold of the first run.  The first run ends normally and makes for the file exactly
`Stat` and `Remove` (an empty file) or `Stat`, `MkdirAll` and `Rename` (a non-empty file);
afterwards the file is no longer at its path and, when it was not empty, it is at
`<YYYY>/<MM>/<name>`.  The second run ends normally, makes no call that names the path or
the destination of the file, and leaves both places as the first run left them.  The
extension holds no path separator; the clock readings are valid, the offsets of the
location of the first run are of less than a day, and the memos are created at or after
the first run time. -/
theorem second_run_does_nothing_more (env : Env) (now1 later1 now2 later2 : LocalTime)
    (path ext memoDir : Str) (w : World) (name : Str) (size : Nat)
    (hexp : Cm.expandPath env path = Result.ok memoDir)
    (hv : now1.Valid) (hz : now1.loc.Bounded) (hl1 : later1.Valid) (hl2 : later2.Valid)
    (ht1 : Time.le now1.toTime later1.toTime) (ht2 : Time.le now1.toTime later2.toTime)
    (hext : '/' ∉ ext) (hn : TimestampName name)
    (hfile : w.nodeAt (oldPathOf memoDir name) = some (Node.file size))
    (hold : (fileTime name).Before (now1.AddDate 0 (-1) 0) = true)
    (hok1 : ∀ c ∈ newCalls w (Cm.main env now1 later1 path ext w).2, c.ok = true)
    (hok2 : ∀ c ∈ newCalls (Cm.main env now1 later1 path ext w).2
      (Cm.main env now2 later2 path ext (Cm.main env now1 later1 path ext w).2).2, c.ok = true) :
    ((Cm.main env now1 later1 path ext w).1 = Exit.done ∧
      Segment memoDir name w (Cm.main env now1 later1 path ext w).2
        (if size = 0 then
          [Call.stat (oldPathOf memoDir name) true, Call.remove (oldPathOf memoDir name) true]
        else
          [Call.stat (oldPathOf memoDir name) true, Call.mkdirAll (destDirOf memoDir name) true,
            Call.rename (oldPathOf memoDir name) (destPathOf memoDir name) true]) ∧
      (Cm.main env now1 later1 path ext w).2.nodeAt (oldPathOf memoDir name) = none ∧
      (Cm.main env now1 later1 path ext w).2.nodeAt (destPathOf memoDir name) =
        (if size = 0 then w.nodeAt (destPathOf memoDir name) else some (Node.file size))) ∧
    ((Cm.main env now2 later2 path ext (Cm.main env now1 later1 path ext w).2).1 = Exit.done ∧
      Segment memoDir name (Cm.main env now1 later1 path ext w).2
        (Cm.main env now2 later2 path ext (Cm.main env now1 later1 path ext w).2).2 [] ∧
      (Cm.main env now2 later2 path ext (Cm.main env now1 later1 path ext w).2).2.nodeAt
        (oldPathOf memoDir name) = none ∧
      (Cm.main env now2 later2 path ext (Cm.main env now1 later1 path ext w).2).2.nodeAt
        (destPathOf memoDir name) =
        (Cm.main env now1 later1 path ext w).2.nodeAt (destPathOf memoDir name)) := by
  have hnice := (timestampName_nice name hn).1
  have first := main_entry env now1 later1 path ext memoDir w name
    (if size = 0 then
      [Call.stat (oldPathOf memoDir name) true, Call.remove (oldPathOf memoDir name) true]
    else
      [Call.stat (oldPathOf memoDir name) true, Call.mkdirAll (destDirOf memoDir name) true,
        Call.rename (oldPathOf memoDir name) (destPathOf memoDir name) true])
    none (if size = 0 then w.nodeAt (destPathOf memoDir name) else some (Node.file size))
    hexp hok1 hn (new_name_nice later1 ext hl1 hext)
    (new_name_ne now1 later1 ext name hv hz hl1 ht1 hn hold) (by
      intro P w1 hres hrd g1 g2 hokmid
      rw [nodeAt_old _ _ _ _ hres hnice] at hfile
      have hfile1 : w1.fs.get (oldR P name) = some (Node.file size) := by rw [g1, hfile]
      obtain ⟨s1, s3, s4⟩ := run_entry cmSel env now1 memoDir w1 name size P hres
        cmSel_timestamp hrd hn hfile1 (by simp [cmSel, hn])
      have hall : ∀ c ∈ (entryView env (now1.AddDate 0 (-1) 0) memoDir name P w1).2.2,
          c.ok = true := by
        intro c hc
        obtain ⟨pre, post, e, _⟩ := Segment.newCalls _ _ _ _ _ s1
        apply hokmid c
        rw [e]
        simp [hc]
      have hv' : entryView env (now1.AddDate 0 (-1) 0) memoDir name P w1 =
          (none, if size = 0 then w1.fs.get (destR P name) else some (Node.file size),
            if size = 0 then
              [Call.stat (oldPathOf memoDir name) true, Call.remove (oldPathOf memoDir name) true]
            else
              [Call.stat (oldPathOf memoDir name) true,
                Call.mkdirAll (destDirOf memoDir name) true,
                Call.rename (oldPathOf memoDir name) (destPathOf memoDir name) true]) := by
        unfold entryView at hall ⊢
        rw [hfile1, hold] at hall ⊢
        exact stepView_all_ok _ _ _ _ _ _ _ _ _ _ hall
      rw [hv'] at s1 s3 s4
      refine ⟨s1, s3, ?_⟩
      rw [s4, g2, nodeAt_dest _ _ _ _ hres hn])
  refine ⟨first, ?_⟩
  obtain ⟨_, _, f3, _⟩ := first
  have second := main_entry env now2 later2 path ext memoDir (Cm.main env now1 later1 path ext w).2
    name [] none ((Cm.main env now1 later1 path ext w).2.nodeAt (destPathOf memoDir name))
    hexp hok2 hn (new_name_nice later2 ext hl2 hext)
    (new_name_ne now1 later2 ext name hv hz hl2 ht2 hn hold) (by
      intro P w1 hres hrd g1 g2 _
      rw [nodeAt_old _ _ _ _ hres hnice] at f3
      have hnone : w1.fs.get (oldR P name) = none := by rw [g1, f3]
      obtain ⟨s1, s3, s4⟩ := run_missing cmSel env now2 memoDir w1 name P hres
        cmSel_timestamp hrd hn hnone
      refine ⟨s1, ?_, ?_⟩
      · rw [s3, nodeAt_old _ _ _ _ hres hnice, hnone]
      · rw [s4, nodeAt_dest _ _ _ _ hres hn, nodeAt_dest _ _ _ _ hres hn, g2])
  exact second

/-- C8: the two variants of `archiveOldFiles` differ by the extension filter only.  The
`cm` variant does not depend on `ext`; the root variant makes no call for a timestamp
file with another extension and leaves it as it is; a timestamp file with the extension
`ext` receives the same calls and ends at the same places in both variants; and the two
variants return the same outcome and leave the same world whenever every file of the
directory listing with a timestamp name has the extension `ext`. -/
theorem variants_differ_by_filter (env : Env) (now : LocalTime) (memoDir ext : Str)
    (w : World) :
    (∀ ext', Cm.archiveOldFiles env now memoDir ext' w =
      Cm.archiveOldFiles env now memoDir ext w) ∧
    (∀ name, Readable env w memoDir → TimestampName name → fileExt name ≠ ext →
      Segment memoDir name w (Root.archiveOldFiles env now memoDir ext w).2 [] ∧
      (Root.archiveOldFiles env now memoDir ext w).2.nodeAt (oldPathOf memoDir name) =
        w.nodeAt (oldPathOf memoDir name) ∧
      (Root.archiveOldFiles env now memoDir ext w).2.nodeAt (destPathOf memoDir name) =
        w.nodeAt (destPathOf memoDir name)) ∧
    (∀ name size, Readable env w memoDir → TimestampName name →
      w.nodeAt (oldPathOf memoDir name) = some (Node.file size) → fileExt name = ext →
      (∃ seg, Segment memoDir name w (Root.archiveOldFiles env now memoDir ext w).2 seg ∧
        Segment memoDir name w (Cm.archiveOldFiles env now memoDir ext w).2 seg) ∧
      (Root.archiveOldFiles env now memoDir ext w).2.nodeAt (oldPathOf memoDir name) =
        (Cm.archiveOldFiles env now memoDir ext w).2.nodeAt (oldPathOf memoDir name) ∧
      (Root.archiveOldFiles env now memoDir ext w).2.nodeAt (destPathOf memoDir name) =
        (Cm.archiveOldFiles env now memoDir ext w).2.nodeAt (destPathOf memoDir name)) ∧
    ((∀ f ∈ listing env w memoDir, f.isDir = false → TimestampName f.name →
        fileExt f.name = ext) →
      Root.archiveOldFiles env now memoDir ext w = Cm.archiveOldFiles env now memoDir ext w) := by
  refine ⟨fun _ => rfl, ?_, ?_, ?_⟩
  · intro name hrd hn he
    obtain ⟨P, hres, _⟩ := readable_resolve env w memoDir hrd
    rw [root_archiveOldFiles_eq]
    refine run_absent (rootSel ext) env now memoDir w name P hres (rootSel_timestamp ext) hrd hn ?_
    intro g _ hg e
    simp only [rootSel, Bool.and_eq_true, decide_eq_true_eq] at hg
    rw [e] at hg
    exact he hg.2
  · intro name size hrd hn hfile he
    obtain ⟨P, hres, _⟩ := readable_resolve env w memoDir hrd
    rw [nodeAt_old _ _ _ _ hres (timestampName_nice name hn).1] at hfile
    rw [root_archiveOldFiles_eq, cm_archiveOldFiles_eq]
    obtain ⟨h1, h3, h4⟩ := run_entry (rootSel ext) env now memoDir w name size P hres
      (rootSel_timestamp ext) hrd hn hfile (by simp [rootSel, cmSel, hn, he])
    obtain ⟨g1, g3, g4⟩ := run_entry cmSel env now memoDir w name size P hres
      cmSel_timestamp hrd hn hfile (by simp [cmSel, hn])
    exact ⟨⟨_, h1, g1⟩, by rw [h3, g3], by rw [h4, g4]⟩
  · intro hall
    rw [root_archiveOldFiles_eq, cm_archiveOldFiles_eq]
    congr 1
    unfold listing at hall
    unfold runW
    cases hr : osReadDir env w memoDir with
    | mk r w1 =>
      cases r with
      | none => rfl
      | some files =>
        rw [hr] at hall
        simp only [Option.getD_some] at hall
        simp only
        apply loopW_congr
        intro f hf
        by_cases hc : cmSel f = true
        · have hn := cmSel_timestamp f hc
          simp only [cmSel, Bool.and_eq_true, Bool.not_eq_true', decide_eq_true_eq] at hc
          have := hall f hf hc.1 hn
          simp [rootSel, cmSel, hc.1, hn, this]
        · simp only [Bool.not_eq_true] at hc
          simp [rootSel, hc]

/-- C9, as it holds: for two run times read in one location whose offset from UTC never
changes, the first not after the second, every instant that is before the threshold of
the first run is before the threshold of the second, provided the day of the month of the
first run exists in the month before it (as every day up to the 28th does). -/
theorem threshold_monotone (now1 now2 : LocalTime) (t : Time) (h1 : now1.Valid)
    (h2 : now2.Valid) (hloc : now1.loc = now2.loc) (hfix : now1.loc.Fixed now1.offset)
    (hoff : now1.offset = now2.offset)
    (hle : Time.le now1.toTime now2.toTime) (hday : now1.day ≤ prevMonthLength now1)
    (hb : t.Before (now1.AddDate 0 (-1) 0) = true) :
    t.Before (now2.AddDate 0 (-1) 0) = true := by
  have hfix2 : now2.loc.Fixed now2.offset := by rw [← hloc, ← hoff]; exact hfix
  apply Time.before_trans_le t _ _ hb
  rw [threshold_eq now1 h1, threshold_eq now2 h2, pickOffset_fixed _ _ _ hfix,
    pickOffset_fixed _ _ _ hfix2]
  unfold Time.le at hle
  rw [toTime_eq now1 h1, toTime_eq now2 h2] at hle
  simp only [Time.Before, Bool.or_eq_false_iff, decide_eq_false_iff_not, Bool.and_eq_false_imp,
    decide_eq_true_eq] at hle
  have p1 := prevStart_add now1 h1.1 h1.2.1
  have p2 := prevStart_add now2 h2.1 h2.2.1
  obtain ⟨a1, a2, a3, a4, a5, a6, a7, a8, a9, a10, a11, a12, _, _⟩ := h1
  obtain ⟨b1, b2, b3, b4, b5, b6, b7, b8, b9, b10, b11, b12, _, _⟩ := h2
  simp only
  rcases lt_trichotomy now1.year now2.year with hy | hy | hy
  · have k := monthStart_mono now1.year now1.month now2.year now2.month a1 a2 b1 b2 (Or.inl hy)
    have k2 := prevStart_ge now2 now1.year now1.month b1 b2 a1 a2 (Or.inl hy)
    left
    omega
  · rcases lt_trichotomy now1.month now2.month with hm | hm | hm
    · have k2 := prevStart_ge now2 now1.year now1.month b1 b2 a1 a2 (Or.inr ⟨hy, hm⟩)
      left
      omega
    · have e : prevStart now1 = prevStart now2 := by
        unfold prevStart; rw [hy, hm]
      rw [hy, hm] at hle
      rw [e]
      omega
    · exfalso
      have k := monthStart_mono now2.year now2.month now1.year now1.month b1 b2 a1 a2
        (Or.inr ⟨hy.symm, hm⟩)
      omega
  · exfalso
    have k := monthStart_mono now2.year now2.month now1.year now1.month b1 b2 a1 a2 (Or.inl hy)
    omega

/-- C10, at the failing inputs: on the paths `.`, `/` and the empty path, `expandPath`
of the `cm` variant panics at the slice `path[:2]`. -/
theorem expandPath_short_path_panics (env : Env) :
    Cm.expandPath env ".".toList = Result.panic ∧ Cm.expandPath env "/".toList = Result.panic ∧
      Cm.expandPath env [] = Result.panic := by
  refine ⟨?_, ?_, ?_⟩ <;> rfl

/-! ## Runs that differ from the specification -/

/-- C2, a run that differs: on the run of 2025-06-01 with the target extension `md`, the
root variant leaves the non-empty file `20240103120000.txt`, dated before the threshold,
at its path and puts nothing at `2024/01/20240103120000.txt`, although no call fails. -/
theorem root_keeps_old_file_of_other_extension :
    Readable demoEnv demoWorld demoDir ∧
    TimestampName "20240103120000.txt".toList ∧
    demoWorld.nodeAt "/memo/20240103120000.txt".toList = some (Node.file 2) ∧
    (fileTime "20240103120000.txt".toList).Before (demoNow.AddDate 0 (-1) 0) = true ∧
    (Root.archiveOldFiles demoEnv demoNow demoDir "md".toList demoWorld).1 =
      Outcome.returned none ∧
    (∀ c ∈ newCalls demoWorld
        (Root.archiveOldFiles demoEnv demoNow demoDir "md".toList demoWorld).2, c.ok = true) ∧
    (Root.archiveOldFiles demoEnv demoNow demoDir "md".toList demoWorld).2.nodeAt
      "/memo/2024/01/20240103120000.txt".toList = none ∧
    (Root.archiveOldFiles demoEnv demoNow demoDir "md".toList demoWorld).2.nodeAt
      "/memo/20240103120000.txt".toList = some (Node.file 2) := by
  decide

/-- C3, two runs that differ: with the target extension `md` the root variant leaves the
empty file `20240104120000.txt` in place although no call fails; and when `os.Stat`
fails on the empty file `20240102120000.md`, the `cm` variant makes the directory
`2024/01` and renames the file into it. -/
theorem empty_file_kept_or_moved :
    (demoWorld.nodeAt "/memo/20240104120000.txt".toList = some (Node.file 0) ∧
      (∀ c ∈ newCalls demoWorld
        (Root.archiveOldFiles demoEnv demoNow demoDir "md".toList demoWorld).2, c.ok = true) ∧
      (Root.archiveOldFiles demoEnv demoNow demoDir "md".toList demoWorld).2.nodeAt
        "/memo/20240104120000.txt".toList = some (Node.file 0)) ∧
    (demoWorld.nodeAt "/memo/20240102120000.md".toList = some (Node.file 0) ∧
      demoStatEnv.removeFails "/memo/20240102120000.md".toList = false ∧
      Call.mkdirAll "/memo/2024/01".toList true ∈ newCalls demoWorld
        (Cm.archiveOldFiles demoStatEnv demoNow demoDir "md".toList demoWorld).2 ∧
      Call.rename "/memo/20240102120000.md".toList "/memo/2024/01/20240102120000.md".toList
        true ∈ newCalls demoWorld
          (Cm.archiveOldFiles demoStatEnv demoNow demoDir "md".toList demoWorld).2 ∧
      (Cm.archiveOldFiles demoStatEnv demoNow demoDir "md".toList demoWorld).2.nodeAt
        "/memo/2024/01/20240102120000.md".toList = some (Node.file 0)) := by
  decide

/-- C4, a run that differs: on the run of 2025-06-01 12:00:00 UTC the non-empty file
`20250501120000.md` encodes the calendar day of the threshold, 2025-05-01, and the `cm`
variant moves it to `2025/05/20250501120000.md`. -/
theorem file_dated_on_threshold_day_is_moved :
    demoWorld.nodeAt "/memo/20250501120000.md".toList = some (Node.file 7) ∧
    (fileTime "20250501120000.md".toList).utcDay = (demoNow.AddDate 0 (-1) 0).utcDay ∧
    demoNow.AddDate 0 (-1) 0 = Date 2025 5 1 12 0 0 0 UTC ∧
    (Cm.archiveOldFiles demoEnv demoNow demoDir "md".toList demoWorld).2.nodeAt
      "/memo/20250501120000.md".toList = none ∧
    (Cm.archiveOldFiles demoEnv demoNow demoDir "md".toList demoWorld).2.nodeAt
      "/memo/2025/05/20250501120000.md".toList = some (Node.file 7) := by
  decide

/-- C5, a run that differs: when `os.Stat` fails on the non-empty old file
`20240101120000.md` and no other call fails, the `cm` variant does not skip the file but
moves it to `2024/01/20240101120000.md`. -/
theorem file_moved_after_failed_stat :
    demoWorld.nodeAt "/memo/20240101120000.md".toList = some (Node.file 5) ∧
    Call.stat "/memo/20240101120000.md".toList false ∈ newCalls demoWorld
      (Cm.archiveOldFiles demoStatEnvOld demoNow demoDir "md".toList demoWorld).2 ∧
    (Cm.archiveOldFiles demoStatEnvOld demoNow demoDir "md".toList demoWorld).2.nodeAt
      "/memo/20240101120000.md".toList = none ∧
    (Cm.archiveOldFiles demoStatEnvOld demoNow demoDir "md".toList demoWorld).2.nodeAt
      "/memo/2024/01/20240101120000.md".toList = some (Node.file 5) := by
  decide

/-- C6, names that differ: with the extension `tar.gz`, and with the empty extension,
`createNewMemo` on 2025-06-01 12:00:00 creates a file whose name the classifier rejects;
and in the year 10000 the timestamp has fifteen digits and the name is rejected too. -/
theorem new_memo_name_rejected :
    (createNewMemo demoEnv demoNow demoDir "tar.gz".toList demoWorld).2.calls =
      [Call.create "/memo/20250601120000.tar.gz".toList true] ∧
    FindStringSubmatch "20250601120000.tar.gz".toList = none ∧
    (createNewMemo demoEnv demoNow demoDir [] demoWorld).2.calls =
      [Call.create "/memo/20250601120000.".toList true] ∧
    FindStringSubmatch "20250601120000.".toList = none ∧
    LocalTime.Valid ⟨10000, 6, 1, 12, 0, 0, 0, 0, UTC⟩ ∧
    LocalTime.Format ⟨10000, 6, 1, 12, 0, 0, 0, 0, UTC⟩ = "100000601120000".toList ∧
    FindStringSubmatch "100000601120000.md".toList = none := by
  decide

/-- C7, two runs that differ: with the extension `/../20240101120000.md`, which holds
path separators, `filepath.Join` puts the new memo of the first run at the path
`/memo/20240101120000.md` the old file was moved away from; the second run, every call
of both runs succeeding, calls `Stat` and `Remove` on that path again. -/
theorem separator_in_extension_reuses_old_path :
    Cm.expandPath demoEnv "/memo".toList = Result.ok demoDir ∧
    demoNow.Valid ∧ demoLater.Valid ∧ demoLater2.Valid ∧ demoNow.loc.Fixed 0 ∧
    Time.le demoNow.toTime demoLater.toTime ∧ Time.le demoNow.toTime demoLater2.toTime ∧
    TimestampName "20240101120000.md".toList ∧
    demoWorld.nodeAt "/memo/20240101120000.md".toList = some (Node.file 5) ∧
    (fileTime "20240101120000.md".toList).Before (demoNow.AddDate 0 (-1) 0) = true ∧
    (∀ c ∈ newCalls demoWorld
      (Cm.main demoEnv demoNow demoLater "/memo".toList demoExtBack demoWorld).2,
      c.ok = true) ∧
    (∀ c ∈ newCalls (Cm.main demoEnv demoNow demoLater "/memo".toList demoExtBack demoWorld).2
      (Cm.main demoEnv demoNow2 demoLater2 "/memo".toList demoExtBack
        (Cm.main demoEnv demoNow demoLater "/memo".toList demoExtBack demoWorld).2).2,
      c.ok = true) ∧
    Call.create "/memo/20240101120000.md".toList true ∈ newCalls demoWorld
      (Cm.main demoEnv demoNow demoLater "/memo".toList demoExtBack demoWorld).2 ∧
    (Cm.main demoEnv demoNow demoLater "/memo".toList demoExtBack demoWorld).2.nodeAt
      "/memo/2024/01/20240101120000.md".toList = some (Node.file 5) ∧
    (Cm.main demoEnv demoNow demoLater "/memo".toList demoExtBack demoWorld).2.nodeAt
      "/memo/20240101120000.md".toList = some (Node.file 0) ∧
    Call.stat "/memo/20240101120000.md".toList true ∈
      newCalls (Cm.main demoEnv demoNow demoLater "/memo".toList demoExtBack demoWorld).2
        (Cm.main demoEnv demoNow2 demoLater2 "/memo".toList demoExtBack
          (Cm.main demoEnv demoNow demoLater "/memo".toList demoExtBack demoWorld).2).2 ∧
    Call.remove "/memo/20240101120000.md".toList true ∈
      newCalls (Cm.main demoEnv demoNow demoLater "/memo".toList demoExtBack demoWorld).2
        (Cm.main demoEnv demoNow2 demoLater2 "/memo".toList demoExtBack
          (Cm.main demoEnv demoNow demoLater "/memo".toList demoExtBack demoWorld).2).2 :=
  ⟨by decide, by decide, by decide, by decide, utc_fixed, by decide, by decide, by decide,
    by decide, by decide, by decide, by decide, by decide, by decide, by decide, by decide⟩

/-- C9, run times that differ.  In UTC: the date 2025-03-02 is before the threshold of
the run of 2025-03-31 12:00:00, which `AddDate(0, -1, 0)` puts at 2025-03-03 12:00:00,
and it is not before the threshold of the later run of 2025-04-01 12:00:00, which is
2025-03-01 12:00:00.  In a location that changes its offset at 2025-03-28 00:00:00 UTC:
the date 2025-03-28 is before the threshold 1743121800 of the run of 2025-04-28 02:30:00
and not before the threshold 1743120000 of the run of 03:00:00 of the same day, the 28th
of the month. -/
theorem eligibility_lost_on_later_run :
    (marchEnd.Valid ∧ aprilStart.Valid ∧ marchEnd.loc.Fixed 0 ∧
      Time.le marchEnd.toTime aprilStart.toTime ∧
      marchEnd.AddDate 0 (-1) 0 = Date 2025 3 3 12 0 0 0 UTC ∧
      aprilStart.AddDate 0 (-1) 0 = Date 2025 3 1 12 0 0 0 UTC ∧
      (fileTime "20250302120000.md".toList).Before (marchEnd.AddDate 0 (-1) 0) = true ∧
      (fileTime "20250302120000.md".toList).Before (aprilStart.AddDate 0 (-1) 0) = false) ∧
    (aprilNight.Valid ∧ aprilNightLater.Valid ∧
      (springForward.lookup aprilNight.toTime.sec).offset = aprilNight.offset ∧
      (springForward.lookup aprilNightLater.toTime.sec).offset = aprilNightLater.offset ∧
      Time.le aprilNight.toTime aprilNightLater.toTime ∧
      aprilNight.day ≤ prevMonthLength aprilNight ∧
      aprilNight.AddDate 0 (-1) 0 = ⟨1743121800, 0⟩ ∧
      aprilNightLater.AddDate 0 (-1) 0 = ⟨1743120000, 0⟩ ∧
      (fileTime "20250328120000.md".toList).Before (aprilNight.AddDate 0 (-1) 0) = true ∧
      (fileTime "20250328120000.md".toList).Before (aprilNightLater.AddDate 0 (-1) 0) =
        false) :=
  ⟨⟨by decide, by decide, utc_fixed, by decide, by decide, by decide, by decide, by decide⟩,
    by decide⟩

/-! ## The theorems at concrete inputs -/

/-- The theorem `classification` at the names `20240101120000.md` and `notanote.txt` of
the directory of the examples. -/
theorem classification_witness :
    (TimestampName "20240101120000.md".toList ∧
      FindStringSubmatch "20240101120000.md".toList =
        some ["20240101120000.md".toList, "2024".toList, "01".toList, "01".toList,
          "md".toList] ∧
      Atoi "2024".toList = some 2024 ∧ Atoi "01".toList = some 1) ∧
    (¬ TimestampName "notanote.txt".toList ∧
      FindStringSubmatch "notanote.txt".toList = none ∧
      (Cm.archiveOldFiles demoEnv demoNow demoDir "md".toList demoWorld).2.nodeAt
        "/memo/notanote.txt".toList = some (Node.file 3)) :=
  ⟨⟨by decide,
    ((classification "20240101120000.md".toList demoEnv demoNow demoDir "md".toList
      demoWorld).1 (by decide)).1,
    ((classification "20240101120000.md".toList demoEnv demoNow demoDir "md".toList
      demoWorld).1 (by decide)).2.1,
    ((classification "20240101120000.md".toList demoEnv demoNow demoDir "md".toList
      demoWorld).1 (by decide)).2.2.1⟩,
   ⟨by decide,
    ((classification "notanote.txt".toList demoEnv demoNow demoDir "md".toList
      demoWorld).2 (by decide) (by decide)).1,
    ((classification "notanote.txt".toList demoEnv demoNow demoDir "md".toList
      demoWorld).2 (by decide) (by decide)).2.2.1 (Node.file 3) (by decide)⟩⟩

/-- The theorem `archived_when_old` on the run of 2025-06-01 at the file
`20240101120000.md` of 5 bytes: both variants leave it at
`/memo/2024/01/20240101120000.md` and not at its path. -/
theorem archived_when_old_witness :
    ((Cm.archiveOldFiles demoEnv demoNow demoDir "md".toList demoWorld).2.nodeAt
        "/memo/2024/01/20240101120000.md".toList = some (Node.file 5) ∧
      (Cm.archiveOldFiles demoEnv demoNow demoDir "md".toList demoWorld).2.nodeAt
        "/memo/20240101120000.md".toList = none) ∧
    ((Root.archiveOldFiles demoEnv demoNow demoDir "md".toList demoWorld).2.nodeAt
        "/memo/2024/01/20240101120000.md".toList = some (Node.file 5) ∧
      (Root.archiveOldFiles demoEnv demoNow demoDir "md".toList demoWorld).2.nodeAt
        "/memo/20240101120000.md".toList = none) :=
  ⟨(archived_when_old demoEnv demoNow demoDir "md".toList demoWorld
      "20240101120000.md".toList 5 (by decide) (by decide) (by decide) (by decide)
      (by decide)).1 (by decide) (by decide),
   (archived_when_old demoEnv demoNow demoDir "md".toList demoWorld
      "20240101120000.md".toList 5 (by decide) (by decide) (by decide) (by decide)
      (by decide)).2 (by decide) (by decide) (by decide)⟩

/-- The theorem `empty_file_deleted` on the run of 2025-06-01 at the empty file
`20240102120000.md`. -/
theorem empty_file_deleted_witness :
    ∃ ok, Segment demoDir "20240102120000.md".toList demoWorld
        (Cm.archiveOldFiles demoEnv demoNow demoDir "md".toList demoWorld).2
        [Call.stat "/memo/20240102120000.md".toList true,
          Call.remove "/memo/20240102120000.md".toList ok] ∧
      (ok = true →
        (Cm.archiveOldFiles demoEnv demoNow demoDir "md".toList demoWorld).2.nodeAt
          "/memo/20240102120000.md".toList = none) ∧
      (Cm.archiveOldFiles demoEnv demoNow demoDir "md".toList demoWorld).2.nodeAt
        "/memo/2024/01/20240102120000.md".toList =
        demoWorld.nodeAt "/memo/2024/01/20240102120000.md".toList :=
  (empty_file_deleted demoEnv demoNow demoDir "md".toList demoWorld
    "20240102120000.md".toList (by decide) (by decide) (by decide) (by decide)).1

/-- The theorem `recent_file_kept` on the run of 2025-06-01 at the file
`20250525120000.md` of 4 bytes. -/
theorem recent_file_kept_witness :
    ∃ ok, Segment demoDir "20250525120000.md".toList demoWorld
        (Cm.archiveOldFiles demoEnv demoNow demoDir "md".toList demoWorld).2
        [Call.stat "/memo/20250525120000.md".toList ok] ∧
      (Cm.archiveOldFiles demoEnv demoNow demoDir "md".toList demoWorld).2.nodeAt
        "/memo/20250525120000.md".toList = some (Node.file 4) ∧
      (Cm.archiveOldFiles demoEnv demoNow demoDir "md".toList demoWorld).2.nodeAt
        "/memo/2025/05/20250525120000.md".toList =
        demoWorld.nodeAt "/memo/2025/05/20250525120000.md".toList :=
  (recent_file_kept demoEnv demoNow demoDir "md".toList demoWorld
    "20250525120000.md".toList 4 (by decide) (by decide) (by decide) (by decide)
    (by decide)).1

/-- The theorem `failures_stay_local` on the run of 2025-06-01 in which `os.Rename` of
`20240101120000.md` fails: the run returns no error. -/
theorem failures_stay_local_witness :
    Readable demoRenameEnv demoWorld demoDir ∧
    demoRenameEnv.renameFails "/memo/20240101120000.md".toList
      "/memo/2024/01/20240101120000.md".toList = true ∧
    (Cm.archiveOldFiles demoRenameEnv demoNow demoDir "md".toList demoWorld).1 =
      Outcome.returned none :=
  ⟨by decide, by decide,
   (failures_stay_local demoRenameEnv demoNow demoDir "md".toList demoWorld
    "20240101120000.md".toList 5 (by decide) (by decide) (by decide)).1⟩

/-- The theorem `new_memo_is_classified` at 2025-06-01 12:00:00 UTC and the extension
`md`. -/
theorem new_memo_is_classified_witness :
    demoNow.Format = "20250601120000".toList ∧
    FindStringSubmatch "20250601120000.md".toList =
      some (groupsOf "20250601120000.md".toList) ∧
    Atoi "2025".toList = some 2025 ∧ Atoi "06".toList = some 6 ∧
    Atoi "01".toList = some 1 :=
  ⟨by decide,
   (new_memo_is_classified demoEnv demoNow demoDir "md".toList demoWorld (by decide)
    (by decide) (by decide) (by decide) (by decide)).2.2.2.1,
   (new_memo_is_classified demoEnv demoNow demoDir "md".toList demoWorld (by decide)
    (by decide) (by decide) (by decide) (by decide)).2.2.2.2.1,
   (new_memo_is_classified demoEnv demoNow demoDir "md".toList demoWorld (by decide)
    (by decide) (by decide) (by decide) (by decide)).2.2.2.2.2.1,
   (new_memo_is_classified demoEnv demoNow demoDir "md".toList demoWorld (by decide)
    (by decide) (by decide) (by decide) (by decide)).2.2.2.2.2.2.1⟩

/-- The theorem `second_run_does_nothing_more` at two runs of the `cm` variant on the
directory of the examples, at 12:00:00 and 12:00:02 of 2025-06-01, for the file
`20240101120000.md` of 5 bytes. -/
theorem second_run_does_nothing_more_witness :
    (Cm.main demoEnv demoNow demoLater "/memo".toList "md".toList demoWorld).2.nodeAt
      "/memo/2024/01/20240101120000.md".toList = some (Node.file 5) ∧
    (Cm.main demoEnv demoNow2 demoLater2 "/memo".toList "md".toList
      (Cm.main demoEnv demoNow demoLater "/memo".toList "md".toList demoWorld).2).2.nodeAt
      "/memo/20240101120000.md".toList = none ∧
    (Cm.main demoEnv demoNow2 demoLater2 "/memo".toList "md".toList
      (Cm.main demoEnv demoNow demoLater "/memo".toList "md".toList demoWorld).2).2.nodeAt
      "/memo/2024/01/20240101120000.md".toList =
      (Cm.main demoEnv demoNow demoLater "/memo".toList "md".toList demoWorld).2.nodeAt
        "/memo/2024/01/20240101120000.md".toList :=
  ⟨(second_run_does_nothing_more demoEnv demoNow demoLater demoNow2 demoLater2
      "/memo".toList "md".toList demoDir demoWorld "20240101120000.md".toList 5
      (by decide) (by decide) utc_bounded (by decide) (by decide) (by decide) (by decide)
      (by decide) (by decide) (by decide) (by decide) (by decide) (by decide)).1.2.2.2,
   (second_run_does_nothing_more demoEnv demoNow demoLater demoNow2 demoLater2
      "/memo".toList "md".toList demoDir demoWorld "20240101120000.md".toList 5
      (by decide) (by decide) utc_bounded (by decide) (by decide) (by decide) (by decide)
      (by decide) (by decide) (by decide) (by decide) (by decide) (by decide)).2.2.2.1,
   (second_run_does_nothing_more demoEnv demoNow demoLater demoNow2 demoLater2
      "/memo".toList "md".toList demoDir demoWorld "20240101120000.md".toList 5
      (by decide) (by decide) utc_bounded (by decide) (by decide) (by decide) (by decide)
      (by decide) (by decide) (by decide) (by decide) (by decide) (by decide)).2.2.2.2⟩

/-- The theorem `variants_differ_by_filter` at a directory whose timestamp files all have
the extension `md`: the two variants agree; and at the file `20240103120000.txt` of the
directory of the examples, which the root variant leaves in place. -/
theorem variants_differ_by_filter_witness :
    Root.archiveOldFiles demoEnv demoNow demoDir "md".toList ⟨demoFsMd, []⟩ =
      Cm.archiveOldFiles demoEnv demoNow demoDir "md".toList ⟨demoFsMd, []⟩ ∧
    (Root.archiveOldFiles demoEnv demoNow demoDir "md".toList demoWorld).2.nodeAt
      "/memo/20240103120000.txt".toList = demoWorld.nodeAt "/memo/20240103120000.txt".toList :=
  ⟨(variants_differ_by_filter demoEnv demoNow demoDir "md".toList ⟨demoFsMd, []⟩).2.2.2
      (by decide),
   ((variants_differ_by_filter demoEnv demoNow demoDir "md".toList demoWorld).2.1
      "20240103120000.txt".toList (by decide) (by decide) (by decide)).2.1⟩

/-- The theorem `threshold_monotone` at the runs of 2025-03-15 09:30:00 and 2025-04-20
18:00:00 in the fixed zone one hour east of UTC, and the date 2025-01-01. -/
theorem threshold_monotone_witness :
    marchMid.Valid ∧ aprilLate.Valid ∧ Time.le marchMid.toTime aprilLate.toTime ∧
    (fileTime "20250101120000.md".toList).Before (marchMid.AddDate 0 (-1) 0) = true ∧
    (fileTime "20250101120000.md".toList).Before (aprilLate.AddDate 0 (-1) 0) = true :=
  ⟨by decide, by decide, by decide, by decide,
   threshold_monotone marchMid aprilLate (fileTime "20250101120000.md".toList) (by decide)
    (by decide) rfl (fixedZone_fixed 3600) (by decide) (by decide) (by decide) (by decide)⟩

end CreateMemo
